import Mathlib

/-!
# Verification of the worm-hole concurrency toolkit (sequential embedding)

This file is a shallow embedding, in Lean 4, of the core components of the
worm-hole repository:

* the ticket-ring MPMC queue, bounded (`mpmc_queue<value_t, false>`) and
  capped-growth (`mpmc_queue<value_t, true>`), from
  `src/include/wh/core/mpmc_queue.hpp`;
* the channel layer from `src/include/wh/sync/channel.hpp`;
* the sender-notify registry from `src/include/wh/sync/sender_notify.hpp`.

Modelling conventions:

* The embedding gives the *sequential* semantics of the code: operations run
  one at a time, so every `compare_exchange` whose expected value was read in
  the same operation succeeds, every re-read of an atomic returns the value
  read before, and the seqlock of the growable ring is never observed locked.
  Turn-check branches that only fire under concurrent interference are still
  written out (they are decidable dead branches under a fixed memory).
* Tickets, turns and counters are modelled as unbounded naturals.  The source
  uses `std::uint64_t` counters "counted forever" (spec section 5: no wrap
  handling required in practice); the natural-number model agrees with the
  64-bit code on every execution short enough that no counter reaches `2^64`.
  Where a claim is explicitly about 64-bit values (the turn computation of C7
  and the signed comparison `turn_reached` of C3), the definitions carry the
  exact `% 2^64` wrap.
* Cache-line padding (`slot_padding`) is a constant additive offset applied to
  every slot index; the model drops it and works with logical slot indices
  `0 .. capacity-1`.
* Raw slot storage is modelled as `Option` values; moving out of a slot whose
  turn claims it is full but whose storage is empty would be undefined
  behaviour in the source and is modelled as a contract trap (`none`), as are
  `wh_precondition` failures.
* The intrusive doubly-linked waiter lists of the registry are modelled as
  Lean lists of waiter identifiers; the waiter records live in a side table
  indexed by those identifiers, mirroring caller-owned waiter memory.
  Callbacks are modelled as the list of waiter identifiers fired by a
  `notify`, in invocation order.
-/

/-- `2^64`, the modulus of the source's `std::uint64_t` arithmetic. -/
def U64 : Nat := 2 ^ 64

/-- `wh::core::is_power_of_two` (compiler.hpp):
`value != 0 && (value & (value - 1)) == 0`. -/
def is_power_of_two (value : Nat) : Bool :=
  value != 0 && (value &&& (value - 1)) == 0

/-- Halving recursion behind `ctz`; the fuel argument only serves
structural termination and always suffices at `ctz`'s call site. -/
def ctz_go : Nat → Nat → Nat
  | 0, _ => 0
  | fuel + 1, n => if n % 2 = 1 ∨ n = 0 then 0 else ctz_go fuel (n / 2) + 1

/-- Count of trailing zero bits, the model of `std::countr_zero` on the
power-of-two capacities the source applies it to. -/
def ctz (n : Nat) : Nat := ctz_go n n

/-- The candidate stride table of `mpmc_queue_common::compute_stride`. -/
def small_primes : List Nat := [2, 3, 5, 7, 11, 13, 17, 19, 23]

/-- One iteration of the stride-selection loop of
`mpmc_queue_common::compute_stride`; the accumulator is
`(best_stride, best_separation)`. -/
def stride_step (capacity : Nat) (best : Nat × Nat) (stride : Nat) : Nat × Nat :=
  if stride % capacity = 0 ∨ capacity % stride = 0 then best
  else
    let separation := min (stride % capacity) (capacity - stride % capacity)
    if best.2 < separation then (stride, separation) else best

/-- `mpmc_queue_common::compute_stride` (mpmc_queue.hpp lines 66-89): pick,
from the small-prime table, the stride maximising the circular separation of
consecutive tickets; candidates dividing or divided by the capacity are
skipped; the fallback is stride 1. -/
def compute_stride (capacity : Nat) : Nat :=
  (small_primes.foldl (stride_step capacity) (1, 1)).1

/-- `mpmc_queue_common::enqueue_turn` in the unbounded-counter model: the
producer turn of a local ticket.  The power-of-two branch mirrors the shift
fast path of the source. -/
def enqueue_turn (local_ticket capacity : Nat) : Nat :=
  if is_power_of_two capacity then (local_ticket >>> ctz capacity) <<< 1
  else local_ticket / capacity * 2

/-- `mpmc_queue_common::dequeue_turn`: consumer turn = producer turn + 1. -/
def dequeue_turn (local_ticket capacity : Nat) : Nat :=
  enqueue_turn local_ticket capacity + 1

/-- The general division path of `mpmc_queue_common::enqueue_turn`, at exact
`std::uint64_t` precision: `(local_ticket / capacity) * 2U`. -/
def enqueue_turn_div (local_ticket capacity : Nat) : Nat :=
  local_ticket / capacity * 2 % U64

/-- The power-of-two fast path of `mpmc_queue_common::enqueue_turn`, at exact
`std::uint64_t` precision: `(local_ticket >> countr_zero(capacity)) << 1U`. -/
def enqueue_turn_shift (local_ticket capacity : Nat) : Nat :=
  ((local_ticket >>> ctz capacity) <<< 1) % U64

/-- `mpmc_queue_common::enqueue_turn` at exact `std::uint64_t` precision,
with the power-of-two branch of the source. -/
def enqueue_turn64 (local_ticket capacity : Nat) : Nat :=
  if is_power_of_two capacity then enqueue_turn_shift local_ticket capacity
  else enqueue_turn_div local_ticket capacity

/-- `mpmc_queue_common::dequeue_turn` at exact `std::uint64_t` precision. -/
def dequeue_turn64 (local_ticket capacity : Nat) : Nat :=
  (enqueue_turn64 local_ticket capacity + 1) % U64

/-- Logical slot index of a ticket:
`mpmc_queue<value_t, false>::slot_index` (mpmc_queue.hpp lines 1044-1053)
without the constant `slot_padding` offset, with the stride the constructor
computes for the capacity.  The power-of-two branch is the mask fast path of
the source. -/
def slot_index (ticket capacity : Nat) : Nat :=
  if is_power_of_two capacity then
    ticket * compute_stride capacity &&& (capacity - 1)
  else
    ticket * compute_stride capacity % capacity

/-- The closed error set of `wh::core::errc` (error.hpp) restricted to the
codes the queue and channel synchronous paths can produce. -/
inductive Errc where
  | queue_full
  | queue_empty
  | channel_closed
deriving DecidableEq, Repr

/-! ## Bounded ticket-ring queue (sequential semantics)

`mpmc_queue<value_t, false, allocator_t>` from mpmc_queue.hpp.  The state
carries the logical slot array as two functions (`turns`, `storage`) over
logical slot indices, plus the two monotone tickets. -/

/-- State of the bounded queue `mpmc_queue<value_t, false>`. -/
structure BQueue (α : Type) where
  capacity : Nat
  turns : Nat → Nat
  storage : Nat → Option α
  push_ticket : Nat
  pop_ticket : Nat

/-- Freshly constructed bounded queue: all turns zero, storage empty,
tickets zero (`init_slots`). -/
def BQueue.init (α : Type) (capacity : Nat) : BQueue α :=
  ⟨capacity, fun _ => 0, fun _ => none, 0, 0⟩

/-- `mpmc_queue<value_t, false>` constructor including the
`validate_capacity` precondition: capacity zero is a contract trap. -/
def bqueue_new (α : Type) (capacity : Nat) : Option (BQueue α) :=
  if 0 < capacity then some (BQueue.init α capacity) else none

/-- Sequential `mpmc_queue<value_t, false>::try_push` (lines 814-842).
Sequentially the ticket re-read returns the same ticket, so a turn mismatch
is immediately `queue_full`, and the `compare_exchange_weak` on the matched
turn succeeds. -/
def try_push {α : Type} (q : BQueue α) (v : α) : Option Errc × BQueue α :=
  let idx := slot_index q.push_ticket q.capacity
  let expected := enqueue_turn q.push_ticket q.capacity
  if q.turns idx = expected then
    (none,
      { q with
        push_ticket := q.push_ticket + 1
        turns := Function.update q.turns idx (expected + 1)
        storage := Function.update q.storage idx (some v) })
  else (some Errc.queue_full, q)

/-- Sequential `mpmc_queue<value_t, false>::try_pop` (lines 844-875).
Moving out of a slot whose storage is empty is undefined behaviour in the
source; the model returns `none` (trap) there, and the ring invariant proves
the branch unreachable. -/
def try_pop {α : Type} (q : BQueue α) : Option (Except Errc α × BQueue α) :=
  let idx := slot_index q.pop_ticket q.capacity
  let expected := dequeue_turn q.pop_ticket q.capacity
  if q.turns idx = expected then
    match q.storage idx with
    | none => none
    | some v =>
        some (Except.ok v,
          { q with
            pop_ticket := q.pop_ticket + 1
            turns := Function.update q.turns idx (expected + 1)
            storage := Function.update q.storage idx none })
  else some (Except.error Errc.queue_empty, q)

/-- `push_count` observer (= `write_count` = the push ticket). -/
def BQueue.push_count {α : Type} (q : BQueue α) : Nat := q.push_ticket

/-- `pop_count` observer (= `read_count` = the pop ticket). -/
def BQueue.pop_count {α : Type} (q : BQueue α) : Nat := q.pop_ticket

/-- One synchronous queue operation for history runs. -/
inductive QOp (α : Type) where
  | push (v : α)
  | pop
deriving DecidableEq, Repr

/-- Outcome of one synchronous queue operation. -/
inductive OpResult (α : Type) where
  | pushed
  | failed (e : Errc)
  | popped (v : α)
deriving DecidableEq, Repr

/-- Run a sequential history on the bounded queue; `none` means a contract
trap occurred. -/
def brun {α : Type} (q : BQueue α) : List (QOp α) → Option (BQueue α)
  | [] => some q
  | QOp.push v :: rest => brun (try_push q v).2 rest
  | QOp.pop :: rest =>
    match try_pop q with
    | none => none
    | some (_, q') => brun q' rest

/-- Run a sequential history on the bounded queue collecting each
operation's outcome (stopping at a contract trap). -/
def brun_trace {α : Type} (q : BQueue α) : List (QOp α) → List (OpResult α)
  | [] => []
  | QOp.push v :: rest =>
    match try_push q v with
    | (none, q') => OpResult.pushed :: brun_trace q' rest
    | (some e, q') => OpResult.failed e :: brun_trace q' rest
  | QOp.pop :: rest =>
    match try_pop q with
    | none => []
    | some (Except.ok v, q') => OpResult.popped v :: brun_trace q' rest
    | some (Except.error e, q') => OpResult.failed e :: brun_trace q' rest

/-- The concrete single-producer/single-consumer script of the spec's first
boundary scenario: push `1,2,3,4,5`, then pop five times. -/
def c1_script : List (QOp Nat) :=
  [QOp.push 1, QOp.push 2, QOp.push 3, QOp.push 4, QOp.push 5,
   QOp.pop, QOp.pop, QOp.pop, QOp.pop, QOp.pop]

/-- Well-formedness of a bounded-queue state with pending FIFO contents
`vs`: the window `[pop_ticket, push_ticket)` of tickets holds exactly the
pending values (odd turns), and every ticket of the next lap window
`[push_ticket, pop_ticket + capacity)` sees its slot at its producer turn
(even turns). -/
def WF {α : Type} (q : BQueue α) (vs : List α) : Prop :=
  0 < q.capacity ∧
  q.pop_ticket ≤ q.push_ticket ∧
  q.push_ticket ≤ q.pop_ticket + q.capacity ∧
  vs.length = q.push_ticket - q.pop_ticket ∧
  (∀ k, (h : k < vs.length) →
    q.turns (slot_index (q.pop_ticket + k) q.capacity)
      = enqueue_turn (q.pop_ticket + k) q.capacity + 1 ∧
    q.storage (slot_index (q.pop_ticket + k) q.capacity) = some (vs.get ⟨k, h⟩)) ∧
  (∀ t, q.push_ticket ≤ t → t < q.pop_ticket + q.capacity →
    q.turns (slot_index t q.capacity) = enqueue_turn t q.capacity)

/-! ## Channel layer (sequential semantics)

`wh::core::channel` from channel.hpp: a bounded queue, a closed flag and a
close epoch.  The closure notifier is elided from the synchronous state: in
sequential histories of `try_push` / `try_pop` / `close` no waiter is ever
armed on it, and `sender_notify::notify` on a waiter-free registry fires no
callback and is a state no-op on every bucket (see the registry section). -/

/-- Shared channel state (`channel::state`): queue + closed flag +
close epoch. -/
structure Channel (α : Type) where
  queue : BQueue α
  close_epoch : Nat
  closed : Bool

/-- Freshly constructed channel state. -/
def Channel.init (α : Type) (capacity : Nat) : Channel α :=
  ⟨BQueue.init α capacity, 0, false⟩

/-- `channel` constructor with its `wh_precondition(options.capacity > 0)`
(and the queue's own `validate_capacity`): capacity zero is a contract
trap. -/
def channel_new (α : Type) (capacity : Nat) : Option (Channel α) :=
  if 0 < capacity then some (Channel.init α capacity) else none

/-- `channel::try_push_impl` (channel.hpp lines 488-495): closed channels
refuse with `channel_closed`, otherwise delegate to the queue. -/
def ch_try_push {α : Type} (c : Channel α) (v : α) : Option Errc × Channel α :=
  if c.closed then (some Errc.channel_closed, c)
  else
    let r := try_push c.queue v
    (r.1, { c with queue := r.2 })

/-- `channel::try_pop_impl` (channel.hpp lines 497-515): a popped value is
returned as is; on `queue_empty` a closed channel reports `channel_closed`;
any other error passes through. -/
def ch_try_pop {α : Type} (c : Channel α) : Option (Except Errc α × Channel α) :=
  match try_pop c.queue with
  | none => none
  | some (Except.ok v, q') => some (Except.ok v, { c with queue := q' })
  | some (Except.error e, q') =>
    if e ≠ Errc.queue_empty then some (Except.error e, { c with queue := q' })
    else if c.closed then some (Except.error Errc.channel_closed, { c with queue := q' })
    else some (Except.error e, { c with queue := q' })

/-- `channel::close_impl` (channel.hpp lines 517-526): the winner of the
`closed.exchange(true)` race increments the close epoch (and fires the
closure notifier, a no-op with no armed waiters); every other caller
returns `false` leaving the state untouched. -/
def ch_close {α : Type} (c : Channel α) : Bool × Channel α :=
  if c.closed then (false, c)
  else (true, { c with closed := true, close_epoch := c.close_epoch + 1 })

/-- One synchronous channel operation for history runs. -/
inductive ChOp (α : Type) where
  | push (v : α)
  | pop
  | close
deriving DecidableEq, Repr

/-- Run a sequential history on a channel; `none` means a contract trap. -/
def crun {α : Type} (c : Channel α) : List (ChOp α) → Option (Channel α)
  | [] => some c
  | ChOp.push v :: rest => crun (ch_try_push c v).2 rest
  | ChOp.pop :: rest =>
    match ch_try_pop c with
    | none => none
    | some (_, c') => crun c' rest
  | ChOp.close :: rest => crun (ch_close c).2 rest

/-- Modelled from the spec: the reference channel of spec sections 4.C and 8
(the refinement target for claim C2), in the spec's words: a FIFO list of
pending values bounded by the capacity, plus a closed flag; `try_push` on a
closed channel fails with `channel_closed` and otherwise appends if there is
room; `try_pop` takes the oldest pending value, and on an empty queue fails
with `channel_closed` when closed and `queue_empty` otherwise; the first
`close` returns `true`, later ones `false`. -/
structure SpecChannel (α : Type) where
  pending : List α
  capacity : Nat
  closed : Bool

/-- Reference channel, initial state. -/
def SpecChannel.init (α : Type) (capacity : Nat) : SpecChannel α :=
  ⟨[], capacity, false⟩

/-- Reference `try_push` (spec's words). -/
def spec_push {α : Type} (s : SpecChannel α) (v : α) : Option Errc × SpecChannel α :=
  if s.closed then (some Errc.channel_closed, s)
  else if s.pending.length < s.capacity then (none, { s with pending := s.pending ++ [v] })
  else (some Errc.queue_full, s)

/-- Reference `try_pop` (spec's words). -/
def spec_pop {α : Type} (s : SpecChannel α) : Except Errc α × SpecChannel α :=
  match s.pending with
  | v :: rest => (Except.ok v, { s with pending := rest })
  | [] =>
    if s.closed then (Except.error Errc.channel_closed, s)
    else (Except.error Errc.queue_empty, s)

/-- Reference `close` (spec's words). -/
def spec_close {α : Type} (s : SpecChannel α) : Bool × SpecChannel α :=
  if s.closed then (false, s) else (true, { s with closed := true })

/-- Run a sequential history on the reference channel. -/
def srun {α : Type} (s : SpecChannel α) : List (ChOp α) → SpecChannel α
  | [] => s
  | ChOp.push v :: rest => srun (spec_push s v).2 rest
  | ChOp.pop :: rest => srun (spec_pop s).2 rest
  | ChOp.close :: rest => srun (spec_close s).2 rest

/-- Pop `n` times, collecting the values of successful pops in order;
stops early on a failed pop, `none` on a contract trap. -/
def ch_drain {α : Type} (c : Channel α) : Nat → Option (List α × Channel α)
  | 0 => some ([], c)
  | n + 1 =>
    match ch_try_pop c with
    | none => none
    | some (Except.error _, c') => some ([], c')
    | some (Except.ok v, c') =>
      match ch_drain c' n with
      | none => none
      | some (vs, c'') => some (v :: vs, c'')

/-! ## Growable ticket-ring queue (sequential semantics)

`mpmc_queue<value_t, true, allocator_t>` from mpmc_queue.hpp.  The seqlock
is never observed locked in the sequential model (every `try_expand` runs to
completion inline), so a state snapshot is simply the current fields.  The
`state_word` is represented by the active ring's `offset` together with the
length of the closed-array list.  Allocation failures of `allocate_slots`
are not modelled (allocation succeeds). -/

/-- `wh::core::mpmc_dynamic_options`. -/
structure MpmcDynamicOptions where
  max_capacity : Nat := 0
  growth_factor : Nat := 2
deriving DecidableEq, Repr

/-- `validate_capacity` (mpmc_queue.hpp lines 55-59): zero capacity is a
contract trap. -/
def validate_capacity (capacity : Nat) : Option Nat :=
  if 0 < capacity then some capacity else none

/-- `mpmc_queue<value_t, true>::resolve_growth_factor` (lines 1417-1421):
growth factors below 2 are clamped to 2 (no trap). -/
def resolve_growth_factor (growth_factor : Nat) : Nat :=
  if growth_factor < 2 then 2 else growth_factor

/-- `mpmc_queue<value_t, true>::resolve_max_capacity` (lines 1423-1431):
a zero option means "bounded at the initial capacity"; otherwise the
maximum of the requested maximum and the initial capacity (no trap). -/
def resolve_max_capacity (initial_capacity : Nat) (options : MpmcDynamicOptions) : Nat :=
  if options.max_capacity = 0 then initial_capacity
  else max options.max_capacity initial_capacity

/-- Loop body of `compute_max_closed_arrays`; the fuel argument only serves
termination and exceeds the possible iteration count for every resolved
growth factor (≥ 2). -/
def compute_max_closed_arrays_go (max_capacity growth_factor : Nat) :
    Nat → Nat → Nat → Nat
  | 0, _, count => count
  | fuel + 1, expanded, count =>
    if expanded < max_capacity then
      let next :=
        if max_capacity / growth_factor < expanded then max_capacity
        else expanded * growth_factor
      compute_max_closed_arrays_go max_capacity growth_factor fuel next (count + 1)
    else count

/-- `mpmc_queue<value_t, true>::compute_max_closed_arrays`
(lines 1433-1451): number of growth steps from the initial to the maximum
capacity. -/
def compute_max_closed_arrays (initial_capacity max_capacity growth_factor : Nat) : Nat :=
  if max_capacity ≤ initial_capacity then 0
  else compute_max_closed_arrays_go max_capacity growth_factor
    (max_capacity + 1) initial_capacity 0

/-- `normalize_initial_capacity` (lines 1453-1458):
`min(max(1, min_capacity), queue_capacity)`. -/
def normalize_initial_capacity (queue_capacity min_capacity : Nat) : Nat :=
  min (max 1 min_capacity) queue_capacity

/-- `make_dynamic_options` (lines 1460-1468). -/
def make_dynamic_options (queue_capacity expansion_multiplier : Nat) :
    MpmcDynamicOptions :=
  ⟨queue_capacity, expansion_multiplier⟩

/-- `default_min_dynamic_capacity` (line 1103). -/
def default_min_dynamic_capacity : Nat := 10

/-- `default_expansion_multiplier` (line 1104). -/
def default_expansion_multiplier : Nat := 10

/-- One slot ring of the growable queue, either active or retired onto the
closed-array list: its ticket offset, geometry and logical slot contents.
(`closed_array` of the source plus the active `dslots_/dcapacity_/dstride_`
tuple; the offset of the active ring is the high part of `dstate_`.) -/
structure GRing (α : Type) where
  offset : Nat
  capacity : Nat
  stride : Nat
  turns : Nat → Nat
  storage : Nat → Option α

instance {α : Type} : Inhabited (GRing α) :=
  ⟨⟨0, 0, 0, fun _ => 0, fun _ => none⟩⟩

/-- State of the growable queue `mpmc_queue<value_t, true>`. -/
structure GQueue (α : Type) where
  max_capacity : Nat
  growth_factor : Nat
  max_closed_arrays : Nat
  closed_arrays : List (GRing α)
  active : GRing α
  push_ticket : Nat
  pop_ticket : Nat

/-- A freshly allocated ring at a given offset. -/
def fresh_ring (α : Type) (offset capacity : Nat) : GRing α :=
  ⟨offset, capacity, compute_stride capacity, fun _ => 0, fun _ => none⟩

/-- `mpmc_queue<value_t, true>` main constructor (lines 1123-1144), with
`validate_capacity` as a contract trap. -/
def gqueue_new (α : Type) (initial_capacity : Nat) (options : MpmcDynamicOptions) :
    Option (GQueue α) :=
  match validate_capacity initial_capacity with
  | none => none
  | some capacity =>
    let maxCapacity := resolve_max_capacity initial_capacity options
    let growthFactor := resolve_growth_factor options.growth_factor
    some
      { max_capacity := maxCapacity
        growth_factor := growthFactor
        max_closed_arrays := compute_max_closed_arrays capacity maxCapacity growthFactor
        closed_arrays := []
        active := fresh_ring α 0 capacity
        push_ticket := 0
        pop_ticket := 0 }

/-- The single-argument growable constructor (lines 1106-1112): the argument
is the queue (maximum) capacity; the starting capacity is normalised against
`default_min_dynamic_capacity` and the growth factor defaults to
`default_expansion_multiplier`. -/
def gqueue_new_default (α : Type) (initial_capacity : Nat) : Option (GQueue α) :=
  match validate_capacity initial_capacity with
  | none => none
  | some capacity =>
    gqueue_new α
      (normalize_initial_capacity capacity default_min_dynamic_capacity)
      (make_dynamic_options capacity default_expansion_multiplier)

/-- The three-argument growable constructor (lines 1114-1121). -/
def gqueue_new_triple (α : Type)
    (queue_capacity min_capacity expansion_multiplier : Nat) : Option (GQueue α) :=
  match validate_capacity queue_capacity with
  | none => none
  | some capacity =>
    gqueue_new α
      (normalize_initial_capacity capacity min_capacity)
      (make_dynamic_options capacity expansion_multiplier)

/-- `capacity()` observer of the growable queue (= `dcapacity_`). -/
def GQueue.capacity {α : Type} (q : GQueue α) : Nat := q.active.capacity

/-- `max_capacity()` observer. -/
def GQueue.maxCapacity {α : Type} (q : GQueue α) : Nat := q.max_capacity

/-- `allocated_capacity()` observer (= `dcapacity_`). -/
def GQueue.allocatedCapacity {α : Type} (q : GQueue α) : Nat := q.active.capacity

/-- `push_count()` observer. -/
def GQueue.push_count {α : Type} (q : GQueue α) : Nat := q.push_ticket

/-- `pop_count()` observer. -/
def GQueue.pop_count {α : Type} (q : GQueue α) : Nat := q.pop_ticket

/-- All rings of the queue, oldest first; the active ring is last.  Ring
identity (the index into this list) is stable across growth because growth
appends. -/
def grings {α : Type} (q : GQueue α) : List (GRing α) :=
  q.closed_arrays ++ [q.active]

/-- Scan of the closed-array list from the newest entry (highest index)
down, for the first ring whose offset is at or below the ticket — the loop
of `maybe_update_from_closed` (lines 1547-1571).  Returns the ring together
with its index. -/
def find_newest_le {α : Type} (ticket : Nat) : List (GRing α) → Option (Nat × GRing α)
  | [] => none
  | r :: rest =>
    match find_newest_le ticket rest with
    | some (i, hit) => some (i + 1, hit)
    | none => if r.offset ≤ ticket then some (0, r) else none

/-- `maybe_update_from_closed`: the ring a ticket operates on — the active
ring when the ticket is at or past the active offset, otherwise the newest
closed ring whose offset covers it.  `none` is the `wh_precondition(false)`
trap of the source (unreachable from constructed queues). -/
def locate_ring {α : Type} (q : GQueue α) (ticket : Nat) : Option (Nat × GRing α) :=
  if q.active.offset ≤ ticket then some (q.closed_arrays.length, q.active)
  else find_newest_le ticket q.closed_arrays

/-- Write back an updated ring at a ring index. -/
def set_ring {α : Type} (q : GQueue α) (i : Nat) (r : GRing α) : GQueue α :=
  if i = q.closed_arrays.length then { q with active := r }
  else { q with closed_arrays := q.closed_arrays.set i r }

/-- `mpmc_queue<value_t, true>::slot_index` (lines 1627-1639), without the
constant padding offset. -/
def gslot_index (local_ticket capacity stride : Nat) : Nat :=
  if is_power_of_two capacity then local_ticket * stride &&& (capacity - 1)
  else local_ticket * stride % capacity

/-- `next_capacity` (lines 1512-1528). -/
def next_capacity (max_capacity growth_factor current : Nat) : Nat :=
  if max_capacity ≤ current then current
  else
    let grown :=
      if max_capacity / growth_factor < current then max_capacity
      else current * growth_factor
    if grown ≤ current then max_capacity else min grown max_capacity

/-- Sequential `try_expand` (lines 1573-1625): the seqlock CAS succeeds, the
current ring is recorded on the closed-array list, and a fresh ring with
offset `1 + max(push_ticket, pop_ticket)` becomes active.  The exhausted
branches (capacity at maximum, no growth possible, closed-array slots
spent) restore the state and report `false`. -/
def gtry_expand {α : Type} (q : GQueue α) (capacity : Nat) : Bool × GQueue α :=
  if q.max_capacity ≤ capacity then (false, q)
  else
    let expanded := next_capacity q.max_capacity q.growth_factor capacity
    if expanded ≤ capacity then (false, q)
    else if q.max_closed_arrays ≤ q.closed_arrays.length then (false, q)
    else
      let ticket_offset := 1 + max q.push_ticket q.pop_ticket
      (true,
        { q with
          closed_arrays := q.closed_arrays ++ [q.active]
          active := fresh_ring α ticket_offset expanded })

/-- One iteration of the sequential `try_push` loop of the growable queue
(lines 1169-1217): `inl` = the operation finished with the given outcome,
`inr` = the ring expanded and the loop re-enters; outer `none` is a contract
trap.  Sequentially the ticket re-read always matches, and the
`compare_exchange_strong` on a matched turn succeeds. -/
def gpush_step {α : Type} (q : GQueue α) (v : α) :
    Option (Sum (Option Errc × GQueue α) (GQueue α)) :=
  let ticket := q.push_ticket
  match locate_ring q ticket with
  | none => none
  | some (i, ring) =>
    let local_ticket := ticket - ring.offset
    let idx := gslot_index local_ticket ring.capacity ring.stride
    let expected := enqueue_turn local_ticket ring.capacity
    if ring.turns idx = expected then
      let ring' :=
        { ring with
          turns := Function.update ring.turns idx (expected + 1)
          storage := Function.update ring.storage idx (some v) }
      some (Sum.inl (none, { set_ring q i ring' with push_ticket := ticket + 1 }))
    else
      if ring.offset = q.active.offset then
        match gtry_expand q ring.capacity with
        | (true, q') => some (Sum.inr q')
        | (false, q') => some (Sum.inl (some Errc.queue_full, q'))
      else some (Sum.inl (some Errc.queue_full, q))

/-- Sequential `mpmc_queue<value_t, true>::try_push` (lines 1164-1218):
the `approximate_depth() >= max_capacity` guard, then the loop.  After one
expansion the re-entered iteration necessarily finishes (the fresh offset
lies past the push ticket), so two iterations are modelled; a third
(sequentially impossible, see `gpush_step_after_expand`) is a trap. -/
def gtry_push {α : Type} (q : GQueue α) (v : α) : Option (Option Errc × GQueue α) :=
  if q.max_capacity ≤ q.push_ticket - q.pop_ticket then
    some (some Errc.queue_full, q)
  else
    match gpush_step q v with
    | none => none
    | some (Sum.inl r) => some r
    | some (Sum.inr q') =>
      match gpush_step q' v with
      | none => none
      | some (Sum.inl r) => some r
      | some (Sum.inr _) => none

/-- Sequential `mpmc_queue<value_t, true>::try_pop` (lines 1220-1265): a
turn mismatch is immediately `queue_empty`; on a match the
`compare_exchange_strong` succeeds and the value moves out.  As in the
bounded model, moving out of empty storage is a trap. -/
def gtry_pop {α : Type} (q : GQueue α) : Option (Except Errc α × GQueue α) :=
  let ticket := q.pop_ticket
  match locate_ring q ticket with
  | none => none
  | some (i, ring) =>
    let local_ticket := ticket - ring.offset
    let idx := gslot_index local_ticket ring.capacity ring.stride
    let expected := dequeue_turn local_ticket ring.capacity
    if ring.turns idx = expected then
      match ring.storage idx with
      | none => none
      | some v =>
        let ring' :=
          { ring with
            turns := Function.update ring.turns idx (expected + 1)
            storage := Function.update ring.storage idx none }
        some (Except.ok v, { set_ring q i ring' with pop_ticket := ticket + 1 })
    else some (Except.error Errc.queue_empty, q)

/-- Run a sequential history on the growable queue; `none` means a contract
trap. -/
def grun {α : Type} (q : GQueue α) : List (QOp α) → Option (GQueue α)
  | [] => some q
  | QOp.push v :: rest =>
    match gtry_push q v with
    | none => none
    | some (_, q') => grun q' rest
  | QOp.pop :: rest =>
    match gtry_pop q with
    | none => none
    | some (_, q') => grun q' rest

/-- Number of pending (occupied) slots of one ring: slots whose turn is
odd.  Element liveness is encoded in the turn parity (spec section 3: a
slot holds an element iff its turn is odd). -/
def ring_pending {α : Type} (r : GRing α) : Nat :=
  ((Finset.range r.capacity).filter (fun j => r.turns j % 2 = 1)).card

/-- Number of pending slots over all rings of the queue. -/
def pending_count {α : Type} (q : GQueue α) : Nat :=
  ((grings q).map ring_pending).sum

/-- Invariant of reachable growable-queue states: the ticket window equals
the total number of odd-turn (occupied) slots and is bounded by the maximum
capacity; the oldest ring has offset zero (every ticket finds a ring); all
rings have positive capacity; and every odd-turn slot holds a value. -/
def GInv {α : Type} (q : GQueue α) : Prop :=
  q.push_ticket = q.pop_ticket + pending_count q ∧
  q.push_ticket - q.pop_ticket ≤ q.max_capacity ∧
  (grings q).head?.map GRing.offset = some 0 ∧
  ∀ r ∈ grings q, 0 < r.capacity ∧
    ∀ j, r.turns j % 2 = 1 → ∃ v, r.storage j = some v

/-! ## Sender-notify registry (sequential semantics)

`wh::core::sender_notify` from sender_notify.hpp.  Buckets ("wait
channels") are a list of 1024 records; the per-bucket spin locks always
succeed immediately in the sequential model.  The `turn_ptr` of a waiter is
modelled as a numeric address into a read-only memory `mem` (registry
operations never write the turn words; the claims under verification
stipulate no concurrent mutation).  Address `0` models the null pointer.
A waiter's intrusive links are represented by membership of its identifier
in a bucket's list; the `notifying` spin-wait of `disarm` is elided because
between sequential operations no notify is in flight (every modelled
`notify` clears `notifying` before returning). -/

/-- `sender_notify::wait_channel_count_`. -/
def wait_channel_count : Nat := 1024

/-- `sender_notify::invalid_channel_index` (= `uint16` max). -/
def invalid_channel_index : Nat := 65535

/-- One caller-owned waiter record (`sender_notify::waiter`); the intrusive
`next`/`prev` pointers are represented by bucket-list membership. -/
structure NWaiter where
  turn_addr : Nat
  expected_turn : Nat
  channel_hint : Nat
  armed : Bool
  linked : Bool
  notifying : Bool
  channel_index : Nat
deriving DecidableEq, Repr

instance : Inhabited NWaiter :=
  ⟨⟨0, 0, invalid_channel_index, false, false, false, invalid_channel_index⟩⟩

/-- One registry bucket (`sender_notify::wait_channel`): key tag, key pair,
and the intrusive waiter list (identifiers, head first); `size` is the list
length. -/
structure WaitChannel where
  key_tag : Nat
  turn_addr : Nat
  expected_turn : Nat
  waiters : List Nat
deriving DecidableEq, Repr

/-- The empty bucket. -/
def empty_channel : WaitChannel := ⟨0, 0, 0, []⟩

/-- Registry state (`sender_notify`): the 1024 buckets, the adaptive probe
window, and the occupied-bucket counter backing `has_waiters()`. -/
structure Registry where
  channels : List WaitChannel
  probe_window : Nat
  occupied_channel_count : Nat
deriving DecidableEq, Repr

/-- Freshly constructed registry: all buckets empty, probe window 16. -/
def Registry.init : Registry :=
  ⟨List.replicate wait_channel_count empty_channel, 16, 0⟩

/-- A world: one registry, the table of caller-owned waiter records, and
the read-only turn memory. -/
structure NotifyWorld where
  reg : Registry
  waiters : List NWaiter
  mem : Nat → Nat

/-- `sender_notify::turn_reached` (lines 189-193): the signed 64-bit test
`(int64)(current - expected) >= 0`, at exact `uint64` wrap precision. -/
def turn_reached (current_turn expected_turn : Nat) : Bool :=
  (current_turn % U64 + (U64 - expected_turn % U64)) % U64 < 2 ^ 63

/-- `sender_notify::mix_key` (lines 195-208): SplitMix-style finalizer of
`(turn_ptr >> 6, expected_turn)` with the low bit forced (zero is reserved
for empty buckets); every step at `uint64` precision. -/
def mix_key (turn_addr expected_turn : Nat) : Nat :=
  let m0 := (turn_addr >>> 6) % U64
  let m1 := m0 ^^^ ((expected_turn + 0x9e3779b97f4a7c15 + (m0 <<< 6) + (m0 >>> 2)) % U64)
  let m2 := m1 ^^^ (m1 >>> 30)
  let m3 := m2 * 0xbf58476d1ce4e5b9 % U64
  let m4 := m3 ^^^ (m3 >>> 27)
  let m5 := m4 * 0x94d049bb133111eb % U64
  let m6 := m5 ^^^ (m5 >>> 31)
  m6 ||| 1

/-- `sender_notify::hash_key` (lines 210-215). -/
def hash_key (turn_addr expected_turn : Nat) : Nat :=
  mix_key turn_addr expected_turn &&& (wait_channel_count - 1)

/-- `sender_notify::suggest_channel_index` (lines 43-48). -/
def suggest_channel_index (turn_addr expected_turn : Nat) : Nat :=
  hash_key turn_addr expected_turn

/-- Bucket lookup (out-of-range indices yield the empty bucket; all real
accesses stay below `wait_channel_count`). -/
def getch (channels : List WaitChannel) (index : Nat) : WaitChannel :=
  channels.getD index empty_channel

/-- `probe_window()` (lines 217-220): the stored window clamped to
`[min_probe_window_, max_probe_window_] = [8, 256]`. -/
def probe_window (reg : Registry) : Nat :=
  max 8 (min reg.probe_window 256)

/-- `maybe_grow_probe_window` (lines 222-230); the sequential
`compare_exchange_weak` succeeds. -/
def maybe_grow_probe_window (reg : Registry) (current : Nat) : Registry :=
  if 256 ≤ current then reg
  else { reg with probe_window := min 256 (current * 2) }

/-- Scan core of `lock_matching_channel` (lines 232-254): walk `fuel`
buckets from `start + offset`, returning the first whose tag and exact key
match. -/
def find_matching_go (channels : List WaitChannel)
    (turn_addr expected_turn key_tag start : Nat) : Nat → Nat → Option Nat
  | _, 0 => none
  | offset, fuel + 1 =>
    let index := (start + offset) &&& (wait_channel_count - 1)
    let ch := getch channels index
    if ch.key_tag = key_tag ∧ ch.turn_addr = turn_addr ∧ ch.expected_turn = expected_turn
    then some index
    else find_matching_go channels turn_addr expected_turn key_tag start (offset + 1) fuel

/-- `lock_matching_channel`: first bucket within the span holding exactly
the probed key. -/
def lock_matching_channel (channels : List WaitChannel)
    (turn_addr expected_turn key_tag start span : Nat) : Option Nat :=
  find_matching_go channels turn_addr expected_turn key_tag start 0 span

/-- Scan core of `lock_empty_channel` (lines 256-275): first bucket within
the span with a zero tag (re-checked together with emptiness of the waiter
list, the source's under-lock re-check). -/
def find_empty_go (channels : List WaitChannel) (start : Nat) : Nat → Nat → Option Nat
  | _, 0 => none
  | offset, fuel + 1 =>
    let index := (start + offset) &&& (wait_channel_count - 1)
    let ch := getch channels index
    if ch.key_tag = 0 then
      if ch.waiters = [] ∧ ch.key_tag = 0 then some index
      else find_empty_go channels start (offset + 1) fuel
    else find_empty_go channels start (offset + 1) fuel

/-- `lock_empty_channel`. -/
def lock_empty_channel (channels : List WaitChannel) (start span : Nat) : Option Nat :=
  find_empty_go channels start 0 span

/-- `lock_channel_by_hint` (lines 277-292): reject an invalid hint or a
bucket tagged with a different key; otherwise the hinted bucket is
acquired. -/
def lock_channel_by_hint (channels : List WaitChannel) (hint key_tag : Nat) :
    Option Nat :=
  if hint = invalid_channel_index then none
  else
    let index := hint &&& (wait_channel_count - 1)
    let ch := getch channels index
    if ch.key_tag ≠ 0 ∧ ch.key_tag ≠ key_tag then none else some index

/-- Install a key into a (necessarily empty) bucket, as done when `arm`
seizes it. -/
def seize_channel (reg : Registry) (index turn_addr expected_turn key_tag : Nat) :
    Registry :=
  let ch := getch reg.channels index
  { reg with
    channels := reg.channels.set index
      { ch with turn_addr := turn_addr, expected_turn := expected_turn,
                key_tag := key_tag } }

/-- One iteration of the probing loop of `find_or_reserve_channel`
(lines 332-348): match within the window, else seize an empty bucket within
the window, else grow the window. -/
def attempt_once (reg : Registry) (turn_addr expected_turn key_tag start : Nat) :
    Sum (Registry × Nat) Registry :=
  let span := probe_window reg
  match lock_matching_channel reg.channels turn_addr expected_turn key_tag start span with
  | some index => Sum.inl (reg, index)
  | none =>
    match lock_empty_channel reg.channels start span with
    | some index => Sum.inl (seize_channel reg index turn_addr expected_turn key_tag, index)
    | none => Sum.inr (maybe_grow_probe_window reg span)

/-- The full-table fallback of `find_or_reserve_channel` (lines 350-364):
a whole-table match scan, then a whole-table empty-bucket scan. -/
def full_table_rounds (reg3 : Registry) (turn_addr expected_turn key_tag start : Nat) :
    Registry × Option Nat :=
  match lock_matching_channel reg3.channels turn_addr expected_turn key_tag
      start wait_channel_count with
  | some index => (reg3, some index)
  | none =>
    match lock_empty_channel reg3.channels start wait_channel_count with
    | some index =>
      (seize_channel reg3 index turn_addr expected_turn key_tag, some index)
    | none => (reg3, none)

/-- The probing loop of `find_or_reserve_channel` (lines 332-348): three
window-limited rounds, then the full-table fallback. -/
def probe_rounds (reg : Registry) (turn_addr expected_turn key_tag start : Nat) :
    Registry × Option Nat :=
  match attempt_once reg turn_addr expected_turn key_tag start with
  | Sum.inl hit => (hit.1, some hit.2)
  | Sum.inr reg1 =>
    match attempt_once reg1 turn_addr expected_turn key_tag start with
    | Sum.inl hit => (hit.1, some hit.2)
    | Sum.inr reg2 =>
      match attempt_once reg2 turn_addr expected_turn key_tag start with
      | Sum.inl hit => (hit.1, some hit.2)
      | Sum.inr reg3 =>
        full_table_rounds reg3 turn_addr expected_turn key_tag start

/-- `find_or_reserve_channel` (lines 311-365): hinted bucket first (reuse on
an exact key match, seize when empty), then three probing rounds, then a
full-table match scan and a full-table empty-bucket scan.  Returns the
(possibly probe-window-grown) registry and the chosen bucket, `none` when
every bucket is tagged by another key. -/
def find_or_reserve_channel (reg : Registry) (hint turn_addr expected_turn key_tag : Nat) :
    Registry × Option Nat :=
  let start := hash_key turn_addr expected_turn
  let hinted : Option (Registry × Nat) :=
    match lock_channel_by_hint reg.channels hint key_tag with
    | none => none
    | some index =>
      let ch := getch reg.channels index
      if ch.turn_addr = turn_addr ∧ ch.expected_turn = expected_turn then
        some (reg, index)
      else if ch.waiters = [] then
        some (seize_channel reg index turn_addr expected_turn key_tag, index)
      else none
  match hinted with
  | some hit => (hit.1, some hit.2)
  | none => probe_rounds reg turn_addr expected_turn key_tag start

/-- `clear_channel_if_empty` (lines 377-384). -/
def clear_channel_if_empty (reg : Registry) (index : Nat) : Registry :=
  let ch := getch reg.channels index
  if ch.waiters = [] then
    { reg with channels := reg.channels.set index empty_channel }
  else reg

/-- `remove_waiter_from_channel` (lines 386-417): unlink the waiter when it
is linked, clearing its `linked` flag and channel index; the bucket count
decrement marks the bucket empty when it reaches zero, and an emptied
bucket's key is cleared. -/
def remove_waiter_from_channel (w : NotifyWorld) (index wid : Nat) : NotifyWorld :=
  let ws := w.waiters.getD wid default
  if ws.linked then
    let ch := getch w.reg.channels index
    let remaining := ch.waiters.erase wid
    let ws' := { ws with linked := false, channel_index := invalid_channel_index }
    let reg1 := { w.reg with
      channels := w.reg.channels.set index { ch with waiters := remaining } }
    let reg2 :=
      if ch.waiters ≠ [] ∧ remaining = [] then
        { reg1 with occupied_channel_count := reg1.occupied_channel_count - 1 }
      else reg1
    { w with reg := clear_channel_if_empty reg2 index,
             waiters := w.waiters.set wid ws' }
  else w

/-- Sequential `sender_notify::arm` (lines 50-102).  The three turn checks
of the source are written out even though, against an unchanging memory,
the second and third agree with the first. -/
def arm (w : NotifyWorld) (wid : Nat) : Bool × NotifyWorld :=
  let ws := w.waiters.getD wid default
  let turn_addr := ws.turn_addr
  if turn_reached (w.mem turn_addr) ws.expected_turn then (false, w)
  else
    let key_tag := mix_key turn_addr ws.expected_turn
    let found := find_or_reserve_channel w.reg ws.channel_hint turn_addr
      ws.expected_turn key_tag
    match found.2 with
    | none => (false, { w with reg := found.1 })
    | some index =>
      if turn_reached (w.mem turn_addr) ws.expected_turn then
        (false, { w with reg := clear_channel_if_empty found.1 index })
      else
        let ws1 := { ws with
          notifying := false, armed := true, linked := true, channel_index := index }
        let ch := getch found.1.channels index
        let reg2 := { found.1 with
          channels := found.1.channels.set index { ch with waiters := wid :: ch.waiters } }
        let reg3 :=
          if ch.waiters.length = 0 then
            { reg2 with occupied_channel_count := reg2.occupied_channel_count + 1 }
          else reg2
        let w2 := { w with reg := reg3, waiters := w.waiters.set wid ws1 }
        if turn_reached (w.mem turn_addr) ws.expected_turn then
          let w3 := { w2 with
            waiters := w2.waiters.set wid { ws1 with armed := false } }
          (false, remove_waiter_from_channel w3 index wid)
        else (true, w2)

/-- Sequential `sender_notify::disarm` (lines 104-121): clear `armed`,
unlink from the recorded bucket when linked.  The closing spin on
`notifying` terminates immediately between sequential operations and is
elided. -/
def disarm (w : NotifyWorld) (wid : Nat) : NotifyWorld :=
  let ws := w.waiters.getD wid default
  let w1 := { w with waiters := w.waiters.set wid { ws with armed := false } }
  if ws.channel_index ≠ invalid_channel_index then
    let ws1 := w1.waiters.getD wid default
    if ws1.linked then remove_waiter_from_channel w1 ws.channel_index wid else w1
  else w1

/-- `lock_existing_channel` (lines 294-309): match scan over the probe
window, then over the full table. -/
def lock_existing_channel (reg : Registry) (turn_addr turn_value : Nat) : Option Nat :=
  let key_tag := mix_key turn_addr turn_value
  let start := hash_key turn_addr turn_value
  match lock_matching_channel reg.channels turn_addr turn_value key_tag start
      (probe_window reg) with
  | some index => some index
  | none =>
    lock_matching_channel reg.channels turn_addr turn_value key_tag start
      wait_channel_count

/-- The detachment walk of `notify` (lines 144-159): clear every detached
waiter's linkage; those still armed atomically drop `armed`, raise
`notifying` and go onto the ready stack (reversing the detachment order). -/
def notify_detach (w : NotifyWorld) : List Nat → List Nat → NotifyWorld × List Nat
  | [], ready => (w, ready)
  | wid :: rest, ready =>
    let ws := w.waiters.getD wid default
    let cleared := { ws with linked := false, channel_index := invalid_channel_index }
    if ws.armed then
      let moved := { cleared with armed := false, notifying := true }
      notify_detach { w with waiters := w.waiters.set wid moved } rest (wid :: ready)
    else
      notify_detach { w with waiters := w.waiters.set wid cleared } rest ready

/-- The callback walk of `notify` (lines 163-169): fire each ready waiter
(the fired identifiers, in invocation order, are the model of the callback
invocations), then clear its `notifying` flag. -/
def run_callbacks (w : NotifyWorld) : List Nat → NotifyWorld × List Nat
  | [] => (w, [])
  | wid :: rest =>
    let ws := w.waiters.getD wid default
    let w1 := { w with waiters := w.waiters.set wid { ws with notifying := false } }
    let next := run_callbacks w1 rest
    (next.1, wid :: next.2)

/-- Sequential `sender_notify::notify` (lines 123-170): locate the bucket
tagged with the event key (return silently when none is), detach its whole
waiter list and clear the bucket, then wake the still-armed detached
waiters.  The returned list holds the identifiers whose callbacks fired, in
invocation order. -/
def notify (w : NotifyWorld) (turn_addr turn_value : Nat) : NotifyWorld × List Nat :=
  match lock_existing_channel w.reg turn_addr turn_value with
  | none => (w, [])
  | some index =>
    let ch := getch w.reg.channels index
    let detached := ch.waiters
    let reg1 := { w.reg with channels := w.reg.channels.set index empty_channel }
    let reg2 :=
      if detached.length ≠ 0 then
        { reg1 with occupied_channel_count := reg1.occupied_channel_count - 1 }
      else reg1
    let step := notify_detach { w with reg := reg2 } detached []
    run_callbacks step.1 step.2

/-- Registry well-formedness: 1024 buckets; an untagged bucket is fully
cleared, and a tagged bucket's tag is the mix of its key. -/
def RI (reg : Registry) : Prop :=
  reg.channels.length = wait_channel_count ∧
  ∀ i, i < wait_channel_count →
    ((getch reg.channels i).key_tag = 0 →
      (getch reg.channels i).turn_addr = 0 ∧
      (getch reg.channels i).expected_turn = 0 ∧
      (getch reg.channels i).waiters = []) ∧
    ((getch reg.channels i).key_tag ≠ 0 →
      (getch reg.channels i).key_tag =
        mix_key (getch reg.channels i).turn_addr (getch reg.channels i).expected_turn)

/-! ### Concrete worlds for the registry claims

The bucket-exhaustion world: 1024 waiters with pairwise distinct keys and
direct bucket hints fill every bucket; a 1025th waiter with a fresh key and
no usable hint then finds no free bucket. -/

/-- Waiter `i` of the exhaustion scenario: distinct nonzero turn addresses
`64*(i+1)`, expected turn 1, direct hint `i` for the first 1024 waiters and
an invalid hint for the last. -/
def overflow_waiter (i : Nat) : NWaiter :=
  ⟨64 * (i + 1), 1,
   if i < wait_channel_count then i else invalid_channel_index,
   false, false, false, invalid_channel_index⟩

/-- The exhaustion world before any operation: 1025 waiters over a fresh
registry; every turn word reads 0, so no waiter's expected turn 1 has been
reached. -/
def overflow_world : NotifyWorld :=
  ⟨Registry.init, (List.range (wait_channel_count + 1)).map overflow_waiter,
   fun _ => 0⟩

/-- Arm waiters `0 .. n-1` in order, discarding the (uniformly `true`)
results. -/
def arm_seq (w : NotifyWorld) : Nat → NotifyWorld
  | 0 => w
  | n + 1 => (arm (arm_seq w n) n).2

/-- The sequential history of claim C3's counterexample: 1024 successful
arms filling every bucket. -/
def overflow_armed : NotifyWorld := arm_seq overflow_world wait_channel_count

/-- The 1025th arm, attempted once every bucket is taken. -/
def overflow_last : Bool × NotifyWorld := arm overflow_armed wait_channel_count

/-- Bucket `j` of the exhaustion scenario once waiter `j` is armed into it. -/
def filled_channel (j : Nat) : WaitChannel :=
  ⟨mix_key (64 * (j + 1)) 1, 64 * (j + 1), 1, [j]⟩

/-- Waiter `j` of the exhaustion scenario once armed into bucket `j`. -/
def armed_overflow_waiter (j : Nat) : NWaiter :=
  ⟨64 * (j + 1), 1, j, true, true, false, j⟩

/-- Closed form of the bucket table after the first `n` arms of the
exhaustion scenario. -/
def overflow_channels (n : Nat) : List WaitChannel :=
  (List.range wait_channel_count).map
    (fun j => if j < n then filled_channel j else empty_channel)

/-- Closed form of the whole world after the first `n` arms of the
exhaustion scenario. -/
def overflow_state (n : Nat) : NotifyWorld :=
  ⟨⟨overflow_channels n, 16, n⟩,
   (List.range (wait_channel_count + 1)).map
     (fun j => if j < n then armed_overflow_waiter j else overflow_waiter j),
   fun _ => 0⟩

/-- A one-waiter world for the witnesses of the registry claims: one waiter
keyed `(64, 1)` with the suggested hint, over a fresh registry and all-zero
turn memory. -/
def single_world : NotifyWorld :=
  ⟨Registry.init, [⟨64, 1, suggest_channel_index 64 1, false, false, false,
    invalid_channel_index⟩], fun _ => 0⟩

theorem ctz_go_two_pow (k : Nat) : ∀ fuel, 2 ^ k ≤ fuel → ctz_go fuel (2 ^ k) = k := by
  induction k with
  | zero =>
    intro fuel hf
    match fuel, hf with
    | fuel + 1, _ => simp [ctz_go]
  | succ k ih =>
    intro fuel hf
    have hpos : 0 < 2 ^ (k + 1) := Nat.pos_pow_of_pos _ (by decide)
    match fuel, Nat.lt_of_lt_of_le hpos hf with
    | fuel + 1, _ =>
      have hmod : 2 ^ (k + 1) % 2 = 0 := by
        simp [Nat.pow_succ, Nat.mul_mod_left]
      have hdiv : 2 ^ (k + 1) / 2 = 2 ^ k := by
        rw [Nat.pow_succ]
        exact Nat.mul_div_cancel _ (by decide)
      have hne : 2 ^ (k + 1) ≠ 0 := Nat.pos_iff_ne_zero.mp hpos
      have hfuel : 2 ^ k ≤ fuel := by
        have h1 : 2 ^ k + 2 ^ k ≤ fuel + 1 := by
          have := Nat.le_of_lt_succ (Nat.lt_succ_of_le hf)
          calc 2 ^ k + 2 ^ k = 2 ^ (k + 1) := by rw [Nat.pow_succ]; ring
            _ ≤ fuel + 1 := hf
        have h2 : 1 ≤ 2 ^ k := Nat.one_le_two_pow
        omega
      simp [ctz_go, hmod, hne, hdiv, ih fuel hfuel]

theorem ctz_two_pow (k : Nat) : ctz (2 ^ k) = k :=
  ctz_go_two_pow k (2 ^ k) (Nat.le_refl _)

theorem exists_pow_of_and_pred :
    ∀ n : Nat, n ≠ 0 → n &&& (n - 1) = 0 → ∃ k, n = 2 ^ k := by
  intro n
  induction n using Nat.strong_induction_on with
  | _ n ih =>
    intro hne hand
    rcases Nat.even_or_odd n with he | ho
    · obtain ⟨m, hm⟩ := he
      have hm2 : n = 2 * m := by omega
      have hmne : m ≠ 0 := by omega
      have hdiv : (n &&& (n - 1)) / 2 = n / 2 &&& (n - 1) / 2 := Nat.and_div_two
      have hnd2 : n / 2 = m := by omega
      have hn1d2 : (n - 1) / 2 = m - 1 := by omega
      have hm0 : m &&& (m - 1) = 0 := by
        rw [hand, hnd2, hn1d2] at hdiv
        simpa using hdiv.symm
      obtain ⟨k, hk⟩ := ih m (by omega) hmne hm0
      exact ⟨k + 1, by rw [hm2, hk, Nat.pow_succ]; ring⟩
    · rcases Nat.eq_or_lt_of_le (Nat.one_le_iff_ne_zero.mpr hne) with h1 | h1
      · exact ⟨0, by omega⟩
      · obtain ⟨m, hm⟩ := ho
        have hdiv : (n &&& (n - 1)) / 2 = n / 2 &&& (n - 1) / 2 := Nat.and_div_two
        have hnd2 : n / 2 = m := by omega
        have hn1d2 : (n - 1) / 2 = m := by omega
        have hmm : m &&& m = 0 := by
          rw [hand, hnd2, hn1d2] at hdiv
          simpa using hdiv.symm
        rw [Nat.and_self] at hmm
        omega

theorem is_power_of_two_iff (n : Nat) :
    is_power_of_two n = true ↔ ∃ k, n = 2 ^ k := by
  unfold is_power_of_two
  rw [Bool.and_eq_true, bne_iff_ne, beq_iff_eq]
  constructor
  · rintro ⟨hne, hand⟩
    exact exists_pow_of_and_pred n hne hand
  · rintro ⟨k, rfl⟩
    refine ⟨Nat.pos_iff_ne_zero.mp (Nat.pos_pow_of_pos _ (by decide)), ?_⟩
    rw [Nat.and_pow_two_sub_one_eq_mod]
    exact Nat.mod_self _

theorem enqueue_turn_eq (t c : Nat) (hc : 0 < c) :
    enqueue_turn t c = t / c * 2 := by
  unfold enqueue_turn
  by_cases h : is_power_of_two c
  · obtain ⟨k, rfl⟩ := (is_power_of_two_iff c).mp h
    rw [if_pos h, ctz_two_pow, Nat.shiftRight_eq_div_pow, Nat.shiftLeft_eq]
  · rw [if_neg h]

theorem slot_index_eq_mod (t c : Nat) (hc : 0 < c) :
    slot_index t c = t * compute_stride c % c := by
  unfold slot_index
  by_cases h : is_power_of_two c
  · obtain ⟨k, rfl⟩ := (is_power_of_two_iff c).mp h
    rw [if_pos h, Nat.and_pow_two_sub_one_eq_mod]
  · rw [if_neg h]

theorem gslot_index_eq_mod (t c s : Nat) (hc : 0 < c) :
    gslot_index t c s = t * s % c := by
  unfold gslot_index
  by_cases h : is_power_of_two c
  · obtain ⟨k, rfl⟩ := (is_power_of_two_iff c).mp h
    rw [if_pos h, Nat.and_pow_two_sub_one_eq_mod]
  · rw [if_neg h]

theorem slot_index_lt (t c : Nat) (hc : 0 < c) : slot_index t c < c := by
  rw [slot_index_eq_mod t c hc]
  exact Nat.mod_lt _ hc

theorem small_primes_prime : ∀ p ∈ small_primes, Nat.Prime p := by decide

theorem compute_stride_spec (c : Nat) :
    compute_stride c = 1 ∨
      (compute_stride c ∈ small_primes ∧ ¬ compute_stride c ∣ c) := by
  have main : ∀ (l : List Nat) (acc : Nat × Nat),
      (∀ x ∈ l, x ∈ small_primes) →
      (acc.1 = 1 ∨ (acc.1 ∈ small_primes ∧ ¬ acc.1 ∣ c)) →
      ((l.foldl (stride_step c) acc).1 = 1 ∨
        ((l.foldl (stride_step c) acc).1 ∈ small_primes ∧
          ¬ (l.foldl (stride_step c) acc).1 ∣ c)) := by
    intro l
    induction l with
    | nil => intro acc _ hacc; exact hacc
    | cons x rest ih =>
      intro acc hmem hacc
      refine ih (stride_step c acc x) (fun y hy => hmem y (List.mem_cons_of_mem _ hy)) ?_
      unfold stride_step
      by_cases hskip : x % c = 0 ∨ c % x = 0
      · rw [if_pos hskip]; exact hacc
      · rw [if_neg hskip]
        by_cases hbetter : acc.2 < min (x % c) (c - x % c)
        · rw [if_pos hbetter]
          refine Or.inr ⟨hmem x (List.mem_cons_self _ _), ?_⟩
          intro hdvd
          exact hskip (Or.inr (Nat.dvd_iff_mod_eq_zero.mp hdvd))
        · rw [if_neg hbetter]; exact hacc
  exact main small_primes (1, 1) (fun x hx => hx) (Or.inl rfl)

theorem compute_stride_coprime (c : Nat) : Nat.Coprime (compute_stride c) c := by
  rcases compute_stride_spec c with h1 | ⟨hmem, hdvd⟩
  · rw [h1]; exact Nat.coprime_one_left c
  · exact (Nat.Prime.coprime_iff_not_dvd (small_primes_prime _ hmem)).mpr hdvd

theorem slot_index_inj (c : Nat) (hc : 0 < c) {t t' : Nat}
    (h1 : t ≤ t') (h2 : t' < t + c)
    (heq : slot_index t c = slot_index t' c) : t = t' := by
  rw [slot_index_eq_mod t c hc, slot_index_eq_mod t' c hc] at heq
  have hmod : t * compute_stride c ≡ t' * compute_stride c [MOD c] := heq
  have hts : t ≡ t' [MOD c] :=
    Nat.ModEq.cancel_right_of_coprime (compute_stride_coprime c).symm hmod
  have hdvd : c ∣ t' - t := (Nat.modEq_iff_dvd' h1).mp hts
  have := Nat.eq_zero_of_dvd_of_lt hdvd
  omega

theorem enqueue_turn_div_even (t c : Nat) : 2 ∣ enqueue_turn_div t c := by
  unfold enqueue_turn_div U64
  have h2 : (2 : Nat) ∣ 2 ^ 64 := dvd_pow_self 2 (by decide)
  rw [Nat.dvd_mod_iff h2]
  exact Dvd.intro_left _ rfl

/-- C7: for every 64-bit local ticket and positive capacity, the producer
turn of `mpmc_queue_common::enqueue_turn` is `2·(ticket / capacity)` (as a
64-bit value, exactly `2·(t/c)` whenever that does not wrap), the consumer
turn of `dequeue_turn` is one more, and the power-of-two shift fast path
computes exactly the same value as the general division path. -/
theorem c7_turn_computation (t c : Nat) (_h64 : t < U64) (hc : 0 < c) :
    (is_power_of_two c = true → enqueue_turn_shift t c = enqueue_turn_div t c) ∧
    enqueue_turn64 t c = 2 * (t / c) % U64 ∧
    dequeue_turn64 t c = 2 * (t / c) % U64 + 1 ∧
    (2 * (t / c) < U64 → enqueue_turn64 t c = 2 * (t / c)) := by
  have hshift : is_power_of_two c = true → enqueue_turn_shift t c = enqueue_turn_div t c := by
    intro h
    obtain ⟨k, rfl⟩ := (is_power_of_two_iff c).mp h
    unfold enqueue_turn_shift enqueue_turn_div
    rw [ctz_two_pow, Nat.shiftRight_eq_div_pow, Nat.shiftLeft_eq, Nat.pow_one]
  have henq : enqueue_turn64 t c = 2 * (t / c) % U64 := by
    unfold enqueue_turn64
    by_cases h : is_power_of_two c
    · rw [if_pos h, hshift h]
      unfold enqueue_turn_div
      rw [Nat.mul_comm]
    · rw [if_neg h]
      unfold enqueue_turn_div
      rw [Nat.mul_comm]
  refine ⟨hshift, henq, ?_, ?_⟩
  · unfold dequeue_turn64
    rw [henq]
    have heven : 2 ∣ 2 * (t / c) % U64 := by
      have := enqueue_turn_div_even t c
      unfold enqueue_turn_div at this
      rwa [Nat.mul_comm (t / c) 2] at this
    have hlt : 2 * (t / c) % U64 < U64 := Nat.mod_lt _ (by unfold U64; positivity)
    have hU : (2 : Nat) ∣ U64 := dvd_pow_self 2 (by decide)
    have : 2 * (t / c) % U64 + 1 < U64 := by
      unfold U64 at hlt heven ⊢
      omega
    exact Nat.mod_eq_of_lt this
  · intro hlt
    rw [henq]
    exact Nat.mod_eq_of_lt hlt

/-- Witness for C7 at ticket 5, capacity 4. -/
theorem c7_turn_computation_witness :
    5 < U64 ∧ 0 < 4 ∧
      ((is_power_of_two 4 = true → enqueue_turn_shift 5 4 = enqueue_turn_div 5 4) ∧
        enqueue_turn64 5 4 = 2 * (5 / 4) % U64 ∧
        dequeue_turn64 5 4 = 2 * (5 / 4) % U64 + 1 ∧
        (2 * (5 / 4) < U64 → enqueue_turn64 5 4 = 2 * (5 / 4))) :=
  ⟨by decide, by decide, c7_turn_computation 5 4 (by decide) (by decide)⟩

/-- Counterexample to C8 as stated: at capacity 1 (every prime both divides
and is divided by the capacity, so every candidate is skipped),
`compute_stride` returns the fallback 1, which is not a prime. -/
theorem c8_stride_not_always_prime :
    compute_stride 1 = 1 ∧ ¬ Nat.Prime 1 := by
  constructor
  · decide
  · exact Nat.not_prime_one

/-- C8 (amended): for every capacity `c ≥ 1`, `compute_stride c` is either
one of the small primes of its candidate table or the fallback 1, and in
every case is coprime to `c`; consequently the slot mapping
`ticket ↦ (ticket · stride) mod c` is a bijection on each lap of `c`
consecutive tickets, and the power-of-two mask path agrees with the modulo
path. -/
theorem c8_stride_coprime_bijection (c : Nat) (hc : 0 < c) :
    Nat.Coprime (compute_stride c) c ∧
    (compute_stride c = 1 ∨ compute_stride c ∈ small_primes) ∧
    (∀ lap : Nat, Function.Bijective (fun i : Fin c =>
      (⟨slot_index (lap * c + i.val) c, slot_index_lt _ c hc⟩ : Fin c))) ∧
    (∀ t, slot_index t c = t * compute_stride c % c) := by
  refine ⟨compute_stride_coprime c, ?_, ?_, fun t => slot_index_eq_mod t c hc⟩
  · rcases compute_stride_spec c with h | ⟨h, _⟩
    · exact Or.inl h
    · exact Or.inr h
  · intro lap
    rw [← Finite.injective_iff_bijective]
    intro i j hij
    have hij' : slot_index (lap * c + i.val) c = slot_index (lap * c + j.val) c := by
      simpa using congrArg Fin.val hij
    rcases Nat.le_total i.val j.val with hle | hle
    · have := @slot_index_inj c hc (lap * c + i.val) (lap * c + j.val)
        (by omega) (by have := j.isLt; omega) hij'
      exact Fin.ext (by omega)
    · have := @slot_index_inj c hc (lap * c + j.val) (lap * c + i.val)
        (by omega) (by have := i.isLt; omega) hij'.symm
      exact Fin.ext (by omega)

/-- Witness for C8 (amended) at capacity 4. -/
theorem c8_stride_coprime_bijection_witness :
    0 < 4 ∧
      (Nat.Coprime (compute_stride 4) 4 ∧
        (compute_stride 4 = 1 ∨ compute_stride 4 ∈ small_primes) ∧
        (∀ lap : Nat, Function.Bijective (fun i : Fin 4 =>
          (⟨slot_index (lap * 4 + i.val) 4, slot_index_lt _ 4 (by decide)⟩ : Fin 4))) ∧
        (∀ t, slot_index t 4 = t * compute_stride 4 % 4)) :=
  ⟨by decide, c8_stride_coprime_bijection 4 (by decide)⟩

theorem wf_init (α : Type) (c : Nat) (hc : 0 < c) : WF (BQueue.init α c) [] := by
  refine ⟨hc, Nat.le_refl _, by simp [BQueue.init], by simp [BQueue.init], ?_, ?_⟩
  · intro k h
    simp at h
  · intro t ht1 ht2
    simp only [BQueue.init]
    rw [enqueue_turn_eq t c hc]
    simp only [BQueue.init] at ht1 ht2
    have : t / c = 0 := Nat.div_eq_of_lt (by omega)
    rw [this]

theorem try_push_ok {α : Type} {q : BQueue α} {vs : List α} (hwf : WF q vs)
    (v : α) (hroom : vs.length < q.capacity) :
    (try_push q v).1 = none ∧
    WF (try_push q v).2 (vs ++ [v]) ∧
    (try_push q v).2.push_ticket = q.push_ticket + 1 ∧
    (try_push q v).2.pop_ticket = q.pop_ticket ∧
    (try_push q v).2.capacity = q.capacity := by
  obtain ⟨hc, hle, hub, hlen, hocc, hfut⟩ := hwf
  have hwin : q.push_ticket < q.pop_ticket + q.capacity := by omega
  have hcond : q.turns (slot_index q.push_ticket q.capacity)
      = enqueue_turn q.push_ticket q.capacity :=
    hfut q.push_ticket (Nat.le_refl _) hwin
  have heq : try_push q v =
      (none,
        { q with
          push_ticket := q.push_ticket + 1
          turns := Function.update q.turns (slot_index q.push_ticket q.capacity)
            (enqueue_turn q.push_ticket q.capacity + 1)
          storage := Function.update q.storage (slot_index q.push_ticket q.capacity)
            (some v) }) := by
    simp only [try_push, if_pos hcond]
  rw [heq]
  refine ⟨rfl, ?_, rfl, rfl, rfl⟩
  refine ⟨hc, by dsimp only; omega, by dsimp only; omega,
    by dsimp only; simp only [List.length_append, List.length_cons, List.length_nil]; omega,
    ?_, ?_⟩
  · intro k h
    dsimp only
    have hlen2 : k < vs.length + 1 := by
      simpa using h
    by_cases hk : k < vs.length
    · have hne : slot_index (q.pop_ticket + k) q.capacity
          ≠ slot_index q.push_ticket q.capacity := by
        intro heq2
        have := @slot_index_inj q.capacity hc (q.pop_ticket + k) (q.push_ticket) (by omega) (by omega) heq2
        omega
      rw [Function.update_noteq hne, Function.update_noteq hne]
      have hget : (vs ++ [v]).get ⟨k, h⟩ = vs.get ⟨k, hk⟩ := by
        simp [List.get_eq_getElem, List.getElem_append_left hk]
      rw [hget]
      exact hocc k hk
    · have hkl : k = vs.length := by omega
      have hP : q.pop_ticket + k = q.push_ticket := by omega
      rw [hP, Function.update_same, Function.update_same]
      have hget : (vs ++ [v]).get ⟨k, h⟩ = v := by
        simp only [List.get_eq_getElem]
        rw [List.getElem_concat_length vs v k hkl]
      rw [hget]
      exact ⟨rfl, rfl⟩
  · intro t ht1 ht2
    dsimp only at ht1 ht2 ⊢
    have hne : slot_index t q.capacity ≠ slot_index q.push_ticket q.capacity := by
      intro heq2
      have := @slot_index_inj q.capacity hc (q.push_ticket) (t) (by omega) (by omega) heq2.symm
      omega
    rw [Function.update_noteq hne]
    exact hfut t (by omega) (by omega)

theorem try_push_full {α : Type} {q : BQueue α} {vs : List α} (hwf : WF q vs)
    (v : α) (hfull : vs.length = q.capacity) :
    try_push q v = (some Errc.queue_full, q) := by
  obtain ⟨hc, hle, hub, hlen, hocc, hfut⟩ := hwf
  have hP : q.push_ticket = q.pop_ticket + q.capacity := by omega
  have h0 : 0 < vs.length := by omega
  have hsl : slot_index q.push_ticket q.capacity
      = slot_index q.pop_ticket q.capacity := by
    rw [slot_index_eq_mod _ _ hc, slot_index_eq_mod _ _ hc, hP,
      Nat.add_mul, Nat.add_mul_mod_self_left]
  have hocc0 := (hocc 0 h0).1
  rw [Nat.add_zero] at hocc0
  have hturnP : enqueue_turn q.push_ticket q.capacity
      = enqueue_turn q.pop_ticket q.capacity + 2 := by
    rw [enqueue_turn_eq _ _ hc, enqueue_turn_eq _ _ hc, hP, Nat.add_div_right _ hc]
    ring
  have hcond : ¬ q.turns (slot_index q.push_ticket q.capacity)
      = enqueue_turn q.push_ticket q.capacity := by
    intro hx
    rw [hsl, hocc0, hturnP] at hx
    omega
  simp only [try_push, if_neg hcond]

theorem try_pop_empty {α : Type} {q : BQueue α} (hwf : WF q []) :
    try_pop q = some (Except.error Errc.queue_empty, q) := by
  obtain ⟨hc, hle, hub, hlen, hocc, hfut⟩ := hwf
  have hPO : q.push_ticket = q.pop_ticket := by
    simp at hlen
    omega
  have hcond : ¬ q.turns (slot_index q.pop_ticket q.capacity)
      = dequeue_turn q.pop_ticket q.capacity := by
    have := hfut q.pop_ticket (by omega) (by omega)
    rw [this]
    unfold dequeue_turn
    omega
  simp only [try_pop, if_neg hcond]

theorem try_pop_ok {α : Type} {q : BQueue α} {v : α} {vs : List α}
    (hwf : WF q (v :: vs)) :
    ∃ q', try_pop q = some (Except.ok v, q') ∧
      WF q' vs ∧
      q'.push_ticket = q.push_ticket ∧
      q'.pop_ticket = q.pop_ticket + 1 ∧
      q'.capacity = q.capacity := by
  obtain ⟨hc, hle, hub, hlen, hocc, hfut⟩ := hwf
  simp only [List.length_cons] at hlen
  have h0 : 0 < (v :: vs).length := by simp
  have hocc0 := hocc 0 h0
  rw [Nat.add_zero] at hocc0
  obtain ⟨hturn0, hstore0⟩ := hocc0
  have hget0 : (v :: vs).get ⟨0, h0⟩ = v := rfl
  rw [hget0] at hstore0
  have hcond : q.turns (slot_index q.pop_ticket q.capacity)
      = dequeue_turn q.pop_ticket q.capacity := by
    rw [hturn0]
    rfl
  have heq : try_pop q =
      some (Except.ok v,
        { q with
          pop_ticket := q.pop_ticket + 1
          turns := Function.update q.turns (slot_index q.pop_ticket q.capacity)
            (dequeue_turn q.pop_ticket q.capacity + 1)
          storage := Function.update q.storage (slot_index q.pop_ticket q.capacity)
            none }) := by
    simp only [try_pop, if_pos hcond, hstore0]
  refine ⟨_, heq, ?_, rfl, rfl, rfl⟩
  have hOP : q.pop_ticket < q.push_ticket := by omega
  refine ⟨hc, by dsimp only; omega, by dsimp only; omega, by dsimp only; omega, ?_, ?_⟩
  · intro k h
    dsimp only
    have hne : slot_index (q.pop_ticket + 1 + k) q.capacity
        ≠ slot_index q.pop_ticket q.capacity := by
      intro heq2
      have := @slot_index_inj q.capacity hc (q.pop_ticket) (q.pop_ticket + 1 + k)
        (by omega) (by omega) heq2.symm
      omega
    rw [Function.update_noteq hne, Function.update_noteq hne]
    have hk1 : k + 1 < (v :: vs).length := by simp; omega
    have hstep := hocc (k + 1) hk1
    have harg : q.pop_ticket + (k + 1) = q.pop_ticket + 1 + k := by omega
    rw [harg] at hstep
    have hget : (v :: vs).get ⟨k + 1, hk1⟩ = vs.get ⟨k, h⟩ := rfl
    rw [hget] at hstep
    exact hstep
  · intro t ht1 ht2
    dsimp only at ht1 ht2 ⊢
    by_cases hlast : t = q.pop_ticket + q.capacity
    · have hsl : slot_index t q.capacity = slot_index q.pop_ticket q.capacity := by
        rw [slot_index_eq_mod _ _ hc, slot_index_eq_mod _ _ hc, hlast,
          Nat.add_mul, Nat.add_mul_mod_self_left]
      rw [hsl, Function.update_same]
      unfold dequeue_turn
      rw [enqueue_turn_eq _ _ hc, enqueue_turn_eq _ _ hc, hlast,
        Nat.add_div_right _ hc]
      ring
    · have htw : t < q.pop_ticket + q.capacity := by omega
      have hne : slot_index t q.capacity ≠ slot_index q.pop_ticket q.capacity := by
        intro heq2
        have := @slot_index_inj q.capacity hc (q.pop_ticket) (t) (by omega) (by omega) heq2.symm
        omega
      rw [Function.update_noteq hne]
      exact hfut t (by omega) (by omega)

theorem try_push_fail_frame {α : Type} (q : BQueue α) (v : α) {e : Errc}
    (h : (try_push q v).1 = some e) : (try_push q v).2 = q := by
  unfold try_push at h ⊢
  by_cases hcond : q.turns (slot_index q.push_ticket q.capacity)
      = enqueue_turn q.push_ticket q.capacity
  · rw [if_pos hcond] at h
    simp at h
  · rw [if_neg hcond]

theorem brun_wf {α : Type} :
    ∀ (ops : List (QOp α)) (q : BQueue α) (vs : List α), WF q vs →
      ∃ q' vs', brun q ops = some q' ∧ WF q' vs' ∧ q'.capacity = q.capacity := by
  intro ops
  induction ops with
  | nil => exact fun q vs h => ⟨q, vs, rfl, h, rfl⟩
  | cons op rest ih =>
    intro q vs hwf
    have hlen_le : vs.length ≤ q.capacity := by
      obtain ⟨hc, hle, hub, hlen, _, _⟩ := hwf
      omega
    cases op with
    | push v =>
      by_cases hroom : vs.length < q.capacity
      · obtain ⟨h1, h2, h3, h4, h5⟩ := try_push_ok hwf v hroom
        obtain ⟨q', vs', hr, hw, hcap⟩ := ih _ _ h2
        refine ⟨q', vs', ?_, hw, by rw [hcap, h5]⟩
        simpa [brun] using hr
      · have hful : vs.length = q.capacity := by omega
        have hfull := try_push_full hwf v hful
        obtain ⟨q', vs', hr, hw, hcap⟩ := ih q vs hwf
        refine ⟨q', vs', ?_, hw, hcap⟩
        simp only [brun, hfull]
        exact hr
    | pop =>
      cases vs with
      | nil =>
        have hempty := try_pop_empty hwf
        obtain ⟨q', vs', hr, hw, hcap⟩ := ih q [] hwf
        refine ⟨q', vs', ?_, hw, hcap⟩
        simp only [brun, hempty]
        exact hr
      | cons v vtl =>
        obtain ⟨q2, heq, hw2, h3, h4, h5⟩ := try_pop_ok hwf
        obtain ⟨q', vs', hr, hw, hcap⟩ := ih q2 vtl hw2
        refine ⟨q', vs', ?_, hw, by rw [hcap, h5]⟩
        simp only [brun, heq]
        exact hr

/-- C1: on a bounded queue of capacity 4 used sequentially from empty,
pushes of 1, 2, 3, 4 succeed, a fifth `try_push` reports `queue_full`, four
`try_pop` calls return 1, 2, 3, 4 in order, and a fifth `try_pop` reports
`queue_empty`. -/
theorem c1_capacity4_roundtrip :
    brun_trace (BQueue.init Nat 4) c1_script =
      [OpResult.pushed, OpResult.pushed, OpResult.pushed, OpResult.pushed,
       OpResult.failed Errc.queue_full, OpResult.popped 1, OpResult.popped 2,
       OpResult.popped 3, OpResult.popped 4, OpResult.failed Errc.queue_empty] := by
  decide

/-- Simulation invariant between a concrete channel and the spec's
reference channel: the ring abstracts to the pending list, flags and
capacities agree. -/
def ChInv {α : Type} (c : Channel α) (s : SpecChannel α) : Prop :=
  WF c.queue s.pending ∧ c.closed = s.closed ∧ c.queue.capacity = s.capacity

theorem ch_push_sim {α : Type} {c : Channel α} {s : SpecChannel α}
    (h : ChInv c s) (v : α) :
    (ch_try_push c v).1 = (spec_push s v).1 ∧
    ChInv (ch_try_push c v).2 (spec_push s v).2 := by
  obtain ⟨hwf, hcl, hcap⟩ := h
  by_cases hc : c.closed
  · rw [ch_try_push, spec_push, if_pos hc, if_pos (hcl ▸ hc)]
    exact ⟨rfl, hwf, hcl, hcap⟩
  · have hsc : ¬ s.closed = true := by rw [← hcl]; simpa using hc
    rw [ch_try_push, spec_push, if_neg hc, if_neg hsc]
    by_cases hroom : s.pending.length < s.capacity
    · obtain ⟨h1, h2, _, _, h5⟩ := try_push_ok hwf v (hcap ▸ hroom)
      rw [if_pos hroom]
      exact ⟨h1, h2, hcl, by rw [h5]; exact hcap⟩
    · have hlen_le : s.pending.length ≤ c.queue.capacity := by
        obtain ⟨_, _, _, hlen, _, _⟩ := hwf
        omega
      have hful : s.pending.length = c.queue.capacity := by omega
      have hfull := try_push_full hwf v hful
      rw [if_neg hroom, hfull]
      exact ⟨rfl, hwf, hcl, hcap⟩

theorem ch_pop_sim {α : Type} {c : Channel α} {s : SpecChannel α}
    (h : ChInv c s) :
    ∃ c', ch_try_pop c = some ((spec_pop s).1, c') ∧ ChInv c' (spec_pop s).2 := by
  obtain ⟨hwf, hcl, hcap⟩ := h
  cases hp : s.pending with
  | nil =>
    rw [hp] at hwf
    have hempty := try_pop_empty hwf
    by_cases hc : c.closed
    · have hsc : s.closed = true := by rw [← hcl]; exact hc
      refine ⟨c, ?_, ?_⟩
      · show ch_try_pop c = some ((spec_pop s).1, c)
        obtain ⟨qq, ee, cc⟩ := c
        simp only [Bool.not_eq_true] at hc
        simp [ch_try_pop, hempty, spec_pop, hp, hsc, hc]
      · have hs2 : (spec_pop s).2 = s := by simp [spec_pop, hp, hsc]
        rw [hs2]
        exact ⟨by rw [hp]; exact hwf, hcl, hcap⟩
    · have hsc : ¬ s.closed = true := by rw [← hcl]; simpa using hc
      refine ⟨c, ?_, ?_⟩
      · show ch_try_pop c = some ((spec_pop s).1, c)
        obtain ⟨qq, ee, cc⟩ := c
        simp only [Bool.not_eq_true] at hc
        simp [ch_try_pop, hempty, spec_pop, hp, hsc, hc]
      · have hs2 : (spec_pop s).2 = s := by simp [spec_pop, hp, hsc]
        rw [hs2]
        exact ⟨by rw [hp]; exact hwf, hcl, hcap⟩
  | cons v rest =>
    rw [hp] at hwf
    obtain ⟨q', heq, hw2, _, _, h5⟩ := try_pop_ok hwf
    refine ⟨{ c with queue := q' }, ?_, ?_⟩
    · rw [ch_try_pop, heq]
      simp only [spec_pop, hp]
    · simp only [spec_pop, hp]
      exact ⟨hw2, hcl, by rw [h5]; exact hcap⟩

theorem ch_close_sim {α : Type} {c : Channel α} {s : SpecChannel α}
    (h : ChInv c s) :
    (ch_close c).1 = (spec_close s).1 ∧ ChInv (ch_close c).2 (spec_close s).2 := by
  obtain ⟨hwf, hcl, hcap⟩ := h
  by_cases hc : c.closed
  · rw [ch_close, spec_close, if_pos hc, if_pos (hcl ▸ hc)]
    exact ⟨rfl, hwf, hcl, hcap⟩
  · have hsc : ¬ s.closed = true := by rw [← hcl]; simpa using hc
    rw [ch_close, spec_close, if_neg hc, if_neg hsc]
    exact ⟨rfl, hwf, rfl, hcap⟩

theorem crun_sim {α : Type} :
    ∀ (ops : List (ChOp α)) (c : Channel α) (s : SpecChannel α), ChInv c s →
      ∃ c', crun c ops = some c' ∧ ChInv c' (srun s ops) := by
  intro ops
  induction ops with
  | nil => exact fun c s h => ⟨c, rfl, h⟩
  | cons op rest ih =>
    intro c s h
    cases op with
    | push v =>
      obtain ⟨_, h2⟩ := ch_push_sim h v
      obtain ⟨c', hr, hi⟩ := ih _ _ h2
      exact ⟨c', hr, hi⟩
    | pop =>
      obtain ⟨c2, heq, h2⟩ := ch_pop_sim h
      obtain ⟨c', hr, hi⟩ := ih _ _ h2
      refine ⟨c', ?_, hi⟩
      simp only [crun, heq]
      exact hr
    | close =>
      obtain ⟨_, h2⟩ := ch_close_sim h
      obtain ⟨c', hr, hi⟩ := ih _ _ h2
      exact ⟨c', hr, hi⟩

theorem chinv_init (α : Type) (cap : Nat) (hcap : 0 < cap) :
    ChInv (Channel.init α cap) (SpecChannel.init α cap) :=
  ⟨wf_init α cap hcap, rfl, rfl⟩

theorem ch_pop_closed_empty {α : Type} {c : Channel α} (hwf : WF c.queue [])
    (hcl : c.closed = true) :
    ch_try_pop c = some (Except.error Errc.channel_closed, c) := by
  have hempty := try_pop_empty hwf
  obtain ⟨qq, ee, cc⟩ := c
  simp [ch_try_pop, hempty, hcl] at hcl ⊢
  rw [hcl]

theorem ch_drain_all {α : Type} :
    ∀ (vs : List α) (c : Channel α), WF c.queue vs → c.closed = true →
      ∃ c'', ch_drain c vs.length = some (vs, c'') ∧ WF c''.queue [] ∧
        c''.closed = true ∧
        ch_try_pop c'' = some (Except.error Errc.channel_closed, c'') := by
  intro vs
  induction vs with
  | nil =>
    intro c hwf hcl
    exact ⟨c, rfl, hwf, hcl, ch_pop_closed_empty hwf hcl⟩
  | cons v rest ih =>
    intro c hwf hcl
    obtain ⟨q', heq, hw2, _, _, _⟩ := try_pop_ok hwf
    obtain ⟨c'', hdr, hw'', hcl'', hpop''⟩ := ih { c with queue := q' } hw2 hcl
    refine ⟨c'', ?_, hw'', hcl'', hpop''⟩
    show ch_drain c (rest.length + 1) = some (v :: rest, c'')
    rw [ch_drain]
    have hpop : ch_try_pop c = some (Except.ok v, { c with queue := q' }) := by
      rw [ch_try_pop, heq]
    rw [hpop]
    dsimp only
    rw [hdr]

/-- C2: in every sequential history on a channel after `close()` has
returned `true` (equivalently, once the closed flag is set), every
`try_push` returns `channel_closed` without enqueueing (the state is
untouched), and the remaining queue content is exactly the pending list of
the spec's reference FIFO for the same history — the values enqueued before
the close and not yet popped; draining pops return precisely those values
in FIFO order and the next pop then returns `channel_closed`, so no value
enqueued before the close is lost. -/
theorem c2_closed_channel_semantics (cap : Nat) (hcap : 0 < cap)
    (ops : List (ChOp Nat)) :
    ∃ c', crun (Channel.init Nat cap) ops = some c' ∧
      (c'.closed = true →
        (∀ v, ch_try_push c' v = (some Errc.channel_closed, c')) ∧
        ∃ c'',
          ch_drain c' (srun (SpecChannel.init Nat cap) ops).pending.length
            = some ((srun (SpecChannel.init Nat cap) ops).pending, c'') ∧
          ch_try_pop c'' = some (Except.error Errc.channel_closed, c'')) := by
  obtain ⟨c', hr, hwf, hcl, _⟩ := crun_sim ops (Channel.init Nat cap)
    (SpecChannel.init Nat cap) (chinv_init Nat cap hcap)
  refine ⟨c', hr, fun hclosed => ⟨?_, ?_⟩⟩
  · intro v
    rw [ch_try_push, if_pos hclosed]
  · obtain ⟨c'', hdr, _, _, hpop⟩ :=
      ch_drain_all (srun (SpecChannel.init Nat cap) ops).pending c' hwf hclosed
    exact ⟨c'', hdr, hpop⟩

/-- Witness for C2: capacity 8, history "push 31, push 32, close". -/
theorem c2_closed_channel_semantics_witness :
    0 < 8 ∧
      ∃ c', crun (Channel.init Nat 8)
          [ChOp.push 31, ChOp.push 32, ChOp.close] = some c' ∧
        (c'.closed = true →
          (∀ v, ch_try_push c' v = (some Errc.channel_closed, c')) ∧
          ∃ c'',
            ch_drain c'
              (srun (SpecChannel.init Nat 8)
                [ChOp.push 31, ChOp.push 32, ChOp.close]).pending.length
              = some ((srun (SpecChannel.init Nat 8)
                  [ChOp.push 31, ChOp.push 32, ChOp.close]).pending, c'') ∧
            ch_try_pop c'' = some (Except.error Errc.channel_closed, c'')) :=
  ⟨by decide, c2_closed_channel_semantics 8 (by decide)
    [ChOp.push 31, ChOp.push 32, ChOp.close]⟩

theorem ch_try_pop_frame {α : Type} {c : Channel α} {r : Except Errc α}
    {c' : Channel α} (h : ch_try_pop c = some (r, c')) :
    c'.closed = c.closed ∧ c'.close_epoch = c.close_epoch := by
  rw [ch_try_pop] at h
  rcases htp : try_pop c.queue with _ | ⟨rr, qq⟩
  · rw [htp] at h
    simp at h
  · rcases rr with ee | vv
    · rw [htp] at h
      dsimp only at h
      split at h
      · simp only [Option.some.injEq, Prod.mk.injEq] at h
        rw [← h.2]
        exact ⟨rfl, rfl⟩
      · split at h
        · simp only [Option.some.injEq, Prod.mk.injEq] at h
          rw [← h.2]
          exact ⟨rfl, rfl⟩
        · simp only [Option.some.injEq, Prod.mk.injEq] at h
          rw [← h.2]
          exact ⟨rfl, rfl⟩
    · rw [htp] at h
      dsimp only at h
      simp only [Option.some.injEq, Prod.mk.injEq] at h
      rw [← h.2]
      exact ⟨rfl, rfl⟩

theorem crun_closed_persists {α : Type} :
    ∀ (ops : List (ChOp α)) (c : Channel α), c.closed = true →
      ∀ c', crun c ops = some c' → c'.closed = true := by
  intro ops
  induction ops with
  | nil =>
    intro c hcl c' hr
    cases hr
    exact hcl
  | cons op rest ih =>
    intro c hcl c' hr
    cases op with
    | push v =>
      rw [crun, ch_try_push, if_pos hcl] at hr
      exact ih c hcl c' hr
    | pop =>
      rw [crun] at hr
      rcases hpop : ch_try_pop c with _ | ⟨r, c2⟩
      · rw [hpop] at hr
        cases hr
      · rw [hpop] at hr
        have hc2 : c2.closed = true := by
          rw [(ch_try_pop_frame hpop).1]
          exact hcl
        exact ih c2 hc2 c' hr
    | close =>
      rw [crun, ch_close, if_pos hcl] at hr
      exact ih c hcl c' hr

/-- C5: the first `close()` on a channel returns `true`, sets the closed
flag and increments the close epoch by exactly one; thereafter — after any
further sequence of operations — the channel remains closed and every later
`close()` returns `false` and leaves the state completely unchanged. -/
theorem c5_close_exactly_once {α : Type} (c : Channel α) (h : c.closed = false) :
    ch_close c = (true,
      { c with closed := true, close_epoch := c.close_epoch + 1 }) ∧
    (∀ (ops : List (ChOp α)) (c' : Channel α),
      crun (ch_close c).2 ops = some c' →
        c'.closed = true ∧ ch_close c' = (false, c')) := by
  have hnc : ¬ c.closed = true := by rw [h]; simp
  constructor
  · rw [ch_close, if_neg hnc]
  · intro ops c' hr
    have hcl2 : (ch_close c).2.closed = true := by
      rw [ch_close, if_neg hnc]
    have hc' : c'.closed = true := crun_closed_persists ops _ hcl2 c' hr
    exact ⟨hc', by rw [ch_close, if_pos hc']⟩

/-- Witness for C5 on a fresh channel of capacity 2, with one later push
and a pop between the two closes. -/
theorem c5_close_exactly_once_witness :
    (Channel.init Nat 2).closed = false ∧
      (ch_close (Channel.init Nat 2) = (true,
        { (Channel.init Nat 2) with
          closed := true
          close_epoch := (Channel.init Nat 2).close_epoch + 1 }) ∧
      (∀ (ops : List (ChOp Nat)) (c' : Channel Nat),
        crun (ch_close (Channel.init Nat 2)).2 ops = some c' →
          c'.closed = true ∧ ch_close c' = (false, c'))) :=
  ⟨by decide, c5_close_exactly_once (Channel.init Nat 2) (by decide)⟩

/-- Counterexample to C9 as stated: constructing a growable queue with
growth factor 1 (< 2) does not trap — `resolve_growth_factor` clamps the
factor to 2 and construction succeeds; likewise a maximum capacity below
the initial capacity is raised to the initial capacity rather than
trapping. -/
theorem c9_growth_parameters_not_trapped :
    (gqueue_new Nat 10 ⟨20, 1⟩).isSome = true ∧
    (gqueue_new Nat 10 ⟨20, 1⟩).map GQueue.growth_factor = some 2 ∧
    (gqueue_new Nat 10 ⟨5, 2⟩).isSome = true ∧
    (gqueue_new Nat 10 ⟨5, 2⟩).map GQueue.maxCapacity = some 10 := by
  refine ⟨rfl, rfl, rfl, rfl⟩

/-- C9 (amended): zero-capacity construction is a contract trap for the
bounded queue, the channel and the growable queue; but a growth factor
below 2 and a maximum capacity below the initial capacity are *not*
trapped: construction succeeds with the growth factor clamped to 2 and the
maximum capacity raised to the initial capacity, and none of these cases is
reported as a runtime error value. -/
theorem c9_construction_contract_traps :
    (∀ (α : Type), bqueue_new α 0 = none) ∧
    (∀ (α : Type), channel_new α 0 = none) ∧
    (∀ (α : Type) (options : MpmcDynamicOptions), gqueue_new α 0 options = none) ∧
    (∀ (α : Type), gqueue_new_default α 0 = none) ∧
    (∀ (α : Type) (ic : Nat) (options : MpmcDynamicOptions), 0 < ic →
      (gqueue_new α ic options).isSome = true) ∧
    (∀ (α : Type) (ic mc gf : Nat), 0 < ic → gf < 2 →
      (gqueue_new α ic ⟨mc, gf⟩).map GQueue.growth_factor = some 2) ∧
    (∀ (α : Type) (ic mc gf : Nat), 0 < ic → 0 < mc → mc < ic →
      (gqueue_new α ic ⟨mc, gf⟩).map GQueue.maxCapacity = some ic) := by
  refine ⟨fun α => rfl, fun α => rfl, fun α options => rfl, fun α => rfl, ?_, ?_, ?_⟩
  · intro α ic options hic
    unfold gqueue_new validate_capacity
    rw [if_pos hic]
    rfl
  · intro α ic mc gf hic hgf
    unfold gqueue_new validate_capacity resolve_growth_factor
    dsimp only
    rw [if_pos hic, if_pos hgf]
    rfl
  · intro α ic mc gf hic hmc hlt
    unfold gqueue_new validate_capacity resolve_max_capacity
    dsimp only
    rw [if_pos hic, if_neg (by omega : ¬ mc = 0)]
    have hmax : max mc ic = ic := by omega
    rw [hmax]
    rfl

/-- Witness for C9 (amended): initial capacity 4, requested growth factor
1, requested maximum 8. -/
theorem c9_construction_contract_traps_witness :
    0 < 4 ∧ 1 < 2 ∧
      (gqueue_new Nat 4 ⟨8, 1⟩).map GQueue.growth_factor = some 2 :=
  ⟨by decide, by decide,
    c9_construction_contract_traps.2.2.2.2.2.1 Nat 4 8 1 (by decide) (by decide)⟩

/-- C10: the single-argument growable constructor takes its argument as the
*maximum* capacity: the constructed queue reports `max_capacity` equal to
the argument, starting `capacity` and `allocated_capacity` equal to
`min(default_min_dynamic_capacity, argument) = min(10, argument)`, and the
default growth factor `default_expansion_multiplier = 10`, so for arguments
above 10 the queue starts smaller than the argument and grows toward it. -/
theorem c10_growable_default_constructor (c : Nat) (hc : 0 < c) :
    ∃ q : GQueue Nat, gqueue_new_default Nat c = some q ∧
      q.maxCapacity = c ∧ q.capacity = min 10 c ∧
      q.allocatedCapacity = min 10 c ∧ q.growth_factor = 10 := by
  have hv1 : validate_capacity c = some c := by
    unfold validate_capacity
    rw [if_pos hc]
  have hnorm : normalize_initial_capacity c default_min_dynamic_capacity
      = min 10 c := by
    unfold normalize_initial_capacity default_min_dynamic_capacity
    omega
  have hpos : 0 < min 10 c := by omega
  have hv2 : validate_capacity (min 10 c) = some (min 10 c) := by
    unfold validate_capacity
    rw [if_pos hpos]
  unfold gqueue_new_default
  rw [hv1]
  dsimp only
  rw [hnorm]
  unfold gqueue_new
  rw [hv2]
  dsimp only
  refine ⟨_, rfl, ?_, ?_, ?_, ?_⟩
  · show GQueue.maxCapacity _ = c
    unfold GQueue.maxCapacity
    dsimp only
    unfold resolve_max_capacity make_dynamic_options
    dsimp only
    rw [if_neg (by omega : ¬ c = 0)]
    omega
  · show GQueue.capacity _ = min 10 c
    unfold GQueue.capacity fresh_ring
    dsimp only
  · show GQueue.allocatedCapacity _ = min 10 c
    unfold GQueue.allocatedCapacity fresh_ring
    dsimp only
  · show GQueue.growth_factor _ = 10
    dsimp only
    unfold resolve_growth_factor make_dynamic_options default_expansion_multiplier
    dsimp only
    rw [if_neg (by omega : ¬ (10 : Nat) < 2)]

/-- Witness for C10 at argument 64 (the repository's own test value):
maximum capacity 64, starting capacity 10. -/
theorem c10_growable_default_constructor_witness :
    0 < 64 ∧
      ∃ q : GQueue Nat, gqueue_new_default Nat 64 = some q ∧
        q.maxCapacity = 64 ∧ q.capacity = min 10 64 ∧
        q.allocatedCapacity = min 10 64 ∧ q.growth_factor = 10 :=
  ⟨by decide, c10_growable_default_constructor 64 (by decide)⟩

theorem gslot_index_lt (t c s : Nat) (hc : 0 < c) : gslot_index t c s < c := by
  unfold gslot_index
  by_cases h : is_power_of_two c
  · rw [if_pos h]
    have h1 : t * s &&& (c - 1) ≤ c - 1 := Nat.and_le_right
    omega
  · rw [if_neg h]
    exact Nat.mod_lt _ hc

theorem find_newest_le_sound {α : Type} (t : Nat) :
    ∀ (l : List (GRing α)) (i : Nat) (r : GRing α),
      find_newest_le t l = some (i, r) → l.get? i = some r ∧ r.offset ≤ t := by
  intro l
  induction l with
  | nil => intro i r h; cases h
  | cons x rest ih =>
    intro i r h
    rw [find_newest_le] at h
    rcases hr : find_newest_le (α := α) t rest with _ | ⟨j, hit⟩
    · rw [hr] at h
      by_cases hx : x.offset ≤ t
      · rw [if_pos hx] at h
        simp only [Option.some.injEq, Prod.mk.injEq] at h
        obtain ⟨h1, h2⟩ := h
        rw [← h1, ← h2]
        exact ⟨rfl, hx⟩
      · rw [if_neg hx] at h
        cases h
    · rw [hr] at h
      simp only [Option.some.injEq, Prod.mk.injEq] at h
      obtain ⟨h1, h2⟩ := h
      obtain ⟨hg, ho⟩ := ih j hit hr
      rw [← h1, ← h2]
      exact ⟨hg, ho⟩

theorem locate_ring_sound {α : Type} {q : GQueue α} {t i : Nat} {r : GRing α}
    (h : locate_ring q t = some (i, r)) :
    (grings q).get? i = some r ∧ r.offset ≤ t := by
  rw [locate_ring] at h
  by_cases ha : q.active.offset ≤ t
  · rw [if_pos ha] at h
    simp only [Option.some.injEq, Prod.mk.injEq] at h
    obtain ⟨h1, h2⟩ := h
    rw [← h1, ← h2]
    refine ⟨?_, ha⟩
    rw [grings]
    rw [List.get?_append_right (Nat.le_refl _)]
    simp
  · rw [if_neg ha] at h
    obtain ⟨hg, ho⟩ := find_newest_le_sound t q.closed_arrays i r h
    refine ⟨?_, ho⟩
    rw [grings, List.get?_append]
    · exact hg
    · exact List.get?_eq_some.mp hg |>.1 |> fun hh => hh

theorem find_newest_le_isSome {α : Type} (t : Nat) :
    ∀ (l : List (GRing α)), (∃ r ∈ l, r.offset ≤ t) →
      (find_newest_le t l).isSome = true := by
  intro l
  induction l with
  | nil => rintro ⟨r, hr, _⟩; cases hr
  | cons x rest ih =>
    rintro ⟨r, hr, hle⟩
    rw [find_newest_le]
    rcases hfr : find_newest_le (α := α) t rest with _ | ⟨j, hit⟩
    · rcases List.mem_cons.mp hr with rfl | hmem
      · rw [if_pos hle]
        rfl
      · have := ih ⟨r, hmem, hle⟩
        rw [hfr] at this
        cases this
    · rfl

theorem locate_ring_isSome {α : Type} {q : GQueue α}
    (h0 : (grings q).head?.map GRing.offset = some 0) (t : Nat) :
    (locate_ring q t).isSome = true := by
  rw [locate_ring]
  by_cases ha : q.active.offset ≤ t
  · rw [if_pos ha]
    rfl
  · rw [if_neg ha]
    apply find_newest_le_isSome
    rcases hca : q.closed_arrays with _ | ⟨x, rest⟩
    · exfalso
      rw [grings, hca] at h0
      simp at h0
      omega
    · refine ⟨x, by simp, ?_⟩
      rw [grings, hca] at h0
      simp at h0
      omega

theorem list_set_append_last {β : Type} :
    ∀ (l : List β) (a b : β), (l ++ [a]).set l.length b = l ++ [b] := by
  intro l
  induction l with
  | nil => intro a b; rfl
  | cons x rest ih =>
    intro a b
    show x :: ((rest ++ [a]).set rest.length b) = x :: (rest ++ [b])
    rw [ih]

theorem list_set_append_left {β : Type} :
    ∀ (l : List β) (a b : β) (i : Nat), i < l.length →
      (l ++ [a]).set i b = l.set i b ++ [a] := by
  intro l
  induction l with
  | nil => intro a b i h; cases h
  | cons x rest ih =>
    intro a b i h
    cases i with
    | zero => rfl
    | succ j =>
      show x :: ((rest ++ [a]).set j b) = x :: (rest.set j b ++ [a])
      rw [ih a b j (by simpa using h)]

theorem grings_set_ring {α : Type} {q : GQueue α} {i : Nat} (r' : GRing α)
    (h : i < (grings q).length) :
    grings (set_ring q i r') = (grings q).set i r' := by
  rw [grings, List.length_append, List.length_cons, List.length_nil] at h
  rw [set_ring]
  by_cases hi : i = q.closed_arrays.length
  · rw [if_pos hi, grings, grings, hi, list_set_append_last]
  · rw [if_neg hi, grings, grings, list_set_append_left _ _ _ _ (by omega)]

theorem nat_mem_le_sum : ∀ (l : List Nat) (a : Nat), a ∈ l → a ≤ l.sum := by
  intro l
  induction l with
  | nil => intro a h; cases h
  | cons x rest ih =>
    intro a h
    rcases List.mem_cons.mp h with rfl | hmem
    · simp
    · have := ih a hmem
      simp
      omega

theorem sum_map_set {β : Type} (f : β → Nat) :
    ∀ (l : List β) (i : Nat) (r r' : β), l.get? i = some r →
      ((l.set i r').map f).sum + f r = (l.map f).sum + f r' := by
  intro l
  induction l with
  | nil => intro i r r' h; cases h
  | cons x rest ih =>
    intro i r r' h
    cases i with
    | zero =>
      have hx : x = r := Option.some.inj h
      show f r' + (rest.map f).sum + f r = f x + (rest.map f).sum + f r'
      rw [hx]
      omega
    | succ j =>
      have hj : rest.get? j = some r := h
      show f x + ((rest.set j r').map f).sum + f r = f x + (rest.map f).sum + f r'
      have := ih j r r' hj
      omega

theorem ring_pending_flip_up {α : Type} (r : GRing α) (j v : Nat)
    (st : Nat → Option α) (hj : j < r.capacity) (hev : r.turns j % 2 = 0)
    (hodd : v % 2 = 1) :
    ring_pending { r with turns := Function.update r.turns j v, storage := st }
      = ring_pending r + 1 := by
  unfold ring_pending
  dsimp only
  have hset : (Finset.range r.capacity).filter
      (fun k => Function.update r.turns j v k % 2 = 1)
      = insert j ((Finset.range r.capacity).filter (fun k => r.turns k % 2 = 1)) := by
    ext k
    by_cases hk : k = j
    · subst hk
      simp [Function.update_same, hodd, hj]
    · simp only [Finset.mem_filter, Finset.mem_range, Finset.mem_insert,
        Function.update_noteq hk]
      constructor
      · rintro ⟨h1, h2⟩
        exact Or.inr ⟨h1, h2⟩
      · rintro (h | ⟨h1, h2⟩)
        · exact absurd h hk
        · exact ⟨h1, h2⟩
  rw [hset, Finset.card_insert_of_not_mem]
  simp [hev]

theorem ring_pending_flip_down {α : Type} (r : GRing α) (j v : Nat)
    (st : Nat → Option α) (hj : j < r.capacity) (hodd : r.turns j % 2 = 1)
    (hev : v % 2 = 0) :
    ring_pending r
      = ring_pending { r with turns := Function.update r.turns j v, storage := st } + 1 := by
  unfold ring_pending
  dsimp only
  have hset : (Finset.range r.capacity).filter (fun k => r.turns k % 2 = 1)
      = insert j ((Finset.range r.capacity).filter
          (fun k => Function.update r.turns j v k % 2 = 1)) := by
    ext k
    by_cases hk : k = j
    · subst hk
      simp [hodd, hj]
    · simp only [Finset.mem_filter, Finset.mem_range, Finset.mem_insert,
        Function.update_noteq hk]
      constructor
      · rintro ⟨h1, h2⟩
        exact Or.inr ⟨h1, h2⟩
      · rintro (h | ⟨h1, h2⟩)
        · exact absurd h hk
        · exact ⟨h1, h2⟩
  rw [hset, Finset.card_insert_of_not_mem]
  simp [Function.update_same, hev]

theorem ring_pending_pos {α : Type} (r : GRing α) (j : Nat) (hj : j < r.capacity)
    (hodd : r.turns j % 2 = 1) : 1 ≤ ring_pending r := by
  unfold ring_pending
  rw [Nat.one_le_iff_ne_zero, ← Nat.pos_iff_ne_zero, Finset.card_pos]
  exact ⟨j, by simp [hj, hodd]⟩

theorem head_offset_set {α : Type} :
    ∀ (l : List (GRing α)) (i : Nat) (r r' : GRing α), l.get? i = some r →
      r'.offset = r.offset →
      (l.set i r').head?.map GRing.offset = l.head?.map GRing.offset := by
  intro l
  induction l with
  | nil => intro i r r' h _; cases h
  | cons x rest _ =>
    intro i r r' h hoff
    cases i with
    | zero =>
      have hx : x = r := Option.some.inj h
      show some r'.offset = some x.offset
      rw [hoff, hx]
    | succ j => rfl

theorem dequeue_turn_odd (t c : Nat) (hc : 0 < c) : dequeue_turn t c % 2 = 1 := by
  unfold dequeue_turn
  rw [enqueue_turn_eq t c hc]
  omega

theorem enqueue_turn_even (t c : Nat) (hc : 0 < c) : enqueue_turn t c % 2 = 0 := by
  rw [enqueue_turn_eq t c hc]
  omega

theorem set_ring_frame {α : Type} (q : GQueue α) (i : Nat) (r : GRing α) :
    (set_ring q i r).max_capacity = q.max_capacity ∧
    (set_ring q i r).push_ticket = q.push_ticket ∧
    (set_ring q i r).pop_ticket = q.pop_ticket ∧
    (set_ring q i r).growth_factor = q.growth_factor ∧
    (set_ring q i r).max_closed_arrays = q.max_closed_arrays := by
  unfold set_ring
  split <;> exact ⟨rfl, rfl, rfl, rfl, rfl⟩

theorem gtry_pop_spec {α : Type} {q : GQueue α} (hinv : GInv q) :
    ∃ r q', gtry_pop q = some (r, q') ∧ GInv q' ∧
      q'.max_capacity = q.max_capacity ∧
      q'.push_ticket = q.push_ticket ∧
      (∀ e, r = Except.error e → q' = q) ∧
      (∀ v, r = Except.ok v → q'.pop_ticket = q.pop_ticket + 1) := by
  obtain ⟨hcnt, hdep, hhd, hrings⟩ := hinv
  have hsome := locate_ring_isSome hhd q.pop_ticket
  rcases hloc : locate_ring q q.pop_ticket with _ | ⟨i, ring⟩
  · rw [hloc] at hsome
    cases hsome
  · obtain ⟨hget, hoff⟩ := locate_ring_sound hloc
    have hmem : ring ∈ grings q := List.get?_mem hget
    obtain ⟨hcap, hstor⟩ := hrings ring hmem
    by_cases hturn : ring.turns
        (gslot_index (q.pop_ticket - ring.offset) ring.capacity ring.stride)
        = dequeue_turn (q.pop_ticket - ring.offset) ring.capacity
    · have hodd : ring.turns
          (gslot_index (q.pop_ticket - ring.offset) ring.capacity ring.stride) % 2 = 1 := by
        rw [hturn]
        exact dequeue_turn_odd _ _ hcap
      obtain ⟨v, hv⟩ := hstor _ hodd
      have hlt := gslot_index_lt (q.pop_ticket - ring.offset) ring.capacity ring.stride hcap
      set idx := gslot_index (q.pop_ticket - ring.offset) ring.capacity ring.stride with hidx
      set ring' : GRing α :=
        { ring with
          turns := Function.update ring.turns idx
            (dequeue_turn (q.pop_ticket - ring.offset) ring.capacity + 1)
          storage := Function.update ring.storage idx none } with hring'
      have hilen : i < (grings q).length := (List.get?_eq_some.mp hget).1
      have hgr : grings (set_ring q i ring') = (grings q).set i ring' :=
        grings_set_ring ring' hilen
      have hsum := sum_map_set ring_pending (grings q) i ring ring' hget
      have hflip : ring_pending ring = ring_pending ring' + 1 := by
        apply ring_pending_flip_down ring idx _ _ hlt hodd
        have := dequeue_turn_odd (q.pop_ticket - ring.offset) ring.capacity hcap
        omega
      have hpos : 1 ≤ ring_pending ring := ring_pending_pos ring idx hlt hodd
      have hle_sum : ring_pending ring ≤ pending_count q :=
        nat_mem_le_sum _ _ (List.mem_map_of_mem ring_pending hmem)
      have hpc : pending_count (set_ring q i ring') + ring_pending ring
          = pending_count q + ring_pending ring' := by
        unfold pending_count
        rw [hgr]
        exact hsum
      have hframe := set_ring_frame q i ring'
      refine ⟨Except.ok v, { set_ring q i ring' with pop_ticket := q.pop_ticket + 1 },
        ?_, ?_, ?_, ?_, ?_, ?_⟩
      · rw [gtry_pop, hloc]
        dsimp only
        rw [if_pos hturn, hv]
      · refine ⟨?_, ?_, ?_, ?_⟩
        · show (set_ring q i ring').push_ticket
            = (q.pop_ticket + 1) + pending_count (set_ring q i ring')
          · have hpcs : pending_count ({ set_ring q i ring' with
                pop_ticket := q.pop_ticket + 1 }) = pending_count (set_ring q i ring') := rfl
            rw [hframe.2.1]
            omega
        · show (set_ring q i ring').push_ticket - (q.pop_ticket + 1)
            ≤ ({ set_ring q i ring' with pop_ticket := q.pop_ticket + 1 }).max_capacity
          rw [hframe.2.1]
          show q.push_ticket - (q.pop_ticket + 1) ≤ (set_ring q i ring').max_capacity
          rw [hframe.1]
          omega
        · show (grings (set_ring q i ring')).head?.map GRing.offset = some 0
          rw [hgr, head_offset_set (grings q) i ring ring' hget rfl]
          exact hhd
        · intro rr hrr
          have hrr2 : rr ∈ (grings q).set i ring' := by
            rw [← hgr]
            exact hrr
          rcases List.mem_or_eq_of_mem_set hrr2 with hold | rfl
          · exact hrings rr hold
          · refine ⟨hcap, ?_⟩
            intro j hj
            by_cases hje : j = idx
            · subst hje
              rw [hring'] at hj
              dsimp only at hj
              rw [Function.update_same] at hj
              have := dequeue_turn_odd (q.pop_ticket - ring.offset) ring.capacity hcap
              omega
            · rw [hring']
              dsimp only
              rw [Function.update_noteq hje]
              rw [hring'] at hj
              dsimp only at hj
              rw [Function.update_noteq hje] at hj
              exact hstor j hj
      · show ({ set_ring q i ring' with pop_ticket := q.pop_ticket + 1 }).max_capacity
          = q.max_capacity
        exact hframe.1
      · show ({ set_ring q i ring' with pop_ticket := q.pop_ticket + 1 }).push_ticket
          = q.push_ticket
        exact hframe.2.1
      · intro e he
        cases he
      · intro w hw
        dsimp only
    · refine ⟨Except.error Errc.queue_empty, q, ?_, ⟨hcnt, hdep, hhd, hrings⟩,
        rfl, rfl, fun e he => rfl, ?_⟩
      · rw [gtry_pop, hloc]
        dsimp only
        rw [if_neg hturn]
      · intro w hw
        cases hw

theorem fresh_ring_pending (α : Type) (off cap : Nat) :
    ring_pending (fresh_ring α off cap) = 0 := by
  unfold ring_pending fresh_ring
  simp

theorem gpush_step_spec {α : Type} {q : GQueue α} (hinv : GInv q) (v : α)
    (hguard : q.push_ticket - q.pop_ticket < q.max_capacity) :
    (∃ q', gpush_step q v = some (Sum.inl (none, q')) ∧ GInv q' ∧
      q'.max_capacity = q.max_capacity ∧ q'.pop_ticket = q.pop_ticket ∧
      q'.push_ticket = q.push_ticket + 1) ∨
    (∃ q', gpush_step q v = some (Sum.inl (some Errc.queue_full, q')) ∧ GInv q' ∧
      q'.max_capacity = q.max_capacity ∧ q'.pop_ticket = q.pop_ticket ∧
      q'.push_ticket = q.push_ticket) ∨
    (∃ q', gpush_step q v = some (Sum.inr q') ∧ GInv q' ∧
      q'.max_capacity = q.max_capacity ∧ q'.pop_ticket = q.pop_ticket ∧
      q'.push_ticket = q.push_ticket ∧ q.push_ticket < q'.active.offset) := by
  obtain ⟨hcnt, hdep, hhd, hrings⟩ := hinv
  have hsome := locate_ring_isSome hhd q.push_ticket
  rcases hloc : locate_ring q q.push_ticket with _ | ⟨i, ring⟩
  · rw [hloc] at hsome
    cases hsome
  · obtain ⟨hget, hoff⟩ := locate_ring_sound hloc
    have hmem : ring ∈ grings q := List.get?_mem hget
    obtain ⟨hcap, hstor⟩ := hrings ring hmem
    by_cases hturn : ring.turns
        (gslot_index (q.push_ticket - ring.offset) ring.capacity ring.stride)
        = enqueue_turn (q.push_ticket - ring.offset) ring.capacity
    · left
      have hev : ring.turns
          (gslot_index (q.push_ticket - ring.offset) ring.capacity ring.stride) % 2 = 0 := by
        rw [hturn]
        exact enqueue_turn_even _ _ hcap
      have hlt := gslot_index_lt (q.push_ticket - ring.offset) ring.capacity ring.stride hcap
      set idx := gslot_index (q.push_ticket - ring.offset) ring.capacity ring.stride with hidx
      set ring' : GRing α :=
        { ring with
          turns := Function.update ring.turns idx
            (enqueue_turn (q.push_ticket - ring.offset) ring.capacity + 1)
          storage := Function.update ring.storage idx (some v) } with hring'
      have hilen : i < (grings q).length := (List.get?_eq_some.mp hget).1
      have hgr : grings (set_ring q i ring') = (grings q).set i ring' :=
        grings_set_ring ring' hilen
      have hsum := sum_map_set ring_pending (grings q) i ring ring' hget
      have hflip : ring_pending ring' = ring_pending ring + 1 := by
        apply ring_pending_flip_up ring idx _ _ hlt hev
        have := enqueue_turn_even (q.push_ticket - ring.offset) ring.capacity hcap
        omega
      have hpc : pending_count (set_ring q i ring') + ring_pending ring
          = pending_count q + ring_pending ring' := by
        unfold pending_count
        rw [hgr]
        exact hsum
      have hframe := set_ring_frame q i ring'
      refine ⟨{ set_ring q i ring' with push_ticket := q.push_ticket + 1 },
        ?_, ?_, ?_, ?_, ?_⟩
      · rw [gpush_step, hloc]
        dsimp only
        rw [if_pos hturn]
      · refine ⟨?_, ?_, ?_, ?_⟩
        · show q.push_ticket + 1
            = (set_ring q i ring').pop_ticket + pending_count (set_ring q i ring')
          rw [hframe.2.2.1]
          omega
        · show q.push_ticket + 1 - (set_ring q i ring').pop_ticket
            ≤ ({ set_ring q i ring' with push_ticket := q.push_ticket + 1 }).max_capacity
          rw [hframe.2.2.1]
          show q.push_ticket + 1 - q.pop_ticket ≤ (set_ring q i ring').max_capacity
          rw [hframe.1]
          omega
        · show (grings (set_ring q i ring')).head?.map GRing.offset = some 0
          rw [hgr, head_offset_set (grings q) i ring ring' hget rfl]
          exact hhd
        · intro rr hrr
          have hrr2 : rr ∈ (grings q).set i ring' := by
            rw [← hgr]
            exact hrr
          rcases List.mem_or_eq_of_mem_set hrr2 with hold | rfl
          · exact hrings rr hold
          · refine ⟨hcap, ?_⟩
            intro j hj
            by_cases hje : j = idx
            · subst hje
              rw [hring']
              dsimp only
              rw [Function.update_same]
              exact ⟨v, rfl⟩
            · rw [hring']
              dsimp only
              rw [Function.update_noteq hje]
              rw [hring'] at hj
              dsimp only at hj
              rw [Function.update_noteq hje] at hj
              exact hstor j hj
      · exact hframe.1
      · exact hframe.2.2.1
      · dsimp only
    · by_cases hoffeq : ring.offset = q.active.offset
      · by_cases hmaxc : q.max_capacity ≤ ring.capacity
        · right; left
          refine ⟨q, ?_, ⟨hcnt, hdep, hhd, hrings⟩, rfl, rfl, rfl⟩
          rw [gpush_step, hloc]
          dsimp only
          rw [if_neg hturn, if_pos hoffeq]
          have hexp : gtry_expand q ring.capacity = (false, q) := by
            rw [gtry_expand, if_pos hmaxc]
          rw [hexp]
        · by_cases hexp2 : next_capacity q.max_capacity q.growth_factor ring.capacity
              ≤ ring.capacity
          · right; left
            refine ⟨q, ?_, ⟨hcnt, hdep, hhd, hrings⟩, rfl, rfl, rfl⟩
            rw [gpush_step, hloc]
            dsimp only
            rw [if_neg hturn, if_pos hoffeq]
            have hexp : gtry_expand q ring.capacity = (false, q) := by
              rw [gtry_expand, if_neg hmaxc]
              dsimp only
              rw [if_pos hexp2]
            rw [hexp]
          · by_cases harr : q.max_closed_arrays ≤ q.closed_arrays.length
            · right; left
              refine ⟨q, ?_, ⟨hcnt, hdep, hhd, hrings⟩, rfl, rfl, rfl⟩
              rw [gpush_step, hloc]
              dsimp only
              rw [if_neg hturn, if_pos hoffeq]
              have hexp : gtry_expand q ring.capacity = (false, q) := by
                rw [gtry_expand, if_neg hmaxc]
                dsimp only
                rw [if_neg hexp2, if_pos harr]
              rw [hexp]
            · right; right
              set expanded := next_capacity q.max_capacity q.growth_factor ring.capacity
                with hexpdef
              set qx : GQueue α :=
                { q with
                  closed_arrays := q.closed_arrays ++ [q.active]
                  active := fresh_ring α (1 + max q.push_ticket q.pop_ticket) expanded }
                with hqx
              have hexp : gtry_expand q ring.capacity = (true, qx) := by
                rw [gtry_expand, if_neg hmaxc]
                dsimp only
                rw [if_neg hexp2, if_neg harr]
              refine ⟨qx, ?_, ?_, rfl, rfl, rfl, ?_⟩
              · rw [gpush_step, hloc]
                dsimp only
                rw [if_neg hturn, if_pos hoffeq, hexp]
              · have hgrx : grings qx = grings q ++ [fresh_ring α
                    (1 + max q.push_ticket q.pop_ticket) expanded] := by
                  rw [hqx, grings, grings]
                have hpcx : pending_count qx = pending_count q := by
                  unfold pending_count
                  rw [hgrx, List.map_append, List.sum_append]
                  simp [fresh_ring_pending]
                obtain ⟨r0, hr0⟩ : ∃ r0, (grings q).head? = some r0 := by
                  rcases hh : (grings q).head? with _ | r0
                  · rw [hh] at hhd
                    cases hhd
                  · exact ⟨r0, rfl⟩
                refine ⟨by rw [hpcx]; exact hcnt, hdep, ?_, ?_⟩
                · rw [hgrx, List.head?_append, hr0]
                  rw [hr0] at hhd
                  exact hhd
                · intro rr hrr
                  rw [hgrx] at hrr
                  rcases List.mem_append.mp hrr with hold | hnew
                  · exact hrings rr hold
                  · have : rr = fresh_ring α (1 + max q.push_ticket q.pop_ticket) expanded := by
                      simpa using hnew
                    subst this
                    refine ⟨by unfold fresh_ring; dsimp only; omega, ?_⟩
                    intro j hj
                    unfold fresh_ring at hj
                    dsimp only at hj
                    omega
              · rw [hqx]
                dsimp only
                unfold fresh_ring
                dsimp only
                omega
      · right; left
        refine ⟨q, ?_, ⟨hcnt, hdep, hhd, hrings⟩, rfl, rfl, rfl⟩
        rw [gpush_step, hloc]
        dsimp only
        rw [if_neg hturn, if_neg hoffeq]

theorem gpush_step_after_expand {α : Type} (q : GQueue α) (v : α)
    (hlt : q.push_ticket < q.active.offset) (q2 : GQueue α) :
    gpush_step q v ≠ some (Sum.inr q2) := by
  intro hcon
  rcases hloc : locate_ring q q.push_ticket with _ | ⟨i, ring⟩
  · rw [gpush_step, hloc] at hcon
    cases hcon
  · obtain ⟨hget, hoff⟩ := locate_ring_sound hloc
    rw [gpush_step, hloc] at hcon
    dsimp only at hcon
    by_cases hturn : ring.turns
        (gslot_index (q.push_ticket - ring.offset) ring.capacity ring.stride)
        = enqueue_turn (q.push_ticket - ring.offset) ring.capacity
    · rw [if_pos hturn] at hcon
      simp at hcon
    · have hne : ring.offset ≠ q.active.offset := by omega
      rw [if_neg hturn, if_neg hne] at hcon
      simp at hcon

theorem gtry_push_spec {α : Type} {q : GQueue α} (hinv : GInv q) (v : α) :
    ∃ r q', gtry_push q v = some (r, q') ∧ GInv q' ∧
      q'.max_capacity = q.max_capacity ∧ q'.pop_ticket = q.pop_ticket ∧
      ((r = none ∧ q'.push_ticket = q.push_ticket + 1) ∨
        (r = some Errc.queue_full ∧ q'.push_ticket = q.push_ticket)) := by
  by_cases hg : q.max_capacity ≤ q.push_ticket - q.pop_ticket
  · refine ⟨some Errc.queue_full, q, ?_, hinv, rfl, rfl, Or.inr ⟨rfl, rfl⟩⟩
    rw [gtry_push, if_pos hg]
  · have hguard : q.push_ticket - q.pop_ticket < q.max_capacity := by omega
    rcases gpush_step_spec hinv v hguard with
        ⟨q1, hstep, hinv1, hmax1, hpop1, hpush1⟩ |
        ⟨q1, hstep, hinv1, hmax1, hpop1, hpush1⟩ |
        ⟨q1, hstep, hinv1, hmax1, hpop1, hpush1, hofflt⟩
    · refine ⟨none, q1, ?_, hinv1, hmax1, hpop1, Or.inl ⟨rfl, hpush1⟩⟩
      rw [gtry_push, if_neg hg, hstep]
    · refine ⟨some Errc.queue_full, q1, ?_, hinv1, hmax1, hpop1, Or.inr ⟨rfl, hpush1⟩⟩
      rw [gtry_push, if_neg hg, hstep]
    · have hguard1 : q1.push_ticket - q1.pop_ticket < q1.max_capacity := by
        rw [hpush1, hpop1, hmax1]
        omega
      rcases gpush_step_spec hinv1 v hguard1 with
          ⟨q2, hstep2, hinv2, hmax2, hpop2, hpush2⟩ |
          ⟨q2, hstep2, hinv2, hmax2, hpop2, hpush2⟩ |
          ⟨q2, hstep2, _, _, _, _, _⟩
      · refine ⟨none, q2, ?_, hinv2, by rw [hmax2, hmax1], by rw [hpop2, hpop1],
          Or.inl ⟨rfl, by rw [hpush2, hpush1]⟩⟩
        rw [gtry_push, if_neg hg, hstep]
        dsimp only
        rw [hstep2]
      · refine ⟨some Errc.queue_full, q2, ?_, hinv2, by rw [hmax2, hmax1],
          by rw [hpop2, hpop1], Or.inr ⟨rfl, by rw [hpush2, hpush1]⟩⟩
        rw [gtry_push, if_neg hg, hstep]
        dsimp only
        rw [hstep2]
      · exact absurd hstep2
          (gpush_step_after_expand q1 v (by rw [hpush1]; exact hofflt) q2)

theorem gtry_pop_empty {α : Type} {q : GQueue α} (hinv : GInv q)
    (he : q.push_ticket = q.pop_ticket) :
    gtry_pop q = some (Except.error Errc.queue_empty, q) := by
  obtain ⟨hcnt, hdep, hhd, hrings⟩ := hinv
  have hpc : pending_count q = 0 := by omega
  have hsome := locate_ring_isSome hhd q.pop_ticket
  rcases hloc : locate_ring q q.pop_ticket with _ | ⟨i, ring⟩
  · rw [hloc] at hsome
    cases hsome
  · obtain ⟨hget, hoff⟩ := locate_ring_sound hloc
    have hmem : ring ∈ grings q := List.get?_mem hget
    obtain ⟨hcap, _⟩ := hrings ring hmem
    have hturn : ¬ ring.turns
        (gslot_index (q.pop_ticket - ring.offset) ring.capacity ring.stride)
        = dequeue_turn (q.pop_ticket - ring.offset) ring.capacity := by
      intro hx
      have hodd : ring.turns
          (gslot_index (q.pop_ticket - ring.offset) ring.capacity ring.stride) % 2 = 1 := by
        rw [hx]
        exact dequeue_turn_odd _ _ hcap
      have hlt := gslot_index_lt (q.pop_ticket - ring.offset) ring.capacity ring.stride hcap
      have hpos := ring_pending_pos ring _ hlt hodd
      have hle : ring_pending ring ≤ pending_count q :=
        nat_mem_le_sum _ _ (List.mem_map_of_mem ring_pending hmem)
      omega
    rw [gtry_pop, hloc]
    dsimp only
    rw [if_neg hturn]

theorem grun_ginv {α : Type} :
    ∀ (ops : List (QOp α)) (q : GQueue α), GInv q →
      ∃ q', grun q ops = some q' ∧ GInv q' ∧ q'.max_capacity = q.max_capacity := by
  intro ops
  induction ops with
  | nil => exact fun q h => ⟨q, rfl, h, rfl⟩
  | cons op rest ih =>
    intro q hq
    cases op with
    | push v =>
      obtain ⟨r, q1, hpush, hinv1, hmax1, hpop1, hcase⟩ := gtry_push_spec hq v
      obtain ⟨q', hr, hw, hm⟩ := ih q1 hinv1
      refine ⟨q', ?_, hw, by rw [hm, hmax1]⟩
      simp only [grun, hpush]
      exact hr
    | pop =>
      obtain ⟨r, q1, hpop, hinv1, hmax1, hpush1, _, _⟩ := gtry_pop_spec hq
      obtain ⟨q', hr, hw, hm⟩ := ih q1 hinv1
      refine ⟨q', ?_, hw, by rw [hm, hmax1]⟩
      simp only [grun, hpop]
      exact hr

theorem ginv_new {α : Type} {c : Nat} {opts : MpmcDynamicOptions} {q : GQueue α}
    (h : gqueue_new α c opts = some q) : GInv q := by
  unfold gqueue_new validate_capacity at h
  by_cases hc : 0 < c
  · rw [if_pos hc] at h
    dsimp only at h
    obtain rfl := Option.some.inj h
    refine ⟨?_, ?_, ?_, ?_⟩
    · show 0 = 0 + pending_count _
      simp [pending_count, grings, fresh_ring_pending]
    · simp
    · rfl
    · intro r hr
      have hr2 : r = fresh_ring α 0 c := by
        simpa [grings] using hr
      subst hr2
      refine ⟨hc, ?_⟩
      intro j hj
      simp [fresh_ring] at hj
  · rw [if_neg hc] at h
    cases h

/-- C6: after every prefix of every sequential history of `try_push` and
`try_pop` operations, `push_count − pop_count` lies in `[0, capacity]` for
the bounded queue and in `[0, max_capacity]` for the growable queue; in
particular `try_pop` on an empty queue and `try_push` on a full queue fail
without moving the tickets (the state is returned unchanged). -/
theorem c6_ticket_window_invariant {α : Type} (ops : List (QOp α))
    (cap : Nat) (hcap : 0 < cap)
    (icap : Nat) (opts : MpmcDynamicOptions) (g0 : GQueue α)
    (hnew : gqueue_new α icap opts = some g0) :
    (∃ q', brun (BQueue.init α cap) ops = some q' ∧
      q'.pop_count ≤ q'.push_count ∧ q'.push_count - q'.pop_count ≤ cap ∧
      (∀ v, cap ≤ q'.push_count - q'.pop_count →
        try_push q' v = (some Errc.queue_full, q')) ∧
      (q'.push_count = q'.pop_count →
        try_pop q' = some (Except.error Errc.queue_empty, q'))) ∧
    (∃ g', grun g0 ops = some g' ∧
      g'.pop_count ≤ g'.push_count ∧ g'.push_count - g'.pop_count ≤ g0.max_capacity ∧
      (∀ v, g0.max_capacity ≤ g'.push_count - g'.pop_count →
        gtry_push g' v = some (some Errc.queue_full, g')) ∧
      (g'.push_count = g'.pop_count →
        gtry_pop g' = some (Except.error Errc.queue_empty, g'))) := by
  constructor
  · obtain ⟨q', vs', hrun, hwf, hcapeq⟩ :=
      brun_wf ops (BQueue.init α cap) [] (wf_init α cap hcap)
    have hcap' : q'.capacity = cap := hcapeq
    obtain ⟨hc, hle, hub, hlen, hocc, hfut⟩ := hwf
    refine ⟨q', hrun, hle, by unfold BQueue.push_count BQueue.pop_count; omega, ?_, ?_⟩
    · intro v hge
      have hful : vs'.length = q'.capacity := by
        unfold BQueue.push_count BQueue.pop_count at hge
        omega
      exact try_push_full ⟨hc, hle, hub, hlen, hocc, hfut⟩ v hful
    · intro hempty
      unfold BQueue.push_count BQueue.pop_count at hempty
      have hnil : vs' = [] := by
        rw [← List.length_eq_zero]
        omega
      subst hnil
      exact try_pop_empty ⟨hc, hle, hub, hlen, hocc, hfut⟩
  · have hinv0 := ginv_new hnew
    obtain ⟨g', hrun, hinv, hmax⟩ := grun_ginv ops g0 hinv0
    obtain ⟨hcnt, hdep, hhd, hrings⟩ := hinv
    refine ⟨g', hrun, by unfold GQueue.push_count GQueue.pop_count; omega,
      by unfold GQueue.push_count GQueue.pop_count; omega, ?_, ?_⟩
    · intro v hge
      unfold GQueue.push_count GQueue.pop_count at hge
      have hg : g'.max_capacity ≤ g'.push_ticket - g'.pop_ticket := by omega
      rw [gtry_push, if_pos hg]
    · intro hempty
      unfold GQueue.push_count GQueue.pop_count at hempty
      exact gtry_pop_empty ⟨hcnt, hdep, hhd, hrings⟩ hempty

theorem c6_ticket_window_invariant_witness :
    0 < 2 ∧
    gqueue_new Nat 3 ⟨5, 2⟩ =
      some ⟨5, 2, compute_max_closed_arrays 3 5 2, [], fresh_ring Nat 0 3, 0, 0⟩ ∧
    (∃ g', grun (⟨5, 2, compute_max_closed_arrays 3 5 2, [], fresh_ring Nat 0 3,
        0, 0⟩ : GQueue Nat) [QOp.push 1, QOp.pop] = some g' ∧
      g'.pop_count ≤ g'.push_count ∧ g'.push_count - g'.pop_count ≤ 5) := by
  refine ⟨by decide, rfl, ?_⟩
  obtain ⟨g', h1, h2, h3, _⟩ :=
    (c6_ticket_window_invariant [QOp.push 1, QOp.pop] 2 (by decide) 3 ⟨5, 2⟩
      ⟨5, 2, compute_max_closed_arrays 3 5 2, [], fresh_ring Nat 0 3, 0, 0⟩ rfl).2
  exact ⟨g', h1, h2, h3⟩

theorem getD_map_range {β : Type} (f : Nat → β) (d : β) (N n : Nat) (h : n < N) :
    ((List.range N).map f).getD n d = f n := by
  simp [List.getD_eq_getElem?_getD, List.getElem?_map, List.getElem?_range, h]

theorem getD_set_self {β : Type} (l : List β) (n : Nat) (v d : β) (h : n < l.length) :
    (l.set n v).getD n d = v := by
  simp [List.getD_eq_getElem?_getD, List.getElem?_set, h]

theorem getD_set_other {β : Type} (l : List β) (n m : Nat) (v d : β) (h : n ≠ m) :
    (l.set n v).getD m d = l.getD m d := by
  simp [List.getD_eq_getElem?_getD, List.getElem?_set, h]

theorem getch_set (channels : List WaitChannel) (i : Nat) (ch : WaitChannel) (j : Nat) :
    getch (channels.set i ch) j =
      if i = j ∧ i < channels.length then ch else getch channels j := by
  unfold getch
  rw [List.getD_eq_getElem?_getD, List.getD_eq_getElem?_getD, List.getElem?_set]
  by_cases hij : i = j
  · subst hij
    by_cases hl : i < channels.length
    · simp [hl]
    · simp [hl, List.getElem?_eq_none, Nat.le_of_not_lt hl]
  · simp [hij]

theorem getch_map_range (f : Nat → WaitChannel) (N n : Nat) (h : n < N) :
    getch ((List.range N).map f) n = f n := by
  unfold getch
  simp [List.getD_eq_getElem?_getD, List.getElem?_map, List.getElem?_range, h]

theorem map_range_set {β : Type} (f : Nat → β) (N n : Nat) (v : β) (hn : n < N) :
    ((List.range N).map f).set n v
      = (List.range N).map (fun j => if j = n then v else f j) := by
  apply List.ext_getElem?
  intro i
  rw [List.getElem?_set]
  by_cases hin : n = i
  · subst hin
    simp [List.getElem?_map, List.getElem?_range, hn]
  · have hin' : i ≠ n := fun hx => hin hx.symm
    by_cases hiN : i < N
    · simp [hin, List.getElem?_map, List.getElem?_range, hiN, hin']
    · simp [hin, List.getElem?_map, List.getElem?_range, List.getElem?_eq_none,
        Nat.le_of_not_lt hiN]

theorem map_range_congr {β : Type} (f g : Nat → β) (N : Nat)
    (h : ∀ j, j < N → f j = g j) :
    (List.range N).map f = (List.range N).map g := by
  apply List.map_congr_left
  intro j hj
  exact h j (List.mem_range.mp hj)

theorem and_1023_eq_mod (x : Nat) : x &&& 1023 = x % 1024 := by
  have := Nat.and_pow_two_sub_one_eq_mod x 10
  norm_num at this
  exact this

theorem and_1023_lt (x : Nat) : x &&& 1023 < wait_channel_count := by
  rw [and_1023_eq_mod]
  exact Nat.mod_lt _ (by decide)

theorem or_one_ne_zero (m : Nat) : m ||| 1 ≠ 0 := by
  intro h
  have ht : (m ||| 1).testBit 0 = true := by
    rw [Nat.testBit_or]
    simp
  rw [h] at ht
  simp [Nat.zero_testBit] at ht

theorem mix_key_ne_zero (a e : Nat) : mix_key a e ≠ 0 := by
  unfold mix_key
  exact or_one_ne_zero _

theorem find_matching_go_sound (channels : List WaitChannel) (a e t s : Nat) :
    ∀ fuel offset j, find_matching_go channels a e t s offset fuel = some j →
      j < wait_channel_count ∧ (getch channels j).key_tag = t ∧
      (getch channels j).turn_addr = a ∧ (getch channels j).expected_turn = e := by
  intro fuel
  induction fuel with
  | zero =>
    intro offset j h
    simp [find_matching_go] at h
  | succ n ih =>
    intro offset j h
    rw [find_matching_go, show wait_channel_count - 1 = 1023 from rfl] at h
    by_cases hc : (getch channels ((s + offset) &&& 1023)).key_tag = t ∧
        (getch channels ((s + offset) &&& 1023)).turn_addr = a ∧
        (getch channels ((s + offset) &&& 1023)).expected_turn = e
    · rw [if_pos hc] at h
      obtain rfl := Option.some.inj h
      exact ⟨and_1023_lt _, hc.1, hc.2.1, hc.2.2⟩
    · rw [if_neg hc] at h
      exact ih (offset + 1) j h

theorem find_matching_go_none (channels : List WaitChannel) (a e t s : Nat)
    (h : ∀ j, j < wait_channel_count →
      ¬((getch channels j).key_tag = t ∧ (getch channels j).turn_addr = a ∧
        (getch channels j).expected_turn = e)) :
    ∀ fuel offset, find_matching_go channels a e t s offset fuel = none := by
  intro fuel
  induction fuel with
  | zero => intro offset; rfl
  | succ n ih =>
    intro offset
    rw [find_matching_go, show wait_channel_count - 1 = 1023 from rfl]
    rw [if_neg (h _ (and_1023_lt _))]
    exact ih (offset + 1)

theorem find_matching_go_isSome (channels : List WaitChannel) (a e t s : Nat) :
    ∀ fuel offset, (∃ d, d < fuel ∧
      ((getch channels ((s + (offset + d)) &&& 1023)).key_tag = t ∧
       (getch channels ((s + (offset + d)) &&& 1023)).turn_addr = a ∧
       (getch channels ((s + (offset + d)) &&& 1023)).expected_turn = e)) →
    (find_matching_go channels a e t s offset fuel).isSome = true := by
  intro fuel
  induction fuel with
  | zero =>
    intro offset h
    obtain ⟨d, hd, _⟩ := h
    exact absurd hd (Nat.not_lt_zero d)
  | succ n ih =>
    intro offset h
    obtain ⟨d, hd, hP⟩ := h
    rw [find_matching_go, show wait_channel_count - 1 = 1023 from rfl]
    by_cases hc : (getch channels ((s + offset) &&& 1023)).key_tag = t ∧
        (getch channels ((s + offset) &&& 1023)).turn_addr = a ∧
        (getch channels ((s + offset) &&& 1023)).expected_turn = e
    · rw [if_pos hc]
      rfl
    · rw [if_neg hc]
      apply ih (offset + 1)
      cases d with
      | zero => exact absurd (by simpa using hP) hc
      | succ d' =>
        refine ⟨d', by omega, ?_⟩
        rw [show offset + 1 + d' = offset + (d' + 1) by omega]
        exact hP

theorem find_empty_go_sound (channels : List WaitChannel) (s : Nat) :
    ∀ fuel offset j, find_empty_go channels s offset fuel = some j →
      j < wait_channel_count ∧ (getch channels j).key_tag = 0 ∧
      (getch channels j).waiters = [] := by
  intro fuel
  induction fuel with
  | zero =>
    intro offset j h
    simp [find_empty_go] at h
  | succ n ih =>
    intro offset j h
    rw [find_empty_go, show wait_channel_count - 1 = 1023 from rfl] at h
    by_cases h0 : (getch channels ((s + offset) &&& 1023)).key_tag = 0
    · rw [if_pos h0] at h
      by_cases h1 : (getch channels ((s + offset) &&& 1023)).waiters = [] ∧
          (getch channels ((s + offset) &&& 1023)).key_tag = 0
      · rw [if_pos h1] at h
        obtain rfl := Option.some.inj h
        exact ⟨and_1023_lt _, h0, h1.1⟩
      · rw [if_neg h1] at h
        exact ih (offset + 1) j h
    · rw [if_neg h0] at h
      exact ih (offset + 1) j h

theorem find_empty_go_none (channels : List WaitChannel) (s : Nat)
    (h : ∀ j, j < wait_channel_count → (getch channels j).key_tag ≠ 0) :
    ∀ fuel offset, find_empty_go channels s offset fuel = none := by
  intro fuel
  induction fuel with
  | zero => intro offset; rfl
  | succ n ih =>
    intro offset
    rw [find_empty_go, show wait_channel_count - 1 = 1023 from rfl]
    rw [if_neg (h _ (and_1023_lt _))]
    exact ih (offset + 1)

theorem getch_init (i : Nat) (h : i < wait_channel_count) :
    getch Registry.init.channels i = empty_channel := by
  unfold Registry.init getch
  simp [List.getD_eq_getElem?_getD, List.getElem?_replicate, h]

theorem ri_init : RI Registry.init := by
  refine ⟨by simp [Registry.init], ?_⟩
  intro i hi
  rw [getch_init i hi]
  exact ⟨fun _ => ⟨rfl, rfl, rfl⟩, fun hne => absurd rfl hne⟩

theorem seize_spec (reg : Registry) (index a e t : Nat)
    (hlen : index < reg.channels.length) :
    (seize_channel reg index a e t).channels.length = reg.channels.length ∧
    (∀ i, i ≠ index →
      getch (seize_channel reg index a e t).channels i = getch reg.channels i) ∧
    getch (seize_channel reg index a e t).channels index =
      { getch reg.channels index with
        turn_addr := a
        expected_turn := e
        key_tag := t } := by
  unfold seize_channel
  dsimp only
  refine ⟨List.length_set _ _ _, ?_, ?_⟩
  · intro i hi
    rw [getch_set, if_neg]
    intro hx
    exact hi hx.1.symm
  · rw [getch_set, if_pos ⟨rfl, hlen⟩]

theorem attempt_once_inr (reg : Registry) (a e t s : Nat) (reg1 : Registry)
    (h : attempt_once reg a e t s = Sum.inr reg1) : reg1.channels = reg.channels := by
  unfold attempt_once at h
  dsimp only at h
  rcases hm : lock_matching_channel reg.channels a e t s (probe_window reg) with _ | idx
  · rw [hm] at h
    rcases he : lock_empty_channel reg.channels s (probe_window reg) with _ | idx
    · rw [he] at h
      dsimp only at h
      obtain rfl := Sum.inr.inj h.symm
      unfold maybe_grow_probe_window
      by_cases hc : 256 ≤ probe_window reg
      · rw [if_pos hc]
      · rw [if_neg hc]
    · rw [he] at h
      exact Sum.noConfusion h
  · rw [hm] at h
    exact Sum.noConfusion h

theorem attempt_once_inl (reg : Registry) (a e t s : Nat)
    (hlen : reg.channels.length = wait_channel_count) :
    ∀ reg' index, attempt_once reg a e t s = Sum.inl (reg', index) →
      index < wait_channel_count ∧
      reg'.channels.length = reg.channels.length ∧
      (∀ i, i ≠ index → getch reg'.channels i = getch reg.channels i) ∧
      (getch reg'.channels index).key_tag = t ∧
      (getch reg'.channels index).turn_addr = a ∧
      (getch reg'.channels index).expected_turn = e ∧
      (getch reg'.channels index).waiters = (getch reg.channels index).waiters ∧
      ((getch reg.channels index).key_tag = t ∨
        (getch reg.channels index).waiters = []) := by
  intro reg' index h
  unfold attempt_once at h
  dsimp only at h
  rcases hm : lock_matching_channel reg.channels a e t s (probe_window reg) with _ | idx
  · rw [hm] at h
    rcases he : lock_empty_channel reg.channels s (probe_window reg) with _ | idx
    · rw [he] at h
      exact Sum.noConfusion h
    · rw [he] at h
      dsimp only at h
      obtain ⟨hr, hi⟩ := Prod.mk.injEq .. ▸ Sum.inl.inj h
      subst hi
      obtain ⟨hlt, h0, hw⟩ := find_empty_go_sound reg.channels s _ _ _ he
      obtain ⟨hl, hother, hat⟩ := seize_spec reg idx a e t (by omega)
      subst hr
      refine ⟨hlt, hl, hother, ?_, ?_, ?_, ?_, Or.inr hw⟩
      · rw [hat]
      · rw [hat]
      · rw [hat]
      · rw [hat]
  · rw [hm] at h
    dsimp only at h
    obtain ⟨hr, hi⟩ := Prod.mk.injEq .. ▸ Sum.inl.inj h
    subst hi
    subst hr
    obtain ⟨hlt, h1, h2, h3⟩ := find_matching_go_sound reg.channels a e t s _ _ _ hm
    exact ⟨hlt, rfl, fun i _ => rfl, h1, h2, h3, rfl, Or.inl h1⟩

theorem lock_channel_by_hint_sound (channels : List WaitChannel) (hint t hidx : Nat)
    (h : lock_channel_by_hint channels hint t = some hidx) :
    hidx < wait_channel_count ∧
    ((getch channels hidx).key_tag = 0 ∨ (getch channels hidx).key_tag = t) := by
  unfold lock_channel_by_hint at h
  by_cases hi : hint = invalid_channel_index
  · rw [if_pos hi] at h
    cases h
  · rw [if_neg hi] at h
    dsimp only at h
    by_cases hc : (getch channels (hint &&& (wait_channel_count - 1))).key_tag ≠ 0 ∧
        (getch channels (hint &&& (wait_channel_count - 1))).key_tag ≠ t
    · rw [if_pos hc] at h
      cases h
    · rw [if_neg hc] at h
      obtain rfl := Option.some.inj h
      refine ⟨by rw [show wait_channel_count - 1 = 1023 from rfl]; exact and_1023_lt _, ?_⟩
      rcases not_and_or.mp hc with h0 | h0
      · exact Or.inl (not_not.mp h0)
      · exact Or.inr (not_not.mp h0)

theorem full_table_rounds_spec (reg3 : Registry) (a e t s : Nat)
    (hlen : reg3.channels.length = wait_channel_count) :
    ∀ reg' oi, full_table_rounds reg3 a e t s = (reg', oi) →
      reg'.channels.length = reg3.channels.length ∧
      ∀ index, oi = some index →
        index < wait_channel_count ∧
        (∀ i, i ≠ index → getch reg'.channels i = getch reg3.channels i) ∧
        (getch reg'.channels index).key_tag = t ∧
        (getch reg'.channels index).turn_addr = a ∧
        (getch reg'.channels index).expected_turn = e ∧
        (getch reg'.channels index).waiters = (getch reg3.channels index).waiters ∧
        ((getch reg3.channels index).key_tag = t ∨
          (getch reg3.channels index).waiters = []) := by
  intro reg' oi h
  unfold full_table_rounds at h
  rcases hm : lock_matching_channel reg3.channels a e t s wait_channel_count with _ | idx
  · rw [hm] at h
    rcases he : lock_empty_channel reg3.channels s wait_channel_count with _ | idx
    · rw [he] at h
      obtain ⟨hr, ho⟩ := Prod.mk.injEq .. ▸ h
      subst hr
      subst ho
      exact ⟨rfl, fun index hx => Option.noConfusion hx⟩
    · rw [he] at h
      obtain ⟨hr, ho⟩ := Prod.mk.injEq .. ▸ h
      subst hr
      subst ho
      obtain ⟨hlt, h0, hw⟩ := find_empty_go_sound reg3.channels s _ _ _ he
      obtain ⟨hl, hother, hat⟩ := seize_spec reg3 idx a e t (by omega)
      refine ⟨hl, ?_⟩
      intro index hx
      obtain rfl := Option.some.inj hx
      exact ⟨hlt, hother, by rw [hat], by rw [hat], by rw [hat], by rw [hat], Or.inr hw⟩
  · rw [hm] at h
    obtain ⟨hr, ho⟩ := Prod.mk.injEq .. ▸ h
    subst hr
    subst ho
    obtain ⟨hlt, h1, h2, h3⟩ := find_matching_go_sound reg3.channels a e t s _ _ _ hm
    refine ⟨rfl, ?_⟩
    intro index hx
    obtain rfl := Option.some.inj hx
    exact ⟨hlt, fun i _ => rfl, h1, h2, h3, rfl, Or.inl h1⟩

theorem probe_rounds_spec (reg : Registry) (a e t s : Nat)
    (hlen : reg.channels.length = wait_channel_count) :
    ∀ reg' oi, probe_rounds reg a e t s = (reg', oi) →
      reg'.channels.length = reg.channels.length ∧
      ∀ index, oi = some index →
        index < wait_channel_count ∧
        (∀ i, i ≠ index → getch reg'.channels i = getch reg.channels i) ∧
        (getch reg'.channels index).key_tag = t ∧
        (getch reg'.channels index).turn_addr = a ∧
        (getch reg'.channels index).expected_turn = e ∧
        (getch reg'.channels index).waiters = (getch reg.channels index).waiters ∧
        ((getch reg.channels index).key_tag = t ∨
          (getch reg.channels index).waiters = []) := by
  intro reg' oi h
  unfold probe_rounds at h
  rcases h1 : attempt_once reg a e t s with ⟨rega, idxa⟩ | reg1
  · rw [h1] at h
    dsimp only at h
    obtain ⟨hr, ho⟩ := Prod.mk.injEq .. ▸ h
    subst hr
    subst ho
    obtain ⟨hlt, hl, hother, hf1, hf2, hf3, hwsame, hdisj⟩ :=
      attempt_once_inl reg a e t s hlen rega idxa h1
    refine ⟨hl, ?_⟩
    intro index hx
    obtain rfl := Option.some.inj hx
    exact ⟨hlt, hother, hf1, hf2, hf3, hwsame, hdisj⟩
  · rw [h1] at h
    dsimp only at h
    have hc1 : reg1.channels = reg.channels := attempt_once_inr _ _ _ _ _ _ h1
    rcases h2 : attempt_once reg1 a e t s with ⟨rega, idxa⟩ | reg2
    · rw [h2] at h
      dsimp only at h
      obtain ⟨hr, ho⟩ := Prod.mk.injEq .. ▸ h
      subst hr
      subst ho
      have hsp := attempt_once_inl reg1 a e t s (by rw [hc1]; exact hlen) rega idxa h2
      rw [hc1] at hsp
      obtain ⟨hlt, hl, hother, hf1, hf2, hf3, hwsame, hdisj⟩ := hsp
      refine ⟨hl, ?_⟩
      intro index hx
      obtain rfl := Option.some.inj hx
      exact ⟨hlt, hother, hf1, hf2, hf3, hwsame, hdisj⟩
    · rw [h2] at h
      dsimp only at h
      have hc2 : reg2.channels = reg.channels := by
        rw [attempt_once_inr _ _ _ _ _ _ h2, hc1]
      rcases h3 : attempt_once reg2 a e t s with ⟨rega, idxa⟩ | reg3
      · rw [h3] at h
        dsimp only at h
        obtain ⟨hr, ho⟩ := Prod.mk.injEq .. ▸ h
        subst hr
        subst ho
        have hsp := attempt_once_inl reg2 a e t s (by rw [hc2]; exact hlen) rega idxa h3
        rw [hc2] at hsp
        obtain ⟨hlt, hl, hother, hf1, hf2, hf3, hwsame, hdisj⟩ := hsp
        refine ⟨hl, ?_⟩
        intro index hx
        obtain rfl := Option.some.inj hx
        exact ⟨hlt, hother, hf1, hf2, hf3, hwsame, hdisj⟩
      · rw [h3] at h
        dsimp only at h
        have hc3 : reg3.channels = reg.channels := by
          rw [attempt_once_inr _ _ _ _ _ _ h3, hc2]
        have hsp := full_table_rounds_spec reg3 a e t s (by rw [hc3]; exact hlen)
          reg' oi h
        rw [hc3] at hsp
        exact hsp

theorem find_or_reserve_spec (reg : Registry) (hint a e t : Nat)
    (hri : RI reg) (haddr : a ≠ 0) :
    ∀ reg' oi, find_or_reserve_channel reg hint a e t = (reg', oi) →
      reg'.channels.length = reg.channels.length ∧
      ∀ index, oi = some index →
        index < wait_channel_count ∧
        (∀ i, i ≠ index → getch reg'.channels i = getch reg.channels i) ∧
        (getch reg'.channels index).key_tag = t ∧
        (getch reg'.channels index).turn_addr = a ∧
        (getch reg'.channels index).expected_turn = e ∧
        (getch reg'.channels index).waiters = (getch reg.channels index).waiters ∧
        ((getch reg.channels index).key_tag = t ∨
          (getch reg.channels index).waiters = []) := by
  intro reg' oi h
  obtain ⟨hlen, hprops⟩ := hri
  unfold find_or_reserve_channel at h
  dsimp only at h
  rcases hhint : lock_channel_by_hint reg.channels hint t with _ | hidx
  · rw [hhint] at h
    exact probe_rounds_spec reg a e t _ hlen reg' oi h
  · rw [hhint] at h
    dsimp only at h
    obtain ⟨hlt, htag0⟩ := lock_channel_by_hint_sound reg.channels hint t hidx hhint
    by_cases hcond : (getch reg.channels hidx).turn_addr = a ∧
        (getch reg.channels hidx).expected_turn = e
    · rw [if_pos hcond] at h
      dsimp only at h
      obtain ⟨hr, ho⟩ := Prod.mk.injEq .. ▸ h
      subst hr
      subst ho
      have htag : (getch reg.channels hidx).key_tag = t := by
        rcases htag0 with h0 | h0
        · have hz := (hprops hidx hlt).1 h0
          have : a = 0 := by
            rw [← hcond.1]
            exact hz.1
          exact absurd this haddr
        · exact h0
      refine ⟨rfl, ?_⟩
      intro index hx
      obtain rfl := Option.some.inj hx
      exact ⟨hlt, fun i _ => rfl, htag, hcond.1, hcond.2, rfl, Or.inl htag⟩
    · rw [if_neg hcond] at h
      by_cases hw : (getch reg.channels hidx).waiters = []
      · rw [if_pos hw] at h
        dsimp only at h
        obtain ⟨hr, ho⟩ := Prod.mk.injEq .. ▸ h
        subst hr
        subst ho
        obtain ⟨hl, hother, hat⟩ := seize_spec reg hidx a e t (by omega)
        refine ⟨hl, ?_⟩
        intro index hx
        obtain rfl := Option.some.inj hx
        exact ⟨hlt, hother, by rw [hat], by rw [hat], by rw [hat], by rw [hat], Or.inr hw⟩
      · rw [if_neg hw] at h
        exact probe_rounds_spec reg a e t _ hlen reg' oi h

theorem arm_true_spec (w : NotifyWorld) (wid : Nat)
    (hri : RI w.reg)
    (haddr : (w.waiters.getD wid default).turn_addr ≠ 0)
    (harm : (arm w wid).1 = true) :
    ∃ index, index < wait_channel_count ∧
      (arm w wid).2.mem = w.mem ∧
      (arm w wid).2.waiters = w.waiters.set wid
        { w.waiters.getD wid default with
          notifying := false
          armed := true
          linked := true
          channel_index := index } ∧
      (arm w wid).2.reg.channels.length = wait_channel_count ∧
      (∀ i, i ≠ index → getch (arm w wid).2.reg.channels i = getch w.reg.channels i) ∧
      getch (arm w wid).2.reg.channels index =
        ⟨mix_key (w.waiters.getD wid default).turn_addr
            (w.waiters.getD wid default).expected_turn,
          (w.waiters.getD wid default).turn_addr,
          (w.waiters.getD wid default).expected_turn,
          wid :: (getch w.reg.channels index).waiters⟩ ∧
      ((getch w.reg.channels index).key_tag =
          mix_key (w.waiters.getD wid default).turn_addr
            (w.waiters.getD wid default).expected_turn ∨
        (getch w.reg.channels index).waiters = []) ∧
      turn_reached (w.mem (w.waiters.getD wid default).turn_addr)
        (w.waiters.getD wid default).expected_turn = false ∧
      (find_or_reserve_channel w.reg (w.waiters.getD wid default).channel_hint
        (w.waiters.getD wid default).turn_addr
        (w.waiters.getD wid default).expected_turn
        (mix_key (w.waiters.getD wid default).turn_addr
          (w.waiters.getD wid default).expected_turn)).2 = some index := by
  by_cases ht : turn_reached (w.mem (w.waiters.getD wid default).turn_addr)
      (w.waiters.getD wid default).expected_turn = true
  · have hfalse : arm w wid = (false, w) := by
      unfold arm
      dsimp only
      rw [if_pos ht]
    rw [hfalse] at harm
    exact Bool.noConfusion harm
  · rcases hfr : find_or_reserve_channel w.reg (w.waiters.getD wid default).channel_hint
        (w.waiters.getD wid default).turn_addr (w.waiters.getD wid default).expected_turn
        (mix_key (w.waiters.getD wid default).turn_addr
          (w.waiters.getD wid default).expected_turn) with ⟨regF, oi⟩
    rcases oi with _ | index
    · have hfalse : (arm w wid).1 = false := by
        unfold arm
        dsimp only
        rw [if_neg ht, hfr]
      rw [hfalse] at harm
      exact Bool.noConfusion harm
    · obtain ⟨hlenF, hspec⟩ := find_or_reserve_spec w.reg
        (w.waiters.getD wid default).channel_hint (w.waiters.getD wid default).turn_addr
        (w.waiters.getD wid default).expected_turn
        (mix_key (w.waiters.getD wid default).turn_addr
          (w.waiters.getD wid default).expected_turn)
        hri haddr regF (some index) hfr
      obtain ⟨hlt, hother, hf1, hf2, hf3, hwsame, hdisj⟩ := hspec index rfl
      have heval : arm w wid = (true,
          { w with
            reg :=
              if (getch regF.channels index).waiters.length = 0 then
                { regF with
                  channels := regF.channels.set index
                    { getch regF.channels index with
                      waiters := wid :: (getch regF.channels index).waiters }
                  occupied_channel_count := regF.occupied_channel_count + 1 }
              else
                { regF with
                  channels := regF.channels.set index
                    { getch regF.channels index with
                      waiters := wid :: (getch regF.channels index).waiters } }
            waiters := w.waiters.set wid
              { w.waiters.getD wid default with
                notifying := false
                armed := true
                linked := true
                channel_index := index } }) := by
        unfold arm
        dsimp only
        rw [if_neg ht, hfr]
        dsimp only
        rw [if_neg ht, if_neg ht]
      have hchan : (arm w wid).2.reg.channels = regF.channels.set index
          { getch regF.channels index with
            waiters := wid :: (getch regF.channels index).waiters } := by
        rw [heval]
        dsimp only
        by_cases hb : (getch regF.channels index).waiters.length = 0
        · rw [if_pos hb]
        · rw [if_neg hb]
      have hlenw : regF.channels.length = wait_channel_count := by
        rw [hlenF]
        exact hri.1
      refine ⟨index, hlt, ?_, ?_, ?_, ?_, ?_, hdisj, Bool.not_eq_true _ ▸ ht, rfl⟩
      · rw [heval]
      · rw [heval]
      · rw [hchan, List.length_set]
        exact hlenw
      · intro i hi
        rw [hchan, getch_set, if_neg]
        · exact hother i hi
        · intro hx
          exact hi hx.1.symm
      · rw [hchan, getch_set, if_pos ⟨rfl, by omega⟩]
        rcases hgf : getch regF.channels index with ⟨kt, ta, et, wl⟩
        rw [hgf] at hf1 hf2 hf3 hwsame
        dsimp only at hf1 hf2 hf3 hwsame
        dsimp only
        rw [hf1, hf2, hf3, hwsame]

/-- C3 (amended): for a waiter with a non-null `turn_ptr` in a sequential
execution, (1) when the turn has already been reached `arm` returns `false`
and changes nothing; (2) `arm` returns `false` only when the turn has been
reached or `find_or_reserve_channel` found no bucket (bucket exhaustion —
the extra case the original claim omits); (3) when `arm` returns `true` the
waiter is armed and linked in exactly one bucket. -/
theorem c3_arm_turn_semantics (w : NotifyWorld) (wid : Nat)
    (hri : RI w.reg) (hwid : wid < w.waiters.length)
    (haddr : (w.waiters.getD wid default).turn_addr ≠ 0)
    (hfresh : ∀ i, i < wait_channel_count →
      wid ∉ (getch w.reg.channels i).waiters) :
    (turn_reached (w.mem (w.waiters.getD wid default).turn_addr)
        (w.waiters.getD wid default).expected_turn = true →
      arm w wid = (false, w)) ∧
    ((arm w wid).1 = false →
      turn_reached (w.mem (w.waiters.getD wid default).turn_addr)
        (w.waiters.getD wid default).expected_turn = true ∨
      (find_or_reserve_channel w.reg (w.waiters.getD wid default).channel_hint
        (w.waiters.getD wid default).turn_addr
        (w.waiters.getD wid default).expected_turn
        (mix_key (w.waiters.getD wid default).turn_addr
          (w.waiters.getD wid default).expected_turn)).2 = none) ∧
    ((arm w wid).1 = true →
      ((arm w wid).2.waiters.getD wid default).armed = true ∧
      ((arm w wid).2.waiters.getD wid default).linked = true ∧
      ∃ index, index < wait_channel_count ∧
        ((arm w wid).2.waiters.getD wid default).channel_index = index ∧
        ∀ i, i < wait_channel_count →
          (wid ∈ (getch (arm w wid).2.reg.channels i).waiters ↔ i = index)) := by
  refine ⟨?_, ?_, ?_⟩
  · intro h1
    unfold arm
    dsimp only
    rw [if_pos h1]
  · intro hfalse
    by_cases ht : turn_reached (w.mem (w.waiters.getD wid default).turn_addr)
        (w.waiters.getD wid default).expected_turn = true
    · exact Or.inl ht
    · rcases hfr : find_or_reserve_channel w.reg
          (w.waiters.getD wid default).channel_hint
          (w.waiters.getD wid default).turn_addr
          (w.waiters.getD wid default).expected_turn
          (mix_key (w.waiters.getD wid default).turn_addr
            (w.waiters.getD wid default).expected_turn) with ⟨regF, oi⟩
      rcases oi with _ | index
      · right
        rfl
      · have htrue : (arm w wid).1 = true := by
          unfold arm
          dsimp only
          rw [if_neg ht, hfr]
          dsimp only
          rw [if_neg ht, if_neg ht]
        rw [htrue] at hfalse
        exact Bool.noConfusion hfalse
  · intro htrue
    obtain ⟨index, hlt, _hmem, hwset, _hlen, hother, hat, _hdisj, _hturn, _hfound⟩ :=
      arm_true_spec w wid hri haddr htrue
    have hgd : (arm w wid).2.waiters.getD wid default =
        { w.waiters.getD wid default with
          notifying := false
          armed := true
          linked := true
          channel_index := index } := by
      rw [hwset]
      exact getD_set_self _ _ _ _ hwid
    refine ⟨by rw [hgd], by rw [hgd], index, hlt, by rw [hgd], ?_⟩
    intro i hi
    constructor
    · intro hmem
      by_contra hne
      rw [hother i hne] at hmem
      exact hfresh i hi hmem
    · intro hieq
      subst hieq
      rw [hat]
      exact List.mem_cons_self wid _

theorem c3_arm_turn_semantics_witness :
    RI single_world.reg ∧
    0 < single_world.waiters.length ∧
    (single_world.waiters.getD 0 default).turn_addr ≠ 0 ∧
    ((arm single_world 0).1 = true →
      ((arm single_world 0).2.waiters.getD 0 default).armed = true ∧
      ((arm single_world 0).2.waiters.getD 0 default).linked = true ∧
      ∃ index, index < wait_channel_count ∧
        ((arm single_world 0).2.waiters.getD 0 default).channel_index = index ∧
        ∀ i, i < wait_channel_count →
          (0 ∈ (getch (arm single_world 0).2.reg.channels i).waiters ↔ i = index)) := by
  have hfresh : ∀ i, i < wait_channel_count →
      (0 : Nat) ∉ (getch single_world.reg.channels i).waiters := by
    intro i hi
    show (0 : Nat) ∉ (getch Registry.init.channels i).waiters
    rw [getch_init i hi]
    exact List.not_mem_nil 0
  exact ⟨ri_init, by decide, by decide,
    (c3_arm_turn_semantics single_world 0 ri_init (by decide) (by decide) hfresh).2.2⟩

theorem lock_matching_channel_none (channels : List WaitChannel) (a e t s span : Nat)
    (h : ∀ j, j < wait_channel_count →
      ¬((getch channels j).key_tag = t ∧ (getch channels j).turn_addr = a ∧
        (getch channels j).expected_turn = e)) :
    lock_matching_channel channels a e t s span = none :=
  find_matching_go_none channels a e t s h span 0

theorem lock_existing_none (reg : Registry) (a v : Nat)
    (h : ∀ j, j < wait_channel_count →
      ¬((getch reg.channels j).key_tag = mix_key a v ∧
        (getch reg.channels j).turn_addr = a ∧
        (getch reg.channels j).expected_turn = v)) :
    lock_existing_channel reg a v = none := by
  unfold lock_existing_channel
  dsimp only
  rw [lock_matching_channel_none reg.channels a v (mix_key a v) (hash_key a v)
    (probe_window reg) h]
  exact lock_matching_channel_none reg.channels a v (mix_key a v) (hash_key a v)
    wait_channel_count h

theorem lock_existing_unique (reg : Registry) (a v index : Nat)
    (hmatch : (getch reg.channels index).key_tag = mix_key a v ∧
      (getch reg.channels index).turn_addr = a ∧
      (getch reg.channels index).expected_turn = v)
    (hindex : index < wait_channel_count)
    (huniq : ∀ j, j < wait_channel_count →
      (getch reg.channels j).key_tag = mix_key a v ∧
        (getch reg.channels j).turn_addr = a ∧
        (getch reg.channels j).expected_turn = v → j = index) :
    lock_existing_channel reg a v = some index := by
  unfold lock_existing_channel
  dsimp only
  rcases h1 : lock_matching_channel reg.channels a v (mix_key a v) (hash_key a v)
      (probe_window reg) with _ | j
  · have hs : (find_matching_go reg.channels a v (mix_key a v) (hash_key a v) 0
        wait_channel_count).isSome = true := by
      apply find_matching_go_isSome
      refine ⟨(index + 1024 - hash_key a v % 1024) % 1024, ?_, ?_⟩
      · have h1024 : (0:Nat) < 1024 := by decide
        exact Nat.mod_lt _ h1024
      · have hx : (hash_key a v + (0 + (index + 1024 - hash_key a v % 1024) % 1024))
            &&& 1023 = index := by
          rw [and_1023_eq_mod]
          have hi : index < 1024 := hindex
          omega
        rw [hx]
        exact hmatch
    rcases h2 : find_matching_go reg.channels a v (mix_key a v) (hash_key a v) 0
        wait_channel_count with _ | j
    · rw [h2] at hs
      cases hs
    · obtain ⟨hjlt, hj1, hj2, hj3⟩ := find_matching_go_sound _ _ _ _ _ _ _ _ h2
      have hji : j = index := huniq j hjlt ⟨hj1, hj2, hj3⟩
      show lock_matching_channel reg.channels a v (mix_key a v) (hash_key a v)
          wait_channel_count = some index
      rw [← hji]
      exact h2
  · have h1' : find_matching_go reg.channels a v (mix_key a v) (hash_key a v) 0
        (probe_window reg) = some j := h1
    obtain ⟨hjlt, hj1, hj2, hj3⟩ := find_matching_go_sound _ _ _ _ _ _ _ _ h1'
    rw [huniq j hjlt ⟨hj1, hj2, hj3⟩]


theorem notify_of_lock_none (w : NotifyWorld) (a v : Nat)
    (h : lock_existing_channel w.reg a v = none) : notify w a v = (w, []) := by
  unfold notify
  rw [h]
theorem getD_set_general {β : Type} (l : List β) (n m : Nat) (v d : β) :
    (l.set n v).getD m d = if n = m ∧ n < l.length then v else l.getD m d := by
  rw [List.getD_eq_getElem?_getD, List.getD_eq_getElem?_getD, List.getElem?_set]
  by_cases hnm : n = m
  · subst hnm
    by_cases hl : n < l.length
    · simp [hl]
    · simp [hl, List.getElem?_eq_none, Nat.le_of_not_lt hl]
  · simp [hnm]

theorem lock_existing_sound (reg : Registry) (a v j : Nat)
    (h : lock_existing_channel reg a v = some j) : j < wait_channel_count := by
  unfold lock_existing_channel at h
  dsimp only at h
  rcases h1 : lock_matching_channel reg.channels a v (mix_key a v) (hash_key a v)
      (probe_window reg) with _ | j1
  · rw [h1] at h
    dsimp only at h
    have h' : find_matching_go reg.channels a v (mix_key a v) (hash_key a v) 0
        wait_channel_count = some j := h
    exact (find_matching_go_sound _ _ _ _ _ _ _ _ h').1
  · rw [h1] at h
    dsimp only at h
    obtain rfl := Option.some.inj h
    have h1' : find_matching_go reg.channels a v (mix_key a v) (hash_key a v) 0
        (probe_window reg) = some j1 := h1
    exact (find_matching_go_sound _ _ _ _ _ _ _ _ h1').1

theorem find_or_reserve_hint_exact (reg : Registry) (j a e t : Nat)
    (hj : j < wait_channel_count)
    (h1 : (getch reg.channels j).key_tag = t)
    (h2 : (getch reg.channels j).turn_addr = a)
    (h3 : (getch reg.channels j).expected_turn = e) :
    find_or_reserve_channel reg j a e t = (reg, some j) := by
  have hmask : j &&& (wait_channel_count - 1) = j := by
    rw [show wait_channel_count - 1 = 1023 from rfl, and_1023_eq_mod]
    exact Nat.mod_eq_of_lt hj
  have hhj : lock_channel_by_hint reg.channels j t = some j := by
    unfold lock_channel_by_hint
    rw [if_neg (show ¬ j = invalid_channel_index by
      have hj' : j < 1024 := hj
      show ¬ j = 65535
      omega)]
    dsimp only
    rw [hmask]
    rw [if_neg (fun hx => hx.2 h1)]
  unfold find_or_reserve_channel
  dsimp only
  rw [hhj]
  dsimp only
  rw [if_pos (show (getch reg.channels j).turn_addr = a ∧
    (getch reg.channels j).expected_turn = e from ⟨h2, h3⟩)]

theorem run_callbacks_snd : ∀ (l : List Nat) (w : NotifyWorld),
    (run_callbacks w l).2 = l := by
  intro l
  induction l with
  | nil => intro w; rfl
  | cons x rest ih =>
    intro w
    rw [run_callbacks]
    dsimp only
    rw [ih]

theorem run_callbacks_reg : ∀ (l : List Nat) (w : NotifyWorld),
    (run_callbacks w l).1.reg = w.reg := by
  intro l
  induction l with
  | nil => intro w; rfl
  | cons x rest ih =>
    intro w
    rw [run_callbacks]
    dsimp only
    exact ih _

theorem run_callbacks_armed : ∀ (l : List Nat) (w : NotifyWorld) (n : Nat),
    ((run_callbacks w l).1.waiters.getD n default).armed
      = (w.waiters.getD n default).armed := by
  intro l
  induction l with
  | nil => intro w n; rfl
  | cons x rest ih =>
    intro w n
    rw [run_callbacks]
    dsimp only
    rw [ih]
    dsimp only
    rw [getD_set_general]
    by_cases hc : x = n ∧ x < w.waiters.length
    · rw [if_pos hc]
      obtain ⟨hxn, _⟩ := hc
      subst hxn
      rfl
    · rw [if_neg hc]

theorem notify_detach_reg : ∀ (l r : List Nat) (w : NotifyWorld),
    (notify_detach w l r).1.reg = w.reg := by
  intro l
  induction l with
  | nil => intro r w; rfl
  | cons x rest ih =>
    intro r w
    rw [notify_detach]
    dsimp only
    by_cases hc : (w.waiters.getD x default).armed = true
    · rw [if_pos hc]
      exact ih _ _
    · rw [if_neg hc]
      exact ih _ _

theorem notify_detach_waiter_frame : ∀ (l r : List Nat) (w : NotifyWorld) (n : Nat),
    n ∉ l →
    (notify_detach w l r).1.waiters.getD n default = w.waiters.getD n default := by
  intro l
  induction l with
  | nil => intro r w n _; rfl
  | cons x rest ih =>
    intro r w n hn
    have hxn : x ≠ n := fun hx => hn (by rw [hx]; exact List.mem_cons_self n rest)
    have hrest : n ∉ rest := fun hm => hn (List.mem_cons_of_mem x hm)
    rw [notify_detach]
    dsimp only
    by_cases hc : (w.waiters.getD x default).armed = true
    · rw [if_pos hc, ih _ _ _ hrest]
      dsimp only
      rw [getD_set_other _ _ _ _ _ hxn]
    · rw [if_neg hc, ih _ _ _ hrest]
      dsimp only
      rw [getD_set_other _ _ _ _ _ hxn]

theorem notify_detach_count_notin : ∀ (l r : List Nat) (w : NotifyWorld) (n : Nat),
    n ∉ l → ((notify_detach w l r).2).count n = r.count n := by
  intro l
  induction l with
  | nil => intro r w n _; rfl
  | cons x rest ih =>
    intro r w n hn
    have hxn : n ≠ x := fun hx => hn (by rw [hx]; exact List.mem_cons_self x rest)
    have hrest : n ∉ rest := fun hm => hn (List.mem_cons_of_mem x hm)
    rw [notify_detach]
    dsimp only
    by_cases hc : (w.waiters.getD x default).armed = true
    · rw [if_pos hc, ih _ _ _ hrest]
      exact List.count_cons_of_ne hxn r
    · rw [if_neg hc, ih _ _ _ hrest]

theorem notify_spec_for (w : NotifyWorld) (a v index wid : Nat) (l : List Nat)
    (hlock : lock_existing_channel w.reg a v = some index)
    (hwid : wid < w.waiters.length)
    (hgarm : (w.waiters.getD wid default).armed = true)
    (hhd : (getch w.reg.channels index).waiters = wid :: l)
    (hnot : wid ∉ l) :
    ((notify w a v).2).count wid = 1 ∧
    ((notify w a v).1.waiters.getD wid default).armed = false ∧
    (notify w a v).1.reg.channels = w.reg.channels.set index empty_channel := by
  have hne0 : ¬ (wid :: l).length = 0 := by simp
  have hnot_eq : notify w a v =
      run_callbacks
        (notify_detach
          { w with
            reg :=
              { w.reg with
                channels := w.reg.channels.set index empty_channel
                occupied_channel_count := w.reg.occupied_channel_count - 1 }
            waiters := w.waiters.set wid
              { w.waiters.getD wid default with
                armed := false
                linked := false
                notifying := true
                channel_index := invalid_channel_index } } l [wid]).1
        (notify_detach
          { w with
            reg :=
              { w.reg with
                channels := w.reg.channels.set index empty_channel
                occupied_channel_count := w.reg.occupied_channel_count - 1 }
            waiters := w.waiters.set wid
              { w.waiters.getD wid default with
                armed := false
                linked := false
                notifying := true
                channel_index := invalid_channel_index } } l [wid]).2 := by
    unfold notify
    rw [hlock]
    dsimp only
    rw [hhd]
    rw [if_pos hne0]
    rw [notify_detach]
    dsimp only
    rw [if_pos hgarm]
  refine ⟨?_, ?_, ?_⟩
  · rw [hnot_eq, run_callbacks_snd]
    rw [notify_detach_count_notin _ _ _ _ hnot]
    simp
  · rw [hnot_eq, run_callbacks_armed]
    rw [notify_detach_waiter_frame _ _ _ _ hnot]
    dsimp only
    rw [getD_set_self _ _ _ _ hwid]
  · rw [hnot_eq, run_callbacks_reg, notify_detach_reg]

theorem notify_count_zero (w : NotifyWorld) (a v n : Nat)
    (h : ∀ index, lock_existing_channel w.reg a v = some index →
      n ∉ (getch w.reg.channels index).waiters) :
    ((notify w a v).2).count n = 0 := by
  rcases hlock : lock_existing_channel w.reg a v with _ | index
  · rw [notify_of_lock_none _ _ _ hlock]
    rfl
  · have hn := h index hlock
    unfold notify
    rw [hlock]
    dsimp only
    rw [run_callbacks_snd]
    rw [notify_detach_count_notin _ _ _ _ hn]
    rfl

/-- C4: for a waiter on which `arm` returned `true` — whether it seized a
fresh bucket or joined the existing bucket of its key alongside co-resident
waiters (the lifecycle hypothesis `hhint` says the channel hint of the
waiter names the bucket of its key whenever one exists, as the channel
toolkit maintains) — a `notify` carrying the exact key of the waiter
invokes its callback exactly once (the waiter occurs exactly once in the
fired list, whatever co-residents also fire) with `armed` already cleared;
a second identical `notify` never fires it again, and after `disarm` a
matching `notify` never fires it — the two outcomes are exclusive and
exhaustive. -/
theorem c4_notify_disarm_exclusive (w : NotifyWorld) (wid : Nat)
    (hri : RI w.reg) (hwid : wid < w.waiters.length)
    (haddr : (w.waiters.getD wid default).turn_addr ≠ 0)
    (hfresh : ∀ i, i < wait_channel_count →
      wid ∉ (getch w.reg.channels i).waiters)
    (hhint : ∀ j, j < wait_channel_count →
      (getch w.reg.channels j).key_tag =
        mix_key (w.waiters.getD wid default).turn_addr
          (w.waiters.getD wid default).expected_turn →
      (getch w.reg.channels j).turn_addr = (w.waiters.getD wid default).turn_addr →
      (getch w.reg.channels j).expected_turn =
        (w.waiters.getD wid default).expected_turn →
      (w.waiters.getD wid default).channel_hint = j)
    (harm : (arm w wid).1 = true) :
    ((notify (arm w wid).2 (w.waiters.getD wid default).turn_addr
        (w.waiters.getD wid default).expected_turn).2).count wid = 1 ∧
    ((notify (arm w wid).2 (w.waiters.getD wid default).turn_addr
        (w.waiters.getD wid default).expected_turn).1.waiters.getD wid
        default).armed = false ∧
    ((notify (notify (arm w wid).2 (w.waiters.getD wid default).turn_addr
        (w.waiters.getD wid default).expected_turn).1
      (w.waiters.getD wid default).turn_addr
      (w.waiters.getD wid default).expected_turn).2).count wid = 0 ∧
    ((notify (disarm (arm w wid).2 wid) (w.waiters.getD wid default).turn_addr
      (w.waiters.getD wid default).expected_turn).2).count wid = 0 := by
  obtain ⟨index, hlt, _hmemW, hwset, hlenW, hother, hat0, _hdisj, _hturn, hfound⟩ :=
    arm_true_spec w wid hri haddr harm
  have hWgd : (arm w wid).2.waiters.getD wid default =
      { w.waiters.getD wid default with
        notifying := false
        armed := true
        linked := true
        channel_index := index } := by
    rw [hwset]
    exact getD_set_self _ _ _ _ hwid
  have hlenWw : (arm w wid).2.waiters.length = w.waiters.length := by
    rw [hwset]
    exact List.length_set _ _ _
  have hwidW : wid < (arm w wid).2.waiters.length := by
    rw [hlenWw]
    exact hwid
  have hidxW : index < (arm w wid).2.reg.channels.length := by
    rw [hlenW]
    exact hlt
  have hold_old : (getch (arm w wid).2.reg.channels index).waiters =
      wid :: (getch w.reg.channels index).waiters := by
    rw [hat0]
  have hwnotin : wid ∉ (getch w.reg.channels index).waiters := hfresh index hlt
  have hpu : ∀ j, j < wait_channel_count →
      (getch (arm w wid).2.reg.channels j).key_tag =
          mix_key (w.waiters.getD wid default).turn_addr
            (w.waiters.getD wid default).expected_turn ∧
        (getch (arm w wid).2.reg.channels j).turn_addr =
          (w.waiters.getD wid default).turn_addr ∧
        (getch (arm w wid).2.reg.channels j).expected_turn =
          (w.waiters.getD wid default).expected_turn → j = index := by
    intro j hj hm
    by_contra hne
    rw [hother j hne] at hm
    have hhj := hhint j hj hm.1 hm.2.1 hm.2.2
    have hdet := find_or_reserve_hint_exact w.reg j
      (w.waiters.getD wid default).turn_addr
      (w.waiters.getD wid default).expected_turn
      (mix_key (w.waiters.getD wid default).turn_addr
        (w.waiters.getD wid default).expected_turn) hj hm.1 hm.2.1 hm.2.2
    rw [hhj, hdet] at hfound
    exact hne (Option.some.inj hfound)
  have hlock1 : lock_existing_channel (arm w wid).2.reg
      (w.waiters.getD wid default).turn_addr
      (w.waiters.getD wid default).expected_turn = some index := by
    apply lock_existing_unique
    · rw [hat0]
      exact ⟨rfl, rfl, rfl⟩
    · exact hlt
    · exact hpu
  obtain ⟨hcnt1, harmf, hch1⟩ := notify_spec_for (arm w wid).2
    (w.waiters.getD wid default).turn_addr
    (w.waiters.getD wid default).expected_turn index wid
    (getch w.reg.channels index).waiters hlock1 hwidW (by rw [hWgd]) hold_old hwnotin
  refine ⟨hcnt1, harmf, ?_, ?_⟩
  · apply notify_count_zero
    intro idx2 hl2
    have hlt2 := lock_existing_sound _ _ _ _ hl2
    rw [hch1, getch_set]
    by_cases hcase : index = idx2 ∧ index < (arm w wid).2.reg.channels.length
    · rw [if_pos hcase]
      exact List.not_mem_nil wid
    · rw [if_neg hcase]
      have hne2 : idx2 ≠ index := fun hx => hcase ⟨hx.symm, hidxW⟩
      rw [hother idx2 hne2]
      exact hfresh idx2 hlt2
  · have hV : ∃ V : WaitChannel, wid ∉ V.waiters ∧
        (disarm (arm w wid).2 wid).reg.channels
          = (arm w wid).2.reg.channels.set index V := by
      by_cases hoe : (getch w.reg.channels index).waiters = []
      · refine ⟨empty_channel, List.not_mem_nil wid, ?_⟩
        unfold disarm
        dsimp only
        rw [hWgd]
        dsimp only
        rw [if_pos (show index ≠ invalid_channel_index by
          have hlt' : index < 1024 := hlt
          show index ≠ 65535
          omega)]
        rw [getD_set_self _ _ _ _ hwidW]
        dsimp only
        rw [if_pos rfl]
        unfold remove_waiter_from_channel
        dsimp only
        rw [getD_set_self _ _ _ _ hwidW]
        dsimp only
        rw [if_pos rfl]
        rw [hat0, hoe]
        dsimp only
        rw [List.erase_cons_head]
        rw [if_pos (show ([wid] : List Nat) ≠ [] ∧ ([] : List Nat) = [] from
          ⟨by simp, rfl⟩)]
        unfold clear_channel_if_empty
        dsimp only
        rw [getch_set, if_pos (show index = index ∧
          index < (arm w wid).2.reg.channels.length from ⟨rfl, hidxW⟩)]
        dsimp only
        rw [if_pos rfl]
        rw [List.set_set]
      · refine ⟨⟨mix_key (w.waiters.getD wid default).turn_addr
            (w.waiters.getD wid default).expected_turn,
          (w.waiters.getD wid default).turn_addr,
          (w.waiters.getD wid default).expected_turn,
          (getch w.reg.channels index).waiters⟩, hwnotin, ?_⟩
        unfold disarm
        dsimp only
        rw [hWgd]
        dsimp only
        rw [if_pos (show index ≠ invalid_channel_index by
          have hlt' : index < 1024 := hlt
          show index ≠ 65535
          omega)]
        rw [getD_set_self _ _ _ _ hwidW]
        dsimp only
        rw [if_pos rfl]
        unfold remove_waiter_from_channel
        dsimp only
        rw [getD_set_self _ _ _ _ hwidW]
        dsimp only
        rw [if_pos rfl]
        rw [hat0]
        dsimp only
        rw [List.erase_cons_head]
        rw [if_neg (show ¬((wid :: (getch w.reg.channels index).waiters ≠ []) ∧
          (getch w.reg.channels index).waiters = []) from fun hx => hoe hx.2)]
        unfold clear_channel_if_empty
        dsimp only
        rw [getch_set, if_pos (show index = index ∧
          index < (arm w wid).2.reg.channels.length from ⟨rfl, hidxW⟩)]
        dsimp only
        rw [if_neg hoe]
    obtain ⟨V, hVnot, hDset⟩ := hV
    apply notify_count_zero
    intro idx2 hl2
    have hlt2 := lock_existing_sound _ _ _ _ hl2
    rw [hDset, getch_set]
    by_cases hcase : index = idx2 ∧ index < (arm w wid).2.reg.channels.length
    · rw [if_pos hcase]
      exact hVnot
    · rw [if_neg hcase]
      have hne2 : idx2 ≠ index := fun hx => hcase ⟨hx.symm, hidxW⟩
      rw [hother idx2 hne2]
      exact hfresh idx2 hlt2

set_option maxRecDepth 40000 in
theorem c4_notify_disarm_exclusive_witness :
    RI single_world.reg ∧
    0 < single_world.waiters.length ∧
    (single_world.waiters.getD 0 default).turn_addr ≠ 0 ∧
    (arm single_world 0).1 = true ∧
    ((notify (arm single_world 0).2 (single_world.waiters.getD 0 default).turn_addr
        (single_world.waiters.getD 0 default).expected_turn).2).count 0 = 1 ∧
    ((notify (disarm (arm single_world 0).2 0)
      (single_world.waiters.getD 0 default).turn_addr
      (single_world.waiters.getD 0 default).expected_turn).2).count 0 = 0 := by
  have hfresh : ∀ i, i < wait_channel_count →
      (0 : Nat) ∉ (getch single_world.reg.channels i).waiters := by
    intro i hi
    show (0 : Nat) ∉ (getch Registry.init.channels i).waiters
    rw [getch_init i hi]
    exact List.not_mem_nil 0
  have hhint : ∀ j, j < wait_channel_count →
      (getch single_world.reg.channels j).key_tag =
        mix_key (single_world.waiters.getD 0 default).turn_addr
          (single_world.waiters.getD 0 default).expected_turn →
      (getch single_world.reg.channels j).turn_addr =
        (single_world.waiters.getD 0 default).turn_addr →
      (getch single_world.reg.channels j).expected_turn =
        (single_world.waiters.getD 0 default).expected_turn →
      (single_world.waiters.getD 0 default).channel_hint = j := by
    intro j hj htag _ _
    have htag' : (getch Registry.init.channels j).key_tag = mix_key 64 1 := htag
    rw [getch_init j hj] at htag'
    exact absurd htag'.symm (mix_key_ne_zero 64 1)
  have harm : (arm single_world 0).1 = true := by decide
  obtain ⟨h1, _, _, h4⟩ :=
    c4_notify_disarm_exclusive single_world 0 ri_init (by decide) (by decide)
      hfresh hhint harm
  exact ⟨ri_init, by decide, by decide, harm, h1, h4⟩

theorem overflow_channels_getch (n j : Nat) (hj : j < wait_channel_count) :
    getch (overflow_channels n) j =
      if j < n then filled_channel j else empty_channel := by
  unfold overflow_channels
  exact getch_map_range _ _ _ hj

theorem overflow_channels_length (n : Nat) :
    (overflow_channels n).length = wait_channel_count := by
  unfold overflow_channels
  rw [List.length_map, List.length_range]

theorem arm_overflow_step (n pw oc : Nat) (hn : n < wait_channel_count)
    (W : NotifyWorld)
    (hW : W = ⟨⟨overflow_channels n, pw, oc⟩,
      (List.range (wait_channel_count + 1)).map
        (fun j => if j < n then armed_overflow_waiter j else overflow_waiter j),
      fun _ => 0⟩) :
    (arm W n).2.reg.channels = overflow_channels (n + 1) ∧
    (arm W n).2.waiters = (List.range (wait_channel_count + 1)).map
      (fun j => if j < n + 1 then armed_overflow_waiter j else overflow_waiter j) ∧
    (arm W n).2.mem = fun _ => 0 := by
  subst hW
  have hn' : n < 1024 := hn
  have hturnf : ¬(turn_reached 0 1 = true) := by decide
  have hgd : ((List.range (wait_channel_count + 1)).map
      (fun j => if j < n then armed_overflow_waiter j else overflow_waiter j)).getD n
        default =
      ⟨64 * (n + 1), 1, n, false, false, false, invalid_channel_index⟩ := by
    rw [getD_map_range _ _ _ _ (by omega : n < wait_channel_count + 1)]
    rw [if_neg (Nat.lt_irrefl n)]
    unfold overflow_waiter
    rw [if_pos hn]
  have hch_empty : getch (overflow_channels n) n = empty_channel := by
    rw [overflow_channels_getch n n hn]
    rw [if_neg (Nat.lt_irrefl n)]
  have hhint : lock_channel_by_hint (overflow_channels n) n
      (mix_key (64 * (n + 1)) 1) = some n := by
    unfold lock_channel_by_hint
    rw [if_neg (show ¬ n = invalid_channel_index by
      show ¬ n = 65535
      omega)]
    dsimp only
    rw [show n &&& (wait_channel_count - 1) = n from by
      rw [show wait_channel_count - 1 = 1023 from rfl, and_1023_eq_mod]
      exact Nat.mod_eq_of_lt hn']
    rw [hch_empty]
    rw [if_neg (fun hx => hx.1 rfl)]
  have hfr : find_or_reserve_channel (⟨overflow_channels n, pw, oc⟩ : Registry) n
      (64 * (n + 1)) 1 (mix_key (64 * (n + 1)) 1) =
      (seize_channel ⟨overflow_channels n, pw, oc⟩ n (64 * (n + 1)) 1
        (mix_key (64 * (n + 1)) 1), some n) := by
    unfold find_or_reserve_channel
    dsimp only
    rw [hhint]
    dsimp only
    rw [hch_empty]
    rw [if_neg (fun hx => by
      have h0 : (0 : Nat) = 64 * (n + 1) := hx.1
      omega)]
    rw [if_pos (show empty_channel.waiters = ([] : List Nat) from rfl)]
  have hseize : seize_channel (⟨overflow_channels n, pw, oc⟩ : Registry) n
      (64 * (n + 1)) 1 (mix_key (64 * (n + 1)) 1) =
      ⟨(overflow_channels n).set n
        ⟨mix_key (64 * (n + 1)) 1, 64 * (n + 1), 1, []⟩, pw, oc⟩ := by
    unfold seize_channel
    dsimp only
    rw [hch_empty]
    rfl
  have heval : arm (⟨⟨overflow_channels n, pw, oc⟩,
      (List.range (wait_channel_count + 1)).map
        (fun j => if j < n then armed_overflow_waiter j else overflow_waiter j),
      fun _ => 0⟩ : NotifyWorld) n = (true,
      ⟨⟨((overflow_channels n).set n
          ⟨mix_key (64 * (n + 1)) 1, 64 * (n + 1), 1, []⟩).set n
          ⟨mix_key (64 * (n + 1)) 1, 64 * (n + 1), 1, [n]⟩, pw, oc + 1⟩,
        ((List.range (wait_channel_count + 1)).map
          (fun j => if j < n then armed_overflow_waiter j else overflow_waiter j)).set n
          ⟨64 * (n + 1), 1, n, true, true, false, n⟩,
        fun _ => 0⟩) := by
    unfold arm
    dsimp only
    rw [hgd]
    dsimp only
    rw [if_neg hturnf]
    rw [hfr]
    dsimp only
    rw [if_neg hturnf]
    rw [hseize]
    dsimp only
    rw [getch_set, if_pos (show n = n ∧ n < (overflow_channels n).length from
      ⟨rfl, by rw [overflow_channels_length]; exact hn⟩)]
    dsimp only
    rw [if_neg hturnf]
    rw [if_pos (show List.length ([] : List Nat) = 0 from rfl)]
  have hchaneq : (overflow_channels n).set n
      ⟨mix_key (64 * (n + 1)) 1, 64 * (n + 1), 1, [n]⟩ =
      overflow_channels (n + 1) := by
    unfold overflow_channels
    rw [map_range_set _ _ _ _ hn]
    apply map_range_congr
    intro j hj
    by_cases hje : j = n
    · subst hje
      rw [if_pos rfl, if_pos (by omega)]
      unfold filled_channel
      rfl
    · rw [if_neg hje]
      by_cases hjn : j < n
      · rw [if_pos hjn, if_pos (by omega)]
      · rw [if_neg hjn, if_neg (by omega)]
  have hwaiteq : ((List.range (wait_channel_count + 1)).map
      (fun j => if j < n then armed_overflow_waiter j else overflow_waiter j)).set n
      ⟨64 * (n + 1), 1, n, true, true, false, n⟩ =
      (List.range (wait_channel_count + 1)).map
        (fun j => if j < n + 1 then armed_overflow_waiter j else overflow_waiter j) := by
    rw [map_range_set _ _ _ _ (by omega : n < wait_channel_count + 1)]
    apply map_range_congr
    intro j hj
    by_cases hje : j = n
    · subst hje
      rw [if_pos rfl, if_pos (by omega)]
      unfold armed_overflow_waiter
      rfl
    · rw [if_neg hje]
      by_cases hjn : j < n
      · rw [if_pos hjn, if_pos (by omega)]
      · rw [if_neg hjn, if_neg (by omega)]
  refine ⟨?_, ?_, ?_⟩
  · rw [heval]
    dsimp only
    rw [List.set_set]
    exact hchaneq
  · rw [heval]
    dsimp only
    exact hwaiteq
  · rw [heval]

theorem arm_seq_inv : ∀ n, n ≤ wait_channel_count →
    (arm_seq overflow_world n).reg.channels = overflow_channels n ∧
    (arm_seq overflow_world n).waiters = (List.range (wait_channel_count + 1)).map
      (fun j => if j < n then armed_overflow_waiter j else overflow_waiter j) ∧
    (arm_seq overflow_world n).mem = fun _ => 0 := by
  intro n
  induction n with
  | zero =>
    intro _
    refine ⟨?_, ?_, rfl⟩
    · show Registry.init.channels = overflow_channels 0
      unfold Registry.init overflow_channels
      dsimp only
      rw [map_range_congr _ (fun _ => empty_channel) _
        (fun j _ => if_neg (Nat.not_lt_zero j))]
      rw [List.map_const', List.length_range]
    · show overflow_world.waiters = _
      unfold overflow_world
      dsimp only
      exact map_range_congr _ _ _ (fun j _ => (if_neg (Nat.not_lt_zero j)).symm)
  | succ n ih =>
    intro hle
    have hn : n < wait_channel_count := by omega
    obtain ⟨hch, hws, hmem⟩ := ih (by omega)
    have hW : arm_seq overflow_world n = ⟨⟨overflow_channels n,
        (arm_seq overflow_world n).reg.probe_window,
        (arm_seq overflow_world n).reg.occupied_channel_count⟩,
        (List.range (wait_channel_count + 1)).map
          (fun j => if j < n then armed_overflow_waiter j else overflow_waiter j),
        fun _ => 0⟩ := by
      rw [← hch, ← hws, ← hmem]
    exact arm_overflow_step n _ _ hn _ hW

theorem probe_rounds_all_tagged (reg : Registry) (a e t s : Nat)
    (hmatch : ∀ j, j < wait_channel_count →
      ¬((getch reg.channels j).key_tag = t ∧ (getch reg.channels j).turn_addr = a ∧
        (getch reg.channels j).expected_turn = e))
    (hzero : ∀ j, j < wait_channel_count → (getch reg.channels j).key_tag ≠ 0) :
    (probe_rounds reg a e t s).2 = none := by
  have hao : ∀ r : Registry, r.channels = reg.channels →
      attempt_once r a e t s = Sum.inr (maybe_grow_probe_window r (probe_window r)) := by
    intro r hr
    unfold attempt_once
    dsimp only
    rw [show lock_matching_channel r.channels a e t s (probe_window r) = none from by
      rw [hr]
      exact lock_matching_channel_none _ _ _ _ _ _ hmatch]
    rw [show lock_empty_channel r.channels s (probe_window r) = none from by
      rw [hr]
      exact find_empty_go_none _ _ hzero _ 0]
  have hg : ∀ r : Registry, (maybe_grow_probe_window r (probe_window r)).channels
      = r.channels := by
    intro r
    unfold maybe_grow_probe_window
    by_cases hc : 256 ≤ probe_window r
    · rw [if_pos hc]
    · rw [if_neg hc]
  have hfull : ∀ r : Registry, r.channels = reg.channels →
      full_table_rounds r a e t s = (r, none) := by
    intro r hr
    unfold full_table_rounds
    rw [show lock_matching_channel r.channels a e t s wait_channel_count = none from by
      rw [hr]
      exact lock_matching_channel_none _ _ _ _ _ _ hmatch]
    rw [show lock_empty_channel r.channels s wait_channel_count = none from by
      rw [hr]
      exact find_empty_go_none _ _ hzero _ 0]
  unfold probe_rounds
  rw [hao reg rfl]
  dsimp only
  generalize hA : maybe_grow_probe_window reg (probe_window reg) = r1
  have hr1 : r1.channels = reg.channels := by
    rw [← hA]
    exact hg reg
  rw [hao r1 hr1]
  dsimp only
  generalize hB : maybe_grow_probe_window r1 (probe_window r1) = r2
  have hr2 : r2.channels = reg.channels := by
    rw [← hB, hg]
    exact hr1
  rw [hao r2 hr2]
  dsimp only
  generalize hC : maybe_grow_probe_window r2 (probe_window r2) = r3
  have hr3 : r3.channels = reg.channels := by
    rw [← hC, hg]
    exact hr2
  rw [hfull r3 hr3]

theorem arm_false_of_no_bucket (W : NotifyWorld) (wid a e hint : Nat)
    (h1 : (W.waiters.getD wid default).turn_addr = a)
    (h2 : (W.waiters.getD wid default).expected_turn = e)
    (h3 : (W.waiters.getD wid default).channel_hint = hint)
    (ht : turn_reached (W.mem a) e = false)
    (hfr : (find_or_reserve_channel W.reg hint a e (mix_key a e)).2 = none) :
    (arm W wid).1 = false := by
  unfold arm
  dsimp only
  rw [h1, h2, h3]
  rw [if_neg (by rw [ht]; exact Bool.false_ne_true)]
  rcases hfr0 : find_or_reserve_channel W.reg hint a e (mix_key a e) with ⟨regF, oi⟩
  rw [hfr0] at hfr
  dsimp only at hfr
  subst hfr
  rfl

theorem find_or_reserve_invalid_hint (reg : Registry) (a e t : Nat)
    (hpr : (probe_rounds reg a e t (hash_key a e)).2 = none) :
    (find_or_reserve_channel reg invalid_channel_index a e t).2 = none := by
  unfold find_or_reserve_channel
  dsimp only
  rw [show lock_channel_by_hint reg.channels invalid_channel_index t = none from by
    unfold lock_channel_by_hint
    rw [if_pos rfl]]
  exact hpr

/-- C3 counterexample: in the sequential history that arms waiters
`0 .. 1023` (pairwise distinct keys, every bucket becomes tagged), the
1025th waiter's `arm` returns `false` even though its turn word still
reads 0 and its expected turn 1 has not been reached — refuting the
claimed "returns false if and only if the turn has been reached". -/
theorem c3_arm_false_despite_unreached_turn :
    overflow_last.1 = false ∧
    turn_reached (overflow_armed.mem
        (overflow_armed.waiters.getD wait_channel_count default).turn_addr)
      (overflow_armed.waiters.getD wait_channel_count default).expected_turn
      = false := by
  obtain ⟨hch, hws, hmem⟩ := arm_seq_inv wait_channel_count (Nat.le_refl _)
  have hch' : overflow_armed.reg.channels = overflow_channels wait_channel_count := by
    unfold overflow_armed
    exact hch
  have hws' : overflow_armed.waiters = (List.range (wait_channel_count + 1)).map
      (fun j => if j < wait_channel_count then armed_overflow_waiter j
        else overflow_waiter j) := by
    unfold overflow_armed
    exact hws
  have hmem' : overflow_armed.mem = fun _ => 0 := by
    unfold overflow_armed
    exact hmem
  have hgd : overflow_armed.waiters.getD wait_channel_count default =
      ⟨64 * (wait_channel_count + 1), 1, invalid_channel_index, false, false, false,
        invalid_channel_index⟩ := by
    rw [hws']
    rw [getD_map_range _ _ _ _ (by omega : wait_channel_count < wait_channel_count + 1)]
    rw [if_neg (Nat.lt_irrefl _)]
    unfold overflow_waiter
    rw [if_neg (Nat.lt_irrefl _)]
  have hturn2 : turn_reached (overflow_armed.mem
      (overflow_armed.waiters.getD wait_channel_count default).turn_addr)
      (overflow_armed.waiters.getD wait_channel_count default).expected_turn
      = false := by
    rw [hgd]
    rw [show ((⟨64 * (wait_channel_count + 1), 1, invalid_channel_index, false, false,
      false, invalid_channel_index⟩ : NWaiter)).turn_addr
      = 64 * (wait_channel_count + 1) from rfl]
    rw [show ((⟨64 * (wait_channel_count + 1), 1, invalid_channel_index, false, false,
      false, invalid_channel_index⟩ : NWaiter)).expected_turn = 1 from rfl]
    rw [show overflow_armed.mem (64 * (wait_channel_count + 1)) = 0 from by rw [hmem']]
    decide
  refine ⟨?_, hturn2⟩
  have hnomatch : ∀ j, j < wait_channel_count →
      ¬((getch overflow_armed.reg.channels j).key_tag =
          mix_key (64 * (wait_channel_count + 1)) 1 ∧
        (getch overflow_armed.reg.channels j).turn_addr =
          64 * (wait_channel_count + 1) ∧
        (getch overflow_armed.reg.channels j).expected_turn = 1) := by
    intro j hj hx
    rw [hch', overflow_channels_getch _ j hj, if_pos hj] at hx
    have h2 := hx.2.1
    unfold filled_channel at h2
    have h2' : 64 * (j + 1) = 64 * 1025 := h2
    have hj' : j < 1024 := hj
    omega
  have hzero : ∀ j, j < wait_channel_count →
      (getch overflow_armed.reg.channels j).key_tag ≠ 0 := by
    intro j hj
    rw [hch', overflow_channels_getch _ j hj, if_pos hj]
    exact mix_key_ne_zero _ _
  have hfr2 : (find_or_reserve_channel overflow_armed.reg invalid_channel_index
      (64 * (wait_channel_count + 1)) 1
      (mix_key (64 * (wait_channel_count + 1)) 1)).2 = none :=
    find_or_reserve_invalid_hint overflow_armed.reg _ _ _
      (probe_rounds_all_tagged overflow_armed.reg _ _ _ _ hnomatch hzero)
  have hmain : (arm overflow_armed wait_channel_count).1 = false := by
    apply arm_false_of_no_bucket overflow_armed wait_channel_count
      (64 * (wait_channel_count + 1)) 1 invalid_channel_index
    · rw [hgd]
    · rw [hgd]
    · rw [hgd]
    · rw [show overflow_armed.mem (64 * (wait_channel_count + 1)) = 0 from by
        rw [hmem']]
      decide
    · exact hfr2
  unfold overflow_last
  exact hmain
